import Mathlib

/-!
Verification of a SLIP-0039 Shamir mnemonic library (TypeScript sources).

The development shallowly embeds the library: byte buffers become `List Nat`
(each element `< 256`), 10-bit mnemonic words become `Nat` (each `< 1024`),
fallible functions return `Except Err`, and the two external cryptographic
primitives (HMAC-SHA256 and PBKDF2-HMAC-SHA256, provided by the Node `crypto`
module and hence not part of the sources) are passed in as explicit function
parameters together with the length/byte-range contracts the library relies
on.  The injectable random-byte source `RANDOM_BYTES` is modelled as a
deterministic byte stream with a read position.

The SLIP-0039 wordlist module (`src/wordlist.ts`) is not among the provided
sources; following the specification it is an index-to-word bijection, so the
mnemonic codec is modelled at the level of 10-bit word indices.
-/

set_option maxRecDepth 20000

namespace Slip39

/-- Errors: the library distinguishes the domain-specific `MnemonicError`
from generic programming errors (`Error`). -/
inductive Err where
  | mnemonic (msg : String)
  | generic (msg : String)
deriving DecidableEq, Repr

/-! ## Small Nat/bit auxiliary lemmas -/

theorem xor_left_comm (a b c : Nat) : a ^^^ (b ^^^ c) = b ^^^ (a ^^^ c) := by
  rw [← Nat.xor_assoc, Nat.xor_comm a b, Nat.xor_assoc]

theorem and_mask_eq_mod (a n : Nat) : a &&& (2 ^ n - 1) = a % 2 ^ n :=
  Nat.and_pow_two_sub_one_eq_mod a n

theorem shiftLeft_xor_distrib (a b n : Nat) :
    (a ^^^ b) <<< n = (a <<< n) ^^^ (b <<< n) := by
  apply Nat.eq_of_testBit_eq
  intro i
  simp only [Nat.testBit_shiftLeft, Nat.testBit_xor]
  cases Decidable.em (i ≥ n) with
  | inl h => simp [h]
  | inr h => simp [h]

theorem shiftRight_xor_distrib (a b n : Nat) :
    (a ^^^ b) >>> n = (a >>> n) ^^^ (b >>> n) := by
  apply Nat.eq_of_testBit_eq
  intro i
  simp [Nat.testBit_shiftRight, Nat.testBit_xor]

/-- A shifted value or-ed with a small value is the corresponding
big-endian combination.  This is how JavaScript's
`(acc << bits) | digit` accumulates big-endian digits. -/
theorem shiftLeft_or_eq_add (a b n : Nat) (hb : b < 2 ^ n) :
    (a <<< n) ||| b = a * 2 ^ n + b := by
  have hhi : ((a <<< n) ||| b) >>> n = a := by
    apply Nat.eq_of_testBit_eq
    intro i
    have hbf : b.testBit (n + i) = false :=
      Nat.testBit_lt_two_pow (lt_of_lt_of_le hb (Nat.pow_le_pow_right (by norm_num) (Nat.le_add_right n i)))
    simp [Nat.testBit_shiftRight, Nat.testBit_lor, Nat.testBit_shiftLeft, hbf,
      Nat.add_sub_cancel_left, Nat.le_add_right]
  have hlo : ((a <<< n) ||| b) % 2 ^ n = b := by
    rw [← and_mask_eq_mod]
    apply Nat.eq_of_testBit_eq
    intro i
    rcases Decidable.em (i < n) with h | h
    · have hmask : (2 ^ n - 1).testBit i = true := by
        rw [Nat.testBit_two_pow_sub_one]
        simpa using h
      have ha : (a <<< n).testBit i = false := by
        rw [Nat.testBit_shiftLeft]
        have hni : ¬ (i ≥ n) := by omega
        simp [hni]
      simp [Nat.testBit_land, Nat.testBit_lor, ha, h]
    · have hbf : b.testBit i = false :=
        Nat.testBit_lt_two_pow (lt_of_lt_of_le hb (Nat.pow_le_pow_right (by norm_num) (Nat.le_of_not_lt h)))
      simp [Nat.testBit_land, Nat.testBit_lor, hbf, h]
  have hdm := Nat.div_add_mod ((a <<< n) ||| b) (2 ^ n)
  rw [← Nat.shiftRight_eq_div_pow] at hdm
  rw [hhi, hlo] at hdm
  rw [← hdm]
  ring

theorem xor_disjoint_eq_add (a b n : Nat) (hb : b < 2 ^ n) :
    (a <<< n) ^^^ b = a * 2 ^ n + b := by
  rw [← shiftLeft_or_eq_add a b n hb]
  apply Nat.eq_of_testBit_eq
  intro i
  rcases Decidable.em (i < n) with h | h
  · simp [Nat.testBit_xor, Nat.testBit_lor, Nat.testBit_shiftLeft, Nat.not_le.mpr h]
  · have hbf : b.testBit i = false :=
      Nat.testBit_lt_two_pow (lt_of_lt_of_le hb (Nat.pow_le_pow_right (by norm_num) (Nat.le_of_not_lt h)))
    simp [Nat.testBit_xor, Nat.testBit_lor, hbf]

/-! ## utils.ts -/

/-- Get the number of radixBits-sized digits required to store a n-bit value. -/
def _roundBits (n radixBits : Nat) : Nat := (n + radixBits - 1) / radixBits

/-- Round up bit count to whole bytes. -/
def bitsToBytes (n : Nat) : Nat := _roundBits n 8

/-- Round up bit count to a multiple of the 10-bit word size. -/
def bitsToWords (n : Nat) : Nat := _roundBits n 10

/-- Convert an integer value to fixed-width digits in big endian order
(the generator `intToIndices` of utils.ts, materialised as a list). -/
def intToIndices (value length radixBits : Nat) : List Nat :=
  (List.range length).map
    (fun k => (value >>> ((length - 1 - k) * radixBits)) &&& ((1 <<< radixBits) - 1))

theorem intToIndices_length (value length radixBits : Nat) :
    (intToIndices value length radixBits).length = length := by
  simp [intToIndices]

theorem intToIndices_lt (value length radixBits : Nat) :
    ∀ d ∈ intToIndices value length radixBits, d < 2 ^ radixBits := by
  intro d hd
  simp only [intToIndices, List.mem_map] at hd
  obtain ⟨k, -, rfl⟩ := hd
  have h1 : (1 : Nat) <<< radixBits = 2 ^ radixBits := Nat.one_shiftLeft radixBits
  rw [h1, and_mask_eq_mod]
  exact Nat.mod_lt _ (Nat.pos_pow_of_pos _ (by norm_num))

/-- Big-endian digit accumulator: folds digits as `acc * 2^bits + d`.
In share.ts this appears as `value = value * RADIX + index` (parsing) and
as `(value <<< 8) | byte` (byte packing). -/
def accDigits (bits : Nat) (ds : List Nat) : Nat :=
  ds.foldl (fun acc d => acc * 2 ^ bits + d) 0

theorem accDigits_nil (bits : Nat) : accDigits bits [] = 0 := rfl

theorem accDigits_foldl_init (bits : Nat) (l : List Nat) (init : Nat) :
    l.foldl (fun acc d => acc * 2 ^ bits + d) init
      = init * 2 ^ (bits * l.length) + accDigits bits l := by
  induction l generalizing init with
  | nil => simp [accDigits]
  | cons d l ih =>
      have hd : accDigits bits (d :: l) = d * 2 ^ (bits * l.length) + accDigits bits l := by
        show l.foldl (fun acc d => acc * 2 ^ bits + d) (0 * 2 ^ bits + d)
          = d * 2 ^ (bits * l.length) + accDigits bits l
        rw [ih]
        ring_nf
      simp only [List.foldl_cons, List.length_cons]
      rw [ih, hd]
      have : bits * (l.length + 1) = bits + bits * l.length := by ring
      rw [this, Nat.pow_add]
      ring

theorem accDigits_append (bits : Nat) (l1 l2 : List Nat) :
    accDigits bits (l1 ++ l2) =
      accDigits bits l1 * 2 ^ (bits * l2.length) +
        accDigits bits l2 := by
  show (l1 ++ l2).foldl (fun acc d => acc * 2 ^ bits + d) 0 = _
  rw [List.foldl_append, accDigits_foldl_init]
  rfl

theorem accDigits_lt (bits : Nat) (ds : List Nat)
    (h : ∀ d ∈ ds, d < 2 ^ bits) : accDigits bits ds < 2 ^ (bits * ds.length) := by
  induction ds using List.reverseRecOn with
  | nil => simp [accDigits]
  | append_singleton xs x ih =>
      have hx : x < 2 ^ bits := h x (by simp)
      have hxs : accDigits bits xs < 2 ^ (bits * xs.length) :=
        ih (fun d hd => h d (by simp [hd]))
      have : accDigits bits (xs ++ [x]) = accDigits bits xs * 2 ^ bits + x := by
        rw [accDigits_append]
        simp [accDigits]
      rw [this]
      have : bits * (xs ++ [x]).length = bits * xs.length + bits := by
        simp [List.length_append]; ring
      rw [this, Nat.pow_add]
      calc accDigits bits xs * 2 ^ bits + x
          ≤ (2 ^ (bits * xs.length) - 1) * 2 ^ bits + x := by
            have := Nat.le_sub_one_of_lt hxs
            exact Nat.add_le_add_right (Nat.mul_le_mul_right _ this) x
        _ < 2 ^ (bits * xs.length) * 2 ^ bits := by
            have h1 : 0 < 2 ^ (bits * xs.length) := Nat.pos_pow_of_pos _ (by norm_num)
            have h2 : 0 < 2 ^ bits := Nat.pos_pow_of_pos _ (by norm_num)
            calc (2 ^ (bits * xs.length) - 1) * 2 ^ bits + x
                < (2 ^ (bits * xs.length) - 1) * 2 ^ bits + 2 ^ bits :=
                  Nat.add_lt_add_left hx _
              _ = 2 ^ (bits * xs.length) * 2 ^ bits := by
                  rw [Nat.sub_mul, Nat.one_mul]
                  have h3 : 2 ^ bits ≤ 2 ^ (bits * xs.length) * 2 ^ bits :=
                    Nat.le_mul_of_pos_left _ h1
                  omega

/-- Big-endian digit extraction decomposes by splitting off the last digit. -/
theorem intToIndices_succ (value m bits : Nat) :
    intToIndices value (m + 1) bits
      = intToIndices (value >>> bits) m bits ++ [value &&& ((1 <<< bits) - 1)] := by
  apply List.ext_getElem
  · simp [intToIndices_length]
  intro k hk1 hk2
  rw [intToIndices_length] at hk1
  rcases Decidable.em (k < m) with hk | hk
  · rw [List.getElem_append_left (by rwa [intToIndices_length])]
    simp only [intToIndices, List.getElem_map, List.getElem_range]
    have h1 : m + 1 - 1 - k = (m - 1 - k) + 1 := by omega
    rw [h1]
    congr 1
    rw [Nat.shiftRight_eq_div_pow, Nat.shiftRight_eq_div_pow, Nat.shiftRight_eq_div_pow]
    rw [Nat.div_div_eq_div_mul]
    congr 1
    rw [← Nat.pow_add]
    congr 1
    ring
  · have hkm : k = m := by omega
    subst hkm
    rw [List.getElem_append_right (by rw [intToIndices_length])]
    simp [intToIndices, intToIndices_length]

/-- Extracting big-endian digits of an accumulated value recovers the digits. -/
theorem intToIndices_accDigits (bits : Nat) (ds : List Nat)
    (h : ∀ d ∈ ds, d < 2 ^ bits) :
    intToIndices (accDigits bits ds) ds.length bits = ds := by
  induction ds using List.reverseRecOn with
  | nil => simp [intToIndices]
  | append_singleton xs x ih =>
      have hx : x < 2 ^ bits := h x (by simp)
      have hxs : ∀ d ∈ xs, d < 2 ^ bits := fun d hd => h d (by simp [hd])
      have hacc : accDigits bits (xs ++ [x]) = accDigits bits xs * 2 ^ bits + x := by
        rw [accDigits_append]; simp [accDigits]
      have hlen : (xs ++ [x]).length = xs.length + 1 := by simp
      rw [hacc, hlen, intToIndices_succ]
      have hshift : (accDigits bits xs * 2 ^ bits + x) >>> bits = accDigits bits xs := by
        rw [Nat.shiftRight_eq_div_pow, Nat.mul_comm (accDigits bits xs) (2 ^ bits),
          Nat.mul_add_div (Nat.pos_pow_of_pos _ (by norm_num)), Nat.div_eq_of_lt hx,
          Nat.add_zero]
      have hmask : (accDigits bits xs * 2 ^ bits + x) &&& ((1 <<< bits) - 1) = x := by
        rw [Nat.one_shiftLeft, and_mask_eq_mod, Nat.mul_comm (accDigits bits xs) (2 ^ bits),
          Nat.mul_add_mod, Nat.mod_eq_of_lt hx]
      rw [hshift, hmask, ih hxs]

/-- Accumulating the extracted big-endian digits of a bounded value
recovers the value. -/
theorem accDigits_intToIndices (bits : Nat) (value n : Nat)
    (h : value < 2 ^ (bits * n)) :
    accDigits bits (intToIndices value n bits) = value := by
  induction n generalizing value with
  | zero =>
      simp only [Nat.mul_zero, Nat.pow_zero, Nat.lt_one_iff] at h
      simp [intToIndices, accDigits, h]
  | succ m ih =>
      rw [intToIndices_succ, accDigits_append]
      have hv : value >>> bits < 2 ^ (bits * m) := by
        rw [Nat.shiftRight_eq_div_pow]
        apply Nat.div_lt_of_lt_mul
        calc value < 2 ^ (bits * (m + 1)) := h
          _ = 2 ^ bits * 2 ^ (bits * m) := by
              rw [← Nat.pow_add]
              congr 1
              ring
      rw [ih _ hv]
      have hone : accDigits bits [value &&& ((1 <<< bits) - 1)] = value % 2 ^ bits := by
        simp only [accDigits, List.foldl_cons, List.foldl_nil, Nat.zero_mul, Nat.zero_add]
        rw [Nat.one_shiftLeft, and_mask_eq_mod]
      rw [hone]
      have he : bits * [value &&& 1 <<< bits - 1].length = bits := by
        simp
      rw [he, Nat.shiftRight_eq_div_pow, Nat.mul_comm (value / 2 ^ bits) (2 ^ bits)]
      exact Nat.div_add_mod value (2 ^ bits)

/-! ## rs1024.ts -/

def CHECKSUM_LENGTH_WORDS : Nat := 3

/-- The ten RS1024 generator constants of rs1024.ts. -/
def GEN : List Nat :=
  [0xE0E040, 0x1C1C080, 0x3838100, 0x7070200, 0xE0E0009,
   0x1C0C2412, 0x38086C24, 0x3090FC48, 0x21B1F890, 0x3F3F120]

/-- One iteration of the `_polymod` loop of rs1024.ts: fold a 10-bit value
into the 30-bit state and apply the generator taps selected by the top
10 bits of the previous state. -/
def polymodStep (chk v : Nat) : Nat :=
  let b := chk >>> 20
  (List.range 10).foldl
    (fun c i => if (b >>> i) &&& 1 = 1 then c ^^^ GEN.getD i 0 else c)
    (((chk &&& 0xFFFFF) <<< 10) ^^^ v)

/-- The `_polymod` checksum folding of rs1024.ts, starting from state 1. -/
def _polymod (values : List Nat) : Nat := values.foldl polymodStep 1

/-- The `createChecksum` function of rs1024.ts: three zero words are
appended, the resulting polymod is xor-ed with 1 and emitted as three
10-bit words, most significant first. -/
def createChecksum (data customizationString : List Nat) : List Nat :=
  let values := customizationString ++ data ++ List.replicate CHECKSUM_LENGTH_WORDS 0
  let polymod := _polymod values ^^^ 1
  (List.range CHECKSUM_LENGTH_WORDS).map
    (fun k => (polymod >>> (10 * (CHECKSUM_LENGTH_WORDS - 1 - k))) &&& 1023)

/-- The `verifyChecksum` function of rs1024.ts. -/
def verifyChecksum (data customizationString : List Nat) : Bool :=
  _polymod (customizationString ++ data) == 1

/-! Linearity analysis of the RS1024 state transition.  Each step is an
affine map of the state over GF(2): `polymodStep chk v = Lmap chk ^^^ v`
with `Lmap` linear, which gives the standard perturbation lemmas for
BCH-style checksums. -/

/-- The linear part of the RS1024 state transition. -/
def Lmap (chk : Nat) : Nat := polymodStep chk 0

/-- Iterated application of `Lmap`. -/
def LmapIter : Nat → Nat → Nat
  | 0, d => d
  | n + 1, d => LmapIter n (Lmap d)

theorem foldl_tapfold_start (tab : List Nat) (e : Nat) (l : List Nat) (s : Nat) :
    l.foldl (fun acc i => if (e >>> i) &&& 1 = 1 then acc ^^^ tab.getD i 0 else acc) s
      = s ^^^ l.foldl (fun acc i => if (e >>> i) &&& 1 = 1 then acc ^^^ tab.getD i 0 else acc) 0 := by
  induction l generalizing s with
  | nil => simp
  | cons i l ih =>
      simp only [List.foldl_cons]
      rcases Decidable.em ((e >>> i) &&& 1 = 1) with h | h
      · simp only [h, if_pos]
        rw [ih (s ^^^ tab.getD i 0), ih (0 ^^^ tab.getD i 0)]
        simp only [Nat.zero_xor]
        rw [Nat.xor_assoc]
      · simp only [h, ite_false]
        exact ih s

theorem bit_and_one_lt (z : Nat) : z &&& 1 < 2 := by
  have : z &&& 1 = z % 2 := by
    have h := and_mask_eq_mod z 1
    simpa using h
  rw [this]
  exact Nat.mod_lt _ (by norm_num)

theorem foldl_tapfold_linear (tab : List Nat) (l : List Nat) (x y : Nat) :
    l.foldl (fun acc i => if ((x ^^^ y) >>> i) &&& 1 = 1 then acc ^^^ tab.getD i 0 else acc) 0
      = l.foldl (fun acc i => if (x >>> i) &&& 1 = 1 then acc ^^^ tab.getD i 0 else acc) 0
        ^^^ l.foldl (fun acc i => if (y >>> i) &&& 1 = 1 then acc ^^^ tab.getD i 0 else acc) 0 := by
  induction l with
  | nil => simp
  | cons i l ih =>
      simp only [List.foldl_cons]
      rw [foldl_tapfold_start tab (x ^^^ y) l, foldl_tapfold_start tab x l,
        foldl_tapfold_start tab y l, ih]
      have hbit : ((x ^^^ y) >>> i) &&& 1 = ((x >>> i) &&& 1) ^^^ ((y >>> i) &&& 1) := by
        rw [shiftRight_xor_distrib, Nat.and_xor_distrib_right]
      have hx2 := bit_and_one_lt (x >>> i)
      have hy2 := bit_and_one_lt (y >>> i)
      set G := tab.getD i 0 with hG
      set Fx := l.foldl (fun acc j => if (x >>> j) &&& 1 = 1 then acc ^^^ tab.getD j 0 else acc) 0 with hFx
      set Fy := l.foldl (fun acc j => if (y >>> j) &&& 1 = 1 then acc ^^^ tab.getD j 0 else acc) 0 with hFy
      rcases (show (x >>> i) &&& 1 = 0 ∨ (x >>> i) &&& 1 = 1 by omega) with hx | hx
      · rcases (show (y >>> i) &&& 1 = 0 ∨ (y >>> i) &&& 1 = 1 by omega) with hy | hy
        · have hxy : ((x ^^^ y) >>> i) &&& 1 = 0 := by rw [hbit, hx, hy]; decide
          simp [hxy, hx, hy]
        · have hxy : ((x ^^^ y) >>> i) &&& 1 = 1 := by rw [hbit, hx, hy]; decide
          simp only [hxy, hx, hy]
          norm_num
          rw [xor_left_comm]
      · rcases (show (y >>> i) &&& 1 = 0 ∨ (y >>> i) &&& 1 = 1 by omega) with hy | hy
        · have hxy : ((x ^^^ y) >>> i) &&& 1 = 1 := by rw [hbit, hx, hy]; decide
          simp only [hxy, hx, hy]
          norm_num
          rw [Nat.xor_assoc]
        · have hxy : ((x ^^^ y) >>> i) &&& 1 = 0 := by rw [hbit, hx, hy]; decide
          simp only [hxy, hx, hy]
          norm_num
          rw [Nat.xor_assoc G Fx (G ^^^ Fy), xor_left_comm Fx G Fy,
            ← Nat.xor_assoc G G, Nat.xor_self, Nat.zero_xor]

theorem Lmap_decomp (chk : Nat) :
    Lmap chk = ((chk &&& 0xFFFFF) <<< 10) ^^^
      (List.range 10).foldl
        (fun c i => if ((chk >>> 20) >>> i) &&& 1 = 1 then c ^^^ GEN.getD i 0 else c) 0 := by
  show polymodStep chk 0 = _
  unfold polymodStep
  rw [foldl_tapfold_start]
  simp [Nat.xor_zero]

theorem polymodStep_affine (chk v : Nat) : polymodStep chk v = Lmap chk ^^^ v := by
  unfold polymodStep
  rw [foldl_tapfold_start, Lmap_decomp]
  rw [Nat.xor_assoc, Nat.xor_assoc]
  congr 1
  exact Nat.xor_comm v _

theorem Lmap_linear (x y : Nat) : Lmap (x ^^^ y) = Lmap x ^^^ Lmap y := by
  rw [Lmap_decomp, Lmap_decomp, Lmap_decomp]
  rw [Nat.and_xor_distrib_right, shiftLeft_xor_distrib]
  rw [shiftRight_xor_distrib x y 20]
  rw [foldl_tapfold_linear]
  generalize ((x &&& 0xFFFFF) <<< 10) = A
  generalize ((y &&& 0xFFFFF) <<< 10) = B
  generalize (List.range 10).foldl
      (fun c i => if (x >>> 20 >>> i) &&& 1 = 1 then c ^^^ GEN.getD i 0 else c) 0 = C
  generalize (List.range 10).foldl
      (fun c i => if (y >>> 20 >>> i) &&& 1 = 1 then c ^^^ GEN.getD i 0 else c) 0 = D
  rw [Nat.xor_assoc, Nat.xor_assoc]
  congr 1
  rw [xor_left_comm]

theorem polymodStep_lt (chk v : Nat) (hv : v < 1024) : polymodStep chk v < 2 ^ 30 := by
  unfold polymodStep
  have hbase : (((chk &&& 0xFFFFF) <<< 10) ^^^ v) < 2 ^ 30 := by
    apply Nat.xor_lt_two_pow
    · rw [Nat.shiftLeft_eq]
      have h1 : chk &&& 0xFFFFF < 2 ^ 20 := by
        have := and_mask_eq_mod chk 20
        norm_num at this
        rw [this]
        exact Nat.mod_lt _ (by norm_num)
      have e1 : (2 : Nat) ^ 20 = 1048576 := by norm_num
      have e2 : (2 : Nat) ^ 10 = 1024 := by norm_num
      have e3 : (2 : Nat) ^ 30 = 1073741824 := by norm_num
      rw [e1] at h1
      rw [e2, e3]
      omega
    · calc v < 1024 := hv
        _ ≤ 2 ^ 30 := by norm_num
  have hgen : ∀ g ∈ GEN, g < 2 ^ 30 := by decide
  generalize hc : (((chk &&& 0xFFFFF) <<< 10) ^^^ v) = c at hbase
  clear hc hv
  have : ∀ (l : List Nat) (c : Nat), c < 2 ^ 30 → (∀ i ∈ l, GEN.getD i 0 < 2 ^ 30) →
      l.foldl (fun c i => if (chk >>> 20 >>> i) &&& 1 = 1 then c ^^^ GEN.getD i 0 else c) c < 2 ^ 30 := by
    intro l
    induction l with
    | nil => intro c hc _; simpa using hc
    | cons i l ih =>
        intro c hc hg
        simp only [List.foldl_cons]
        rcases Decidable.em ((chk >>> 20 >>> i) &&& 1 = 1) with h | h
        · simp only [h, if_pos]
          exact ih _ (Nat.xor_lt_two_pow hc (hg i (by simp))) (fun j hj => hg j (by simp [hj]))
        · simp only [h, ite_false]
          exact ih _ hc (fun j hj => hg j (by simp [hj]))
  apply this _ _ hbase
  decide

/-- Folding from an intermediate state. -/
def polymodFrom (p : Nat) (ws : List Nat) : Nat := ws.foldl polymodStep p

theorem polymod_eq_from (values : List Nat) : _polymod values = polymodFrom 1 values := rfl

theorem polymodFrom_append (p : Nat) (l1 l2 : List Nat) :
    polymodFrom p (l1 ++ l2) = polymodFrom (polymodFrom p l1) l2 := by
  simp [polymodFrom, List.foldl_append]

theorem LmapIter_succ_out (n : Nat) (d : Nat) :
    LmapIter (n + 1) d = Lmap (LmapIter n d) := by
  induction n generalizing d with
  | zero => rfl
  | succ m ih =>
      show LmapIter (m + 1) (Lmap d) = _
      rw [ih (Lmap d)]
      rfl

/-- Perturbing the state before folding perturbs the result linearly. -/
theorem polymodFrom_state_xor (ws : List Nat) (p d : Nat) :
    polymodFrom (p ^^^ d) ws = polymodFrom p ws ^^^ LmapIter ws.length d := by
  induction ws generalizing p d with
  | nil => rfl
  | cons w ws ih =>
      show polymodFrom (polymodStep (p ^^^ d) w) ws = polymodFrom (polymodStep p w) ws ^^^ _
      have hstep : polymodStep (p ^^^ d) w = polymodStep p w ^^^ Lmap d := by
        rw [polymodStep_affine, polymodStep_affine, Lmap_linear]
        rw [Nat.xor_assoc, Nat.xor_comm (Lmap d) w, ← Nat.xor_assoc]
      rw [hstep, ih]
      rfl

/-- Perturbing one data word perturbs the result by an iterate of `Lmap`. -/
theorem polymodFrom_data_xor (p w u : Nat) (ws : List Nat) :
    polymodFrom p ((w ^^^ u) :: ws) = polymodFrom p (w :: ws) ^^^ LmapIter ws.length u := by
  show polymodFrom (polymodStep p (w ^^^ u)) ws = polymodFrom (polymodStep p w) ws ^^^ _
  have hstep : polymodStep p (w ^^^ u) = polymodStep p w ^^^ u := by
    rw [polymodStep_affine, polymodStep_affine, ← Nat.xor_assoc]
  rw [hstep]
  exact polymodFrom_state_xor ws (polymodStep p w) u

theorem polymodFrom_lt (p : Nat) (ws : List Nat) (hws : ∀ w ∈ ws, w < 1024)
    (hp : p < 2 ^ 30) : polymodFrom p ws < 2 ^ 30 := by
  induction ws generalizing p with
  | nil => exact hp
  | cons w ws ih =>
      exact ih (polymodStep p w) (fun v hv => hws v (by simp [hv]))
        (polymodStep_lt p w (hws w (by simp)))

theorem Lmap_lt (d : Nat) : Lmap d < 2 ^ 30 := polymodStep_lt d 0 (by norm_num)

/-- On small states the linear map is a plain 10-bit shift. -/
theorem Lmap_small (d : Nat) (hd : d < 2 ^ 20) : Lmap d = d <<< 10 := by
  rw [Lmap_decomp]
  have h20 : d >>> 20 = 0 := by
    rw [Nat.shiftRight_eq_div_pow]
    exact Nat.div_eq_of_lt hd
  have hmask : d &&& 0xFFFFF = d := by
    have := and_mask_eq_mod d 20
    norm_num at this
    rw [this]
    exact Nat.mod_eq_of_lt hd
  rw [h20, hmask]
  have hfold : ∀ l : List Nat,
      l.foldl (fun c i => if ((0 : Nat) >>> i) &&& 1 = 1 then c ^^^ GEN.getD i 0 else c) 0 = 0 := by
    intro l
    induction l with
    | nil => rfl
    | cons i l ih => simpa using ih
  rw [hfold (List.range 10)]
  exact Nat.xor_zero _

/-- Reassembling the three 10-bit chunks of a 30-bit checksum value. -/
theorem chunks_reassemble (pm : Nat) (hpm : pm < 2 ^ 30) :
    Lmap (Lmap ((pm >>> 20) &&& 1023)) ^^^ Lmap ((pm >>> 10) &&& 1023) ^^^ (pm &&& 1023) = pm := by
  have e10 : (1023 : Nat) = 2 ^ 10 - 1 := by norm_num
  have hc2 : (pm >>> 20) &&& 1023 < 2 ^ 10 := by
    rw [e10, and_mask_eq_mod]
    exact Nat.mod_lt _ (by norm_num)
  have hc1 : (pm >>> 10) &&& 1023 < 2 ^ 10 := by
    rw [e10, and_mask_eq_mod]
    exact Nat.mod_lt _ (by norm_num)
  have hc0 : pm &&& 1023 < 2 ^ 10 := by
    rw [e10, and_mask_eq_mod]
    exact Nat.mod_lt _ (by norm_num)
  have hL2 : Lmap ((pm >>> 20) &&& 1023) = ((pm >>> 20) &&& 1023) <<< 10 :=
    Lmap_small _ (lt_of_lt_of_le hc2 (by norm_num))
  have hsh : ((pm >>> 20) &&& 1023) <<< 10 < 2 ^ 20 := by
    rw [Nat.shiftLeft_eq]
    have := hc2
    have e1 : (2 : Nat) ^ 10 = 1024 := by norm_num
    have e2 : (2 : Nat) ^ 20 = 1048576 := by norm_num
    rw [e1] at this ⊢
    rw [e2]
    omega
  have hL22 : Lmap (((pm >>> 20) &&& 1023) <<< 10) = ((pm >>> 20) &&& 1023) <<< 10 <<< 10 :=
    Lmap_small _ hsh
  have hL1 : Lmap ((pm >>> 10) &&& 1023) = ((pm >>> 10) &&& 1023) <<< 10 :=
    Lmap_small _ (lt_of_lt_of_le hc1 (by norm_num))
  rw [hL2, hL22, hL1]
  have hshsh : ((pm >>> 20) &&& 1023) <<< 10 <<< 10 = (pm >>> 20) <<< 20 := by
    rw [Nat.shiftLeft_shiftLeft]
    congr 1
    have h30 : pm >>> 20 < 2 ^ 10 := by
      rw [Nat.shiftRight_eq_div_pow]
      apply Nat.div_lt_of_lt_mul
      calc pm < 2 ^ 30 := hpm
        _ = 2 ^ 10 * 2 ^ 20 := by norm_num
    rw [e10, Nat.and_pow_two_sub_one_eq_mod]
    exact Nat.mod_eq_of_lt h30
  rw [hshsh]
  rw [e10, and_mask_eq_mod, and_mask_eq_mod]
  have h1 : ((pm >>> 10) % 2 ^ 10) <<< 10 ^^^ pm % 2 ^ 10
      = ((pm >>> 10) % 2 ^ 10) * 2 ^ 10 + pm % 2 ^ 10 :=
    xor_disjoint_eq_add _ _ 10 (Nat.mod_lt _ (by norm_num))
  rw [Nat.xor_assoc, h1]
  have hlow : ((pm >>> 10) % 2 ^ 10) * 2 ^ 10 + pm % 2 ^ 10 < 2 ^ 20 := by
    have ha : (pm >>> 10) % 2 ^ 10 < 2 ^ 10 := Nat.mod_lt _ (by norm_num)
    have hb : pm % 2 ^ 10 < 2 ^ 10 := Nat.mod_lt _ (by norm_num)
    have e1 : (2 : Nat) ^ 10 = 1024 := by norm_num
    have e2 : (2 : Nat) ^ 20 = 1048576 := by norm_num
    rw [e1] at ha hb ⊢
    rw [e2]
    omega
  rw [xor_disjoint_eq_add _ _ 20 hlow]
  rw [Nat.shiftRight_eq_div_pow, Nat.shiftRight_eq_div_pow]
  have e1 : (2 : Nat) ^ 10 = 1024 := by norm_num
  have e2 : (2 : Nat) ^ 20 = 1048576 := by norm_num
  rw [e1, e2]
  omega

/-- Precomputed images of the basis vectors under the inverse of `Lmap`
(as a linear map on 30-bit values). -/
def INVTAB : List Nat :=
  [153067399, 305078023, 609099271, 136059911, 271064078, 541072412,
   1062968, 2125936, 4251872, 8503744, 1, 2, 4, 8, 16, 32, 64, 128,
   256, 512, 1024, 2048, 4096, 8192, 16384, 32768, 65536, 131072, 262144, 524288]

/-- The linear extension of `INVTAB`: the inverse of `Lmap` on 30-bit values. -/
def LmapInv (e : Nat) : Nat :=
  (List.range 30).foldl
    (fun acc i => if (e >>> i) &&& 1 = 1 then acc ^^^ INVTAB.getD i 0 else acc) 0

theorem LmapInv_linear (x y : Nat) : LmapInv (x ^^^ y) = LmapInv x ^^^ LmapInv y :=
  foldl_tapfold_linear INVTAB (List.range 30) x y

theorem LmapInv_Lmap_pow : ∀ i < 30, LmapInv (Lmap (2 ^ i)) = 2 ^ i := by decide

theorem Lmap_zero : Lmap 0 = 0 := by decide

theorem LmapInv_zero : LmapInv 0 = 0 := by decide

/-- On 30-bit values, `LmapInv` inverts `Lmap`: the RS1024 state transition
is injective. -/
theorem LmapInv_Lmap (d : Nat) (hd : d < 2 ^ 30) : LmapInv (Lmap d) = d := by
  have main : ∀ i, i ≤ 30 → ∀ d, d < 2 ^ i → LmapInv (Lmap d) = d := by
    intro i
    induction i with
    | zero =>
        intro _ d hd
        have : d = 0 := by omega
        subst this
        rw [Lmap_zero, LmapInv_zero]
    | succ j ih =>
        intro hj d hd
        rcases Decidable.em (d < 2 ^ j) with h | h
        · exact ih (by omega) d h
        · have hr : d - 2 ^ j < 2 ^ j := by
            have := Nat.pow_succ 2 j
            omega
          have hdecomp : d = (2 ^ j) ^^^ (d - 2 ^ j) := by
            have h1 : (1 <<< j) ^^^ (d - 2 ^ j) = 1 * 2 ^ j + (d - 2 ^ j) :=
              xor_disjoint_eq_add 1 (d - 2 ^ j) j hr
            rw [Nat.one_shiftLeft] at h1
            rw [h1]
            omega
          rw [hdecomp, Lmap_linear, LmapInv_linear]
          rw [LmapInv_Lmap_pow j (by omega), ih (by omega) _ hr]
  exact main 30 (by omega) d hd

theorem LmapIter_ne_zero (n : Nat) (u : Nat) (hu1 : u < 2 ^ 30) (hu0 : u ≠ 0) :
    LmapIter n u ≠ 0 ∧ LmapIter n u < 2 ^ 30 := by
  induction n generalizing u with
  | zero => exact ⟨hu0, hu1⟩
  | succ m ih =>
      have hlt : Lmap u < 2 ^ 30 := Lmap_lt u
      have hne : Lmap u ≠ 0 := by
        intro hz
        have := LmapInv_Lmap u hu1
        rw [hz, LmapInv_zero] at this
        exact hu0 this.symm
      exact ih (Lmap u) hlt hne

/-- Appending the created checksum makes verification succeed:
correctness of `createChecksum` against `verifyChecksum`. -/
theorem verify_createChecksum (data customizationString : List Nat)
    (hd : ∀ v ∈ data, v < 1024) (hc : ∀ v ∈ customizationString, v < 1024) :
    verifyChecksum (data ++ createChecksum data customizationString)
      customizationString = true := by
  have e10 : (1023 : Nat) = 2 ^ 10 - 1 := by norm_num
  set pre := customizationString ++ data with hpre
  have hprelt : ∀ v ∈ pre, v < 1024 := by
    intro v hv
    rcases List.mem_append.mp hv with h | h
    · exact hc v h
    · exact hd v h
  set q := polymodFrom 1 pre with hq
  have hqlt : q < 2 ^ 30 := polymodFrom_lt 1 pre hprelt (by norm_num)
  have hzeros : customizationString ++ data ++ List.replicate CHECKSUM_LENGTH_WORDS 0
      = pre ++ [0, 0, 0] := by
    rw [hpre]
    rfl
  have hpm0 : _polymod (pre ++ [0, 0, 0]) = Lmap (Lmap (Lmap q)) := by
    rw [polymod_eq_from, polymodFrom_append, ← hq]
    show polymodFrom (polymodStep (polymodStep (polymodStep q 0) 0) 0) [] = _
    show polymodStep (polymodStep (polymodStep q 0) 0) 0 = _
    rfl
  set pm := _polymod (pre ++ [0, 0, 0]) ^^^ 1 with hpm
  have hpmlt : pm < 2 ^ 30 := by
    rw [hpm]
    apply Nat.xor_lt_two_pow
    · rw [hpm0]
      exact Lmap_lt _
    · norm_num
  have hcs : createChecksum data customizationString
      = [(pm >>> 20) &&& 1023, (pm >>> 10) &&& 1023, pm &&& 1023] := by
    show (List.range CHECKSUM_LENGTH_WORDS).map
        (fun k => ((_polymod (customizationString ++ data ++ List.replicate CHECKSUM_LENGTH_WORDS 0) ^^^ 1)
          >>> (10 * (CHECKSUM_LENGTH_WORDS - 1 - k))) &&& 1023) = _
    rw [hzeros]
    rfl
  show (_polymod (customizationString ++ (data ++ createChecksum data customizationString)) == 1) = true
  have hassoc : customizationString ++ (data ++ createChecksum data customizationString)
      = pre ++ createChecksum data customizationString := by
    rw [hpre, List.append_assoc]
  rw [hassoc, hcs]
  have hval : _polymod (pre ++ [(pm >>> 20) &&& 1023, (pm >>> 10) &&& 1023, pm &&& 1023]) = 1 := by
    rw [polymod_eq_from, polymodFrom_append, ← hq]
    show polymodStep (polymodStep (polymodStep q ((pm >>> 20) &&& 1023)) ((pm >>> 10) &&& 1023)) (pm &&& 1023) = 1
    rw [polymodStep_affine q, polymodStep_affine, polymodStep_affine]
    rw [Lmap_linear, Lmap_linear, Lmap_linear]
    set L3 := Lmap (Lmap (Lmap q)) with hL3
    set A := Lmap (Lmap ((pm >>> 20) &&& 1023)) with hA
    set B := Lmap ((pm >>> 10) &&& 1023) with hB
    set C := pm &&& 1023 with hC
    have hch : (A ^^^ B) ^^^ C = pm := chunks_reassemble pm hpmlt
    have hLpm : L3 = _polymod (pre ++ [0, 0, 0]) := by rw [hL3, hpm0]
    rw [Nat.xor_assoc L3 A B, Nat.xor_assoc L3 (A ^^^ B) C, hch, hpm, hLpm]
    rw [← Nat.xor_assoc, Nat.xor_self, Nat.zero_xor]
  rw [hval]
  rfl

/-- Changing a single word of a checked sequence changes the polymod value:
core of the single-word error detection property. -/
theorem polymod_set_ne (pre suf : List Nat) (d w : Nat)
    (hd : d < 1024) (hw : w < 1024) (hne : w ≠ d) :
    _polymod (pre ++ w :: suf) ≠ _polymod (pre ++ d :: suf) := by
  set u := d ^^^ w with hu
  have hu0 : u ≠ 0 := by
    intro h
    rw [hu] at h
    exact hne (Nat.xor_eq_zero.mp h).symm
  have hult : u < 1024 := Nat.xor_lt_two_pow (x := d) (y := w) (n := 10) (by norm_num at hd ⊢; omega) (by norm_num at hw ⊢; omega)
  have hwd : w = d ^^^ u := by
    rw [hu, ← Nat.xor_assoc, Nat.xor_self, Nat.zero_xor]
  rw [hwd]
  rw [polymod_eq_from, polymod_eq_from, polymodFrom_append, polymodFrom_append]
  rw [polymodFrom_data_xor]
  intro hcontra
  have h30 : u < 2 ^ 30 := lt_of_lt_of_le hult (by norm_num)
  have hne0 := (LmapIter_ne_zero suf.length u h30 hu0).1
  have hI : LmapIter suf.length u
      = polymodFrom (polymodFrom 1 pre) (d :: suf)
        ^^^ (polymodFrom (polymodFrom 1 pre) (d :: suf) ^^^ LmapIter suf.length u) := by
    rw [← Nat.xor_assoc, Nat.xor_self, Nat.zero_xor]
  rw [hcontra, Nat.xor_self] at hI
  exact hne0 hI


instance {A B : Type} [DecidableEq A] [DecidableEq B] : DecidableEq (Except A B) := fun x y =>
  match x, y with
  | .ok a, .ok b =>
      if h : a = b then .isTrue (by rw [h]) else .isFalse (fun hc => by cases hc; exact h rfl)
  | .error a, .error b =>
      if h : a = b then .isTrue (by rw [h]) else .isFalse (fun hc => by cases hc; exact h rfl)
  | .ok _, .error _ => .isFalse (fun hc => by cases hc)
  | .error _, .ok _ => .isFalse (fun hc => by cases hc)

/-! ## constants.ts -/

def RADIX_BITS : Nat := 10

def RADIX : Nat := 2 ^ RADIX_BITS

def ID_LENGTH_BITS : Nat := 15

def EXTENDABLE_FLAG_LENGTH_BITS : Nat := 1

def ITERATION_EXP_LENGTH_BITS : Nat := 4

def ID_EXP_LENGTH_WORDS : Nat :=
  bitsToWords (ID_LENGTH_BITS + EXTENDABLE_FLAG_LENGTH_BITS + ITERATION_EXP_LENGTH_BITS)

def MAX_SHARE_COUNT : Nat := 16

def DIGEST_LENGTH_BYTES : Nat := 4

/-- UTF-8 bytes of the string shamir. -/
def CUSTOMIZATION_STRING_ORIG : List Nat := [115, 104, 97, 109, 105, 114]

/-- UTF-8 bytes of the string shamir_extendable. -/
def CUSTOMIZATION_STRING_EXTENDABLE : List Nat :=
  [115, 104, 97, 109, 105, 114, 95, 101, 120, 116, 101, 110, 100, 97, 98, 108, 101]

def GROUP_PREFIX_LENGTH_WORDS : Nat := ID_EXP_LENGTH_WORDS + 1

def METADATA_LENGTH_WORDS : Nat := ID_EXP_LENGTH_WORDS + 2 + CHECKSUM_LENGTH_WORDS

def MIN_STRENGTH_BITS : Nat := 128

def MIN_MNEMONIC_LENGTH_WORDS : Nat := METADATA_LENGTH_WORDS + bitsToWords MIN_STRENGTH_BITS

def BASE_ITERATION_COUNT : Nat := 10000

def ROUND_COUNT : Nat := 4

def SECRET_INDEX : Nat := 255

def DIGEST_INDEX : Nat := 254

/-! ## share.ts

The wordlist module is not among the provided sources.  Modelled from the
spec: the wordlist is a bijection between the 1024 ten-bit indices and the
1024 English words, so `wordsFromIndices` and `mnemonicToIndices` cancel and
the codec is stated on lists of word indices. -/

def _intToWordIndices (value length : Nat) : List Nat :=
  intToIndices value length RADIX_BITS

def _intFromWordIndices (indices : List Nat) : Nat :=
  indices.foldl (fun value index => value * RADIX + index) 0

theorem _intFromWordIndices_eq_acc (l : List Nat) :
    _intFromWordIndices l = accDigits RADIX_BITS l := rfl

def _customizationString (extendable : Bool) : List Nat :=
  if extendable then CUSTOMIZATION_STRING_EXTENDABLE else CUSTOMIZATION_STRING_ORIG

structure Share where
  identifier : Nat
  extendable : Bool
  iterationExponent : Nat
  groupIndex : Nat
  groupThreshold : Nat
  groupCount : Nat
  index : Nat
  memberThreshold : Nat
  value : List Nat
deriving DecidableEq, Repr

/-- Values that uniquely identify a matching set of shares. -/
def Share.commonParameters (s : Share) : Nat × Bool × Nat × Nat × Nat :=
  (s.identifier, s.extendable, s.iterationExponent, s.groupThreshold, s.groupCount)

/-- Values that uniquely identify shares belonging to the same group. -/
def Share.groupParameters (s : Share) : Nat × Bool × Nat × Nat × Nat × Nat × Nat :=
  (s.identifier, s.extendable, s.iterationExponent, s.groupIndex,
    s.groupThreshold, s.groupCount, s.memberThreshold)

def Share._encodeIdExp (s : Share) : List Nat :=
  _intToWordIndices
    ((s.identifier <<< (ITERATION_EXP_LENGTH_BITS + EXTENDABLE_FLAG_LENGTH_BITS))
      + ((if s.extendable then 1 else 0) <<< ITERATION_EXP_LENGTH_BITS)
      + s.iterationExponent)
    ID_EXP_LENGTH_WORDS

def Share._encodeShareParams (s : Share) : List Nat :=
  _intToWordIndices
    ((((((((s.groupIndex <<< 4) + (s.groupThreshold - 1)) <<< 4)
      + (s.groupCount - 1)) <<< 4) + s.index) <<< 4) + (s.memberThreshold - 1))
    2

/-- The `words` method of share.ts at the word-index level.  The BigInt
digit-extraction loop of the source materialises the `valueWordCount`
big-endian base-1024 digits of the big-endian byte value. -/
def Share.words (s : Share) : List Nat :=
  let valueWordCount := bitsToWords (s.value.length * 8)
  let valueInt := s.value.foldl (fun acc b => (acc <<< 8) ||| b) 0
  let valueData := (List.range valueWordCount).map
    (fun k => (valueInt >>> (10 * (valueWordCount - 1 - k))) &&& 1023)
  let shareData := s._encodeIdExp ++ s._encodeShareParams ++ valueData
  shareData ++ createChecksum shareData (_customizationString s.extendable)

/-- The `fromMnemonic` parser of share.ts at the word-index level. -/
def Share.fromMnemonic (mnemonicData : List Nat) : Except Err Share :=
  if mnemonicData.length < MIN_MNEMONIC_LENGTH_WORDS then
    .error (.mnemonic "Invalid mnemonic length.")
  else
    let paddingLen := (RADIX_BITS * (mnemonicData.length - METADATA_LENGTH_WORDS)) % 16
    if 8 < paddingLen then
      .error (.mnemonic "Invalid mnemonic length.")
    else
      let idExpData := mnemonicData.take ID_EXP_LENGTH_WORDS
      let idExpInt := _intFromWordIndices idExpData
      let identifier := idExpInt >>> (EXTENDABLE_FLAG_LENGTH_BITS + ITERATION_EXP_LENGTH_BITS)
      let extendable := (idExpInt >>> ITERATION_EXP_LENGTH_BITS) &&& 1 == 1
      let iterationExponent := idExpInt &&& ((1 <<< ITERATION_EXP_LENGTH_BITS) - 1)
      if verifyChecksum mnemonicData (_customizationString extendable) = false then
        .error (.mnemonic "Invalid mnemonic checksum.")
      else
        let shareParamsData := (mnemonicData.drop ID_EXP_LENGTH_WORDS).take 2
        let shareParamsInt := _intFromWordIndices shareParamsData
        let shareParams := intToIndices shareParamsInt 5 4
        let groupIndex := shareParams.getD 0 0
        let groupThreshold := shareParams.getD 1 0
        let groupCount := shareParams.getD 2 0
        let index := shareParams.getD 3 0
        let memberThreshold := shareParams.getD 4 0
        if groupCount < groupThreshold then
          .error (.mnemonic "Invalid mnemonic: group threshold cannot be greater than group count.")
        else
          let valueData := (mnemonicData.drop (ID_EXP_LENGTH_WORDS + 2)).take
            (mnemonicData.length - CHECKSUM_LENGTH_WORDS - (ID_EXP_LENGTH_WORDS + 2))
          let valueByteCount := bitsToBytes (RADIX_BITS * valueData.length - paddingLen)
          let valueInt := valueData.foldl (fun acc index => acc * 1024 + index) 0
          let value := (List.range valueByteCount).map
            (fun i => (valueInt >>> (8 * (valueByteCount - 1 - i))) &&& 255)
          if valueInt >>> (8 * valueByteCount) ≠ 0 then
            .error (.mnemonic "Invalid mnemonic padding.")
          else
            .ok ⟨identifier, extendable, iterationExponent, groupIndex,
              groupThreshold + 1, groupCount + 1, index, memberThreshold + 1, value⟩

/-! Round-trip lemmas for the mnemonic codec. -/

theorem and15_eq_mod (x : Nat) : x &&& 15 = x % 16 := by
  have := and_mask_eq_mod x 4
  norm_num at this
  exact this

theorem and255_eq_mod (x : Nat) : x &&& 255 = x % 256 := by
  have := and_mask_eq_mod x 8
  norm_num at this
  exact this

theorem and1023_eq_mod (x : Nat) : x &&& 1023 = x % 1024 := by
  have := and_mask_eq_mod x 10
  norm_num at this
  exact this

theorem and1_eq_mod (x : Nat) : x &&& 1 = x % 2 := by
  have h := and_mask_eq_mod x 1
  simpa using h

/-- Byte packing with shift-or equals the big-endian byte accumulator. -/
theorem foldl_shiftOr_eq_acc (l : List Nat) (h : ∀ b ∈ l, b < 256) :
    l.foldl (fun acc b => (acc <<< 8) ||| b) 0 = accDigits 8 l := by
  suffices hgen : ∀ init, l.foldl (fun acc b => (acc <<< 8) ||| b) init
      = l.foldl (fun acc b => acc * 2 ^ 8 + b) init by
    exact hgen 0
  induction l with
  | nil => intro init; rfl
  | cons b l ih =>
      intro init
      simp only [List.foldl_cons]
      rw [shiftLeft_or_eq_add init b 8 (by
        have hb := h b (by simp)
        norm_num
        omega)]
      exact ih (fun x hx => h x (by simp [hx])) _

/-- The word-index digits emitted by `Share.words` for the value section. -/
theorem words_valueData_eq (valueInt vw : Nat) :
    (List.range vw).map (fun k => (valueInt >>> (10 * (vw - 1 - k))) &&& 1023)
      = intToIndices valueInt vw 10 := by
  simp only [intToIndices]
  apply List.map_congr_left
  intro k _
  rw [Nat.mul_comm]
  rfl

/-- The byte digits produced by the value parser. -/
theorem parse_value_eq (valueInt vbc : Nat) :
    (List.range vbc).map (fun i => (valueInt >>> (8 * (vbc - 1 - i))) &&& 255)
      = intToIndices valueInt vbc 8 := by
  simp only [intToIndices]
  apply List.map_congr_left
  intro k _
  rw [Nat.mul_comm]
  rfl

/-- Decoding the two id/exp words recovers the three fields. -/
theorem idExp_decode (id e : Nat) (ext : Bool) (hid : id < 2 ^ 15) (he : e < 16) :
    (accDigits 10 (intToIndices (id * 32 + (if ext then 1 else 0) * 16 + e) 2 10) >>> 5 = id)
    ∧ (((accDigits 10 (intToIndices (id * 32 + (if ext then 1 else 0) * 16 + e) 2 10) >>> 4) &&& 1 == 1) = ext)
    ∧ (accDigits 10 (intToIndices (id * 32 + (if ext then 1 else 0) * 16 + e) 2 10) &&& 15 = e) := by
  norm_num at hid
  cases ext with
  | false =>
      rw [show (if (false : Bool) = true then (1 : Nat) else 0) = 0 from rfl]
      have hlt : id * 32 + 0 * 16 + e < 2 ^ (10 * 2) := by norm_num; omega
      rw [accDigits_intToIndices 10 _ 2 hlt]
      rw [Nat.shiftRight_eq_div_pow, Nat.shiftRight_eq_div_pow, and15_eq_mod, and1_eq_mod]
      refine ⟨?_, ?_, ?_⟩
      · norm_num; omega
      · have hth : (id * 32 + 0 * 16 + e) / 2 ^ 4 % 2 = 0 := by norm_num; omega
        rw [hth]
        rfl
      · norm_num; omega
  | true =>
      rw [show (if (true : Bool) = true then (1 : Nat) else 0) = 1 from rfl]
      have hlt : id * 32 + 1 * 16 + e < 2 ^ (10 * 2) := by norm_num; omega
      rw [accDigits_intToIndices 10 _ 2 hlt]
      rw [Nat.shiftRight_eq_div_pow, Nat.shiftRight_eq_div_pow, and15_eq_mod, and1_eq_mod]
      refine ⟨?_, ?_, ?_⟩
      · norm_num; omega
      · have hth : (id * 32 + 1 * 16 + e) / 2 ^ 4 % 2 = 1 := by norm_num; omega
        rw [hth]
        rfl
      · norm_num; omega

/-- Decoding the two share-parameter words recovers the five nibbles. -/
theorem params_decode (gi gt gc idx mt : Nat)
    (hgi : gi < 16) (hgt : 1 ≤ gt ∧ gt ≤ 16) (hgc : 1 ≤ gc ∧ gc ≤ 16)
    (hidx : idx < 16) (hmt : 1 ≤ mt ∧ mt ≤ 16) :
    intToIndices (accDigits 10 (intToIndices
        ((((((((gi <<< 4) + (gt - 1)) <<< 4) + (gc - 1)) <<< 4) + idx) <<< 4) + (mt - 1)) 2 10)) 5 4
      = [gi, gt - 1, gc - 1, idx, mt - 1] := by
  have hval : (((((((gi <<< 4) + (gt - 1)) <<< 4) + (gc - 1)) <<< 4) + idx) <<< 4) + (mt - 1)
      = (((gi * 16 + (gt - 1)) * 16 + (gc - 1)) * 16 + idx) * 16 + (mt - 1) := by
    simp [Nat.shiftLeft_eq]
  rw [hval]
  have hlt : (((gi * 16 + (gt - 1)) * 16 + (gc - 1)) * 16 + idx) * 16 + (mt - 1) < 2 ^ (10 * 2) := by
    norm_num
    omega
  rw [accDigits_intToIndices 10 _ 2 hlt]
  have h5 : ∀ v : Nat, intToIndices v 5 4 =
      [(v >>> 16) &&& 15, (v >>> 12) &&& 15, (v >>> 8) &&& 15, (v >>> 4) &&& 15, v &&& 15] := by
    intro v
    rfl
  rw [h5]
  simp only [Nat.shiftRight_eq_div_pow, and15_eq_mod]
  norm_num
  refine ⟨by omega, by omega, by omega, by omega, by omega⟩

/-- Lengths of the encoder components. -/
theorem encodeIdExp_length (s : Share) : s._encodeIdExp.length = 2 := by
  simp [Share._encodeIdExp, _intToWordIndices, intToIndices_length]
  rfl

theorem encodeShareParams_length (s : Share) : s._encodeShareParams.length = 2 := by
  simp [Share._encodeShareParams, _intToWordIndices, intToIndices_length]

theorem createChecksum_length (data cust : List Nat) :
    (createChecksum data cust).length = 3 := by
  simp [createChecksum]
  rfl

theorem encode_words_lt (s : Share) : ∀ w ∈ s._encodeIdExp ++ s._encodeShareParams, w < 1024 := by
  intro w hw
  rcases List.mem_append.mp hw with h | h
  · have := intToIndices_lt _ _ _ _ h
    rw [show (2 : Nat) ^ RADIX_BITS = 1024 from rfl] at this
    exact this
  · have := intToIndices_lt _ _ _ _ h
    rw [show (2 : Nat) ^ RADIX_BITS = 1024 from rfl] at this
    exact this

/-- The codec round trip: parsing the emitted word indices of a valid share
recovers the share. -/
theorem fromMnemonic_words (s : Share)
    (hid : s.identifier < 2 ^ 15) (he : s.iterationExponent < 16)
    (hgi : s.groupIndex < 16)
    (hgt1 : 1 ≤ s.groupThreshold) (hgt16 : s.groupThreshold ≤ 16)
    (hgc1 : 1 ≤ s.groupCount) (hgc16 : s.groupCount ≤ 16)
    (hgtc : s.groupThreshold ≤ s.groupCount)
    (hidx : s.index < 16)
    (hmt1 : 1 ≤ s.memberThreshold) (hmt16 : s.memberThreshold ≤ 16)
    (hbytes : ∀ b ∈ s.value, b < 256)
    (hlen16 : 16 ≤ s.value.length) (hleven : s.value.length % 2 = 0) :
    Share.fromMnemonic s.words = Except.ok s := by
  set L := s.value.length with hLdef
  set vw := bitsToWords (L * 8) with hvwdef
  set valueInt := s.value.foldl (fun acc b => (acc <<< 8) ||| b) 0 with hvidef
  set valueData := (List.range vw).map
    (fun k => (valueInt >>> (10 * (vw - 1 - k))) &&& 1023) with hvd
  set shareData := s._encodeIdExp ++ s._encodeShareParams ++ valueData with hsd
  set cs := createChecksum shareData (_customizationString s.extendable) with hcsdef
  have hwords : s.words = shareData ++ cs := rfl
  have hvw_eq : vw = (L * 8 + 9) / 10 := rfl
  have hvw13 : 13 ≤ vw := by omega
  have hvdlen : valueData.length = vw := by
    rw [hvd]
    simp
  have hlenw : (shareData ++ cs).length = 7 + vw := by
    rw [hsd, hcsdef]
    simp [encodeIdExp_length, encodeShareParams_length, createChecksum_length, hvdlen]
    omega
  have hkey : L * 8 ≤ 10 * vw ∧ 10 * vw - L * 8 ≤ 8 ∧ (10 * vw) % 16 = 10 * vw - L * 8 := by
    omega
  -- the value integer and its bound
  have hVIacc : valueInt = accDigits 8 s.value := foldl_shiftOr_eq_acc s.value hbytes
  have hVIlt : valueInt < 2 ^ (8 * L) := by
    rw [hVIacc]
    have := accDigits_lt 8 s.value hbytes
    rwa [← hLdef] at this
  have hVIlt10 : valueInt < 2 ^ (10 * vw) := by
    calc valueInt < 2 ^ (8 * L) := hVIlt
      _ ≤ 2 ^ (10 * vw) := Nat.pow_le_pow_right (by norm_num) (by omega)
  have hvdeq : valueData = intToIndices valueInt vw 10 := by
    rw [hvd]
    exact words_valueData_eq valueInt vw
  -- start evaluating the parser
  rw [hwords]
  simp only [Share.fromMnemonic]
  rw [hlenw]
  rw [if_neg (by rw [show MIN_MNEMONIC_LENGTH_WORDS = 20 from rfl]; omega)]
  have hpad : RADIX_BITS * (7 + vw - METADATA_LENGTH_WORDS) % 16 = 10 * vw - L * 8 := by
    rw [show RADIX_BITS = 10 from rfl, show METADATA_LENGTH_WORDS = 7 from rfl]
    omega
  rw [hpad]
  rw [if_neg (by omega)]
  -- id/exp section
  have htk : (shareData ++ cs).take ID_EXP_LENGTH_WORDS = s._encodeIdExp := by
    rw [hsd, List.append_assoc, List.append_assoc]
    exact List.take_left' (encodeIdExp_length s)
  rw [htk]
  have hidint : _intFromWordIndices s._encodeIdExp
      = accDigits 10 (intToIndices
          (s.identifier * 32 + (if s.extendable then 1 else 0) * 16 + s.iterationExponent) 2 10) := by
    rw [_intFromWordIndices_eq_acc]
    congr 1
    show intToIndices _ ID_EXP_LENGTH_WORDS RADIX_BITS = _
    rw [show ID_EXP_LENGTH_WORDS = 2 from rfl, show RADIX_BITS = 10 from rfl]
    congr 1
    rw [show ITERATION_EXP_LENGTH_BITS + EXTENDABLE_FLAG_LENGTH_BITS = 5 from rfl,
      show ITERATION_EXP_LENGTH_BITS = 4 from rfl, Nat.shiftLeft_eq, Nat.shiftLeft_eq]
  rw [hidint]
  obtain ⟨hd1, hd2, hd3⟩ := idExp_decode s.identifier s.iterationExponent s.extendable hid he
  rw [show EXTENDABLE_FLAG_LENGTH_BITS + ITERATION_EXP_LENGTH_BITS = 5 from rfl]
  rw [show (1 <<< ITERATION_EXP_LENGTH_BITS) - 1 = 15 from rfl]
  rw [show ITERATION_EXP_LENGTH_BITS = 4 from rfl]
  rw [hd1, hd2, hd3]
  -- checksum
  have hsdlt : ∀ w ∈ shareData, w < 1024 := by
    intro w hw
    rw [hsd] at hw
    rcases List.mem_append.mp hw with h | h
    · exact encode_words_lt s w h
    · rw [hvd] at h
      simp only [List.mem_map] at h
      obtain ⟨k, -, rfl⟩ := h
      rw [and1023_eq_mod]
      exact Nat.mod_lt _ (by norm_num)
  have hcustlt : ∀ v ∈ _customizationString s.extendable, v < 1024 := by
    cases s.extendable <;> decide
  have hver : verifyChecksum (shareData ++ cs) (_customizationString s.extendable) = true := by
    rw [hcsdef]
    exact verify_createChecksum shareData (_customizationString s.extendable) hsdlt hcustlt
  rw [hver]
  rw [if_neg (by simp)]
  -- share params section
  have htkp : (shareData ++ cs).drop ID_EXP_LENGTH_WORDS = s._encodeShareParams ++ (valueData ++ cs) := by
    rw [hsd, List.append_assoc, List.append_assoc]
    exact List.drop_left' (encodeIdExp_length s)
  rw [htkp]
  rw [List.take_left' (encodeShareParams_length s)]
  have hpint : _intFromWordIndices s._encodeShareParams
      = accDigits 10 (intToIndices
          ((((((((s.groupIndex <<< 4) + (s.groupThreshold - 1)) <<< 4)
            + (s.groupCount - 1)) <<< 4) + s.index) <<< 4) + (s.memberThreshold - 1)) 2 10) := by
    rw [_intFromWordIndices_eq_acc]
    rfl
  rw [hpint]
  rw [params_decode s.groupIndex s.groupThreshold s.groupCount s.index s.memberThreshold
    hgi ⟨hgt1, hgt16⟩ ⟨hgc1, hgc16⟩ hidx ⟨hmt1, hmt16⟩]
  rw [show List.getD [s.groupIndex, s.groupThreshold - 1, s.groupCount - 1, s.index,
    s.memberThreshold - 1] 0 0 = s.groupIndex from rfl]
  rw [show List.getD [s.groupIndex, s.groupThreshold - 1, s.groupCount - 1, s.index,
    s.memberThreshold - 1] 1 0 = s.groupThreshold - 1 from rfl]
  rw [show List.getD [s.groupIndex, s.groupThreshold - 1, s.groupCount - 1, s.index,
    s.memberThreshold - 1] 2 0 = s.groupCount - 1 from rfl]
  rw [show List.getD [s.groupIndex, s.groupThreshold - 1, s.groupCount - 1, s.index,
    s.memberThreshold - 1] 3 0 = s.index from rfl]
  rw [show List.getD [s.groupIndex, s.groupThreshold - 1, s.groupCount - 1, s.index,
    s.memberThreshold - 1] 4 0 = s.memberThreshold - 1 from rfl]
  rw [if_neg (by omega)]
  -- value section
  have hdrop4 : (shareData ++ cs).drop (ID_EXP_LENGTH_WORDS + 2) = valueData ++ cs := by
    rw [hsd, List.append_assoc]
    refine List.drop_left' ?_
    rw [List.length_append, encodeIdExp_length, encodeShareParams_length]
    rfl
  rw [hdrop4]
  rw [show CHECKSUM_LENGTH_WORDS = 3 from rfl, show ID_EXP_LENGTH_WORDS = 2 from rfl]
  rw [show 7 + vw - 3 - (2 + 2) = vw by omega]
  rw [List.take_left' hvdlen]
  have hparsedVI : valueData.foldl (fun acc index => acc * 1024 + index) 0 = valueInt := by
    have hfold : valueData.foldl (fun acc index => acc * 1024 + index) 0 = accDigits 10 valueData := rfl
    rw [hfold, hvdeq]
    exact accDigits_intToIndices 10 valueInt vw hVIlt10
  rw [hparsedVI]
  rw [hvdlen]
  have hvbc : bitsToBytes (RADIX_BITS * vw - (10 * vw - L * 8)) = L := by
    rw [show RADIX_BITS = 10 from rfl]
    rw [show 10 * vw - (10 * vw - L * 8) = L * 8 by omega]
    show (L * 8 + 7) / 8 = L
    omega
  rw [hvbc]
  have hshift0 : valueInt >>> (8 * L) = 0 := by
    rw [Nat.shiftRight_eq_div_pow]
    exact Nat.div_eq_of_lt hVIlt
  rw [hshift0]
  rw [if_neg (by simp)]
  have hvalue : (List.range L).map (fun i => (valueInt >>> (8 * (L - 1 - i))) &&& 255) = s.value := by
    rw [parse_value_eq, hVIacc, hLdef]
    exact intToIndices_accDigits 8 s.value hbytes
  rw [hvalue]
  rw [show s.groupThreshold - 1 + 1 = s.groupThreshold by omega]
  rw [show s.groupCount - 1 + 1 = s.groupCount by omega]
  rw [show s.memberThreshold - 1 + 1 = s.memberThreshold by omega]

/-! ## cipher.ts

The round function calls PBKDF2-HMAC-SHA256 from the Node `crypto` module,
which is not part of the sources.  Modelled from the spec: the primitives
are passed as explicit parameters with their length and byte-range
contracts. -/

/-- External cryptographic primitives (Node `crypto`): HMAC-SHA256 and
PBKDF2-HMAC-SHA256 over byte lists. -/
structure CryptoPrims where
  hmacSha256 : List Nat → List Nat → List Nat
  pbkdf2Sha256 : List Nat → List Nat → Nat → Nat → List Nat

/-- Contract of the external primitives: HMAC-SHA256 returns 32 bytes and
PBKDF2 returns exactly the requested number of bytes. -/
def CryptoPrims.Good (c : CryptoPrims) : Prop :=
  (∀ key msg, (c.hmacSha256 key msg).length = 32 ∧ ∀ b ∈ c.hmacSha256 key msg, b < 256)
  ∧ (∀ pw salt iter dk, (c.pbkdf2Sha256 pw salt iter dk).length = dk
      ∧ ∀ b ∈ c.pbkdf2Sha256 pw salt iter dk, b < 256)

/-- Byte-wise xor of two buffers (the `_xor` helper of cipher.ts; the
buffers always have equal length at the call sites). -/
def _xor (a b : List Nat) : List Nat := a.zipWith (fun x y => x ^^^ y) b

theorem _xor_length (a b : List Nat) (h : a.length = b.length) :
    (_xor a b).length = a.length := by
  simp [_xor, h]

theorem _xor_xor_cancel (a b : List Nat) (h : a.length = b.length) :
    _xor (_xor a b) b = a := by
  induction a generalizing b with
  | nil => cases b <;> simp [_xor]
  | cons x a ih =>
      cases b with
      | nil => simp at h
      | cons y b =>
          simp only [_xor, List.zipWith_cons_cons]
          rw [show (x ^^^ y) ^^^ y = x from Nat.xor_cancel_right y x]
          have := ih b (by simpa using h)
          simp only [_xor] at this
          rw [this]

/-- The PBKDF2 round function of the Feistel cipher (cipher.ts). -/
def _roundFunction (c : CryptoPrims) (i : Nat) (passphrase : List Nat) (e : Nat)
    (salt r : List Nat) : List Nat :=
  c.pbkdf2Sha256 (i :: passphrase) (salt ++ r) ((BASE_ITERATION_COUNT <<< e) / ROUND_COUNT) r.length

/-- The PBKDF2 salt (cipher.ts): empty for extendable shares, otherwise
the customization string followed by the big-endian 2-byte identifier. -/
def _getSalt (identifier : Nat) (extendable : Bool) : List Nat :=
  if extendable then []
  else CUSTOMIZATION_STRING_ORIG ++ [(identifier >>> 8) &&& 255, identifier &&& 255]

/-- One Feistel round: `(l, r) → (r, l ⊕ F(i, r))`. -/
def feistelStep (c : CryptoPrims) (passphrase : List Nat) (e : Nat) (salt : List Nat)
    (lr : List Nat × List Nat) (i : Nat) : List Nat × List Nat :=
  (lr.2, _xor lr.1 (_roundFunction c i passphrase e salt lr.2))

/-- The `encrypt` function of cipher.ts: four Feistel rounds 0,1,2,3 over
the two halves, output `r ++ l`. -/
def encrypt (c : CryptoPrims) (masterSecret passphrase : List Nat)
    (iterationExponent identifier : Nat) (extendable : Bool) : Except Err (List Nat) :=
  if masterSecret.length % 2 ≠ 0 then
    .error (.generic "The length of the master secret in bytes must be an even number.")
  else
    let half := masterSecret.length / 2
    let salt := _getSalt identifier extendable
    let lr := (List.range ROUND_COUNT).foldl
      (feistelStep c passphrase iterationExponent salt)
      (masterSecret.take half, masterSecret.drop half)
    .ok (lr.2 ++ lr.1)

/-- The `decrypt` function of cipher.ts: the same rounds in reverse order. -/
def decrypt (c : CryptoPrims) (encryptedMasterSecret passphrase : List Nat)
    (iterationExponent identifier : Nat) (extendable : Bool) : Except Err (List Nat) :=
  if encryptedMasterSecret.length % 2 ≠ 0 then
    .error (.generic "The length of the encrypted master secret in bytes must be an even number.")
  else
    let half := encryptedMasterSecret.length / 2
    let salt := _getSalt identifier extendable
    let lr := (List.range ROUND_COUNT).reverse.foldl
      (feistelStep c passphrase iterationExponent salt)
      (encryptedMasterSecret.take half, encryptedMasterSecret.drop half)
    .ok (lr.2 ++ lr.1)

theorem feistel_fold_length (c : CryptoPrims) (passphrase : List Nat) (e : Nat)
    (salt : List Nat) (hF : ∀ pw s iter dk, (c.pbkdf2Sha256 pw s iter dk).length = dk)
    (rounds : List Nat) (l r : List Nat) (h : l.length = r.length) :
    (rounds.foldl (feistelStep c passphrase e salt) (l, r)).1.length = l.length ∧
    (rounds.foldl (feistelStep c passphrase e salt) (l, r)).2.length = l.length := by
  induction rounds generalizing l r with
  | nil => exact ⟨rfl, h.symm⟩
  | cons i rounds ih =>
      simp only [List.foldl_cons]
      have hx : (_xor l (_roundFunction c i passphrase e salt r)).length = l.length :=
        _xor_length _ _ (by rw [_roundFunction, hF]; exact h)
      have := ih r (_xor l (_roundFunction c i passphrase e salt r)) (by rw [hx]; exact h.symm)
      rw [h]
      exact this

/-- Running the rounds in reverse order on the swapped output undoes the
Feistel network. -/
theorem feistel_reverse (c : CryptoPrims) (passphrase : List Nat) (e : Nat)
    (salt : List Nat) (hF : ∀ pw s iter dk, (c.pbkdf2Sha256 pw s iter dk).length = dk)
    (rounds : List Nat) (l r : List Nat) (h : l.length = r.length) :
    rounds.reverse.foldl (feistelStep c passphrase e salt)
      ((rounds.foldl (feistelStep c passphrase e salt) (l, r)).2,
       (rounds.foldl (feistelStep c passphrase e salt) (l, r)).1) = (r, l) := by
  induction rounds generalizing l r with
  | nil => rfl
  | cons i rounds ih =>
      simp only [List.foldl_cons, List.reverse_cons, List.foldl_append, List.foldl_cons,
        List.foldl_nil]
      have hx : (_xor l (_roundFunction c i passphrase e salt r)).length = l.length :=
        _xor_length _ _ (by rw [_roundFunction, hF]; exact h)
      rw [show feistelStep c passphrase e salt (l, r) i
          = (r, _xor l (_roundFunction c i passphrase e salt r)) from rfl]
      rw [ih r (_xor l (_roundFunction c i passphrase e salt r)) (by rw [hx]; exact h.symm)]
      show (r, _xor (_xor l (_roundFunction c i passphrase e salt r))
        (_roundFunction c i passphrase e salt r)) = (r, l)
      rw [_xor_xor_cancel l (_roundFunction c i passphrase e salt r)
        (by rw [_roundFunction, hF]; exact h)]

theorem encrypt_eq (c : CryptoPrims) (ms passphrase : List Nat) (e identifier : Nat)
    (extendable : Bool) (h : ms.length % 2 = 0) :
    encrypt c ms passphrase e identifier extendable
      = .ok (((List.range ROUND_COUNT).foldl
          (feistelStep c passphrase e (_getSalt identifier extendable))
          (ms.take (ms.length / 2), ms.drop (ms.length / 2))).2
        ++ ((List.range ROUND_COUNT).foldl
          (feistelStep c passphrase e (_getSalt identifier extendable))
          (ms.take (ms.length / 2), ms.drop (ms.length / 2))).1) := by
  rw [encrypt, if_neg (by omega)]

theorem decrypt_eq (c : CryptoPrims) (ems passphrase : List Nat) (e identifier : Nat)
    (extendable : Bool) (h : ems.length % 2 = 0) :
    decrypt c ems passphrase e identifier extendable
      = .ok (((List.range ROUND_COUNT).reverse.foldl
          (feistelStep c passphrase e (_getSalt identifier extendable))
          (ems.take (ems.length / 2), ems.drop (ems.length / 2))).2
        ++ ((List.range ROUND_COUNT).reverse.foldl
          (feistelStep c passphrase e (_getSalt identifier extendable))
          (ems.take (ems.length / 2), ems.drop (ems.length / 2))).1) := by
  rw [decrypt, if_neg (by omega)]

/-- Cipher round trip: decrypting the encryption of an even-length master
secret recovers it, and both directions preserve length. -/
theorem decrypt_encrypt (c : CryptoPrims) (ms passphrase : List Nat)
    (e identifier : Nat) (extendable : Bool)
    (hF : ∀ pw s iter dk, (c.pbkdf2Sha256 pw s iter dk).length = dk)
    (hlen : ms.length % 2 = 0) :
    ∃ E, encrypt c ms passphrase e identifier extendable = .ok E
      ∧ E.length = ms.length
      ∧ decrypt c E passphrase e identifier extendable = .ok ms := by
  set half := ms.length / 2 with hhalf
  set salt := _getSalt identifier extendable with hsalt
  have htl : (ms.take half).length = half := by
    rw [List.length_take]
    omega
  have hdl : (ms.drop half).length = half := by
    rw [List.length_drop]
    omega
  have hlr : (ms.take half).length = (ms.drop half).length := by rw [htl, hdl]
  set enc := (List.range ROUND_COUNT).foldl
    (feistelStep c passphrase e salt) (ms.take half, ms.drop half) with henc
  have hlens := feistel_fold_length c passphrase e salt hF (List.range ROUND_COUNT)
    (ms.take half) (ms.drop half) hlr
  rw [← henc, htl] at hlens
  have hE : encrypt c ms passphrase e identifier extendable = .ok (enc.2 ++ enc.1) := by
    rw [encrypt_eq c ms passphrase e identifier extendable hlen]
  refine ⟨enc.2 ++ enc.1, hE, ?_, ?_⟩
  · rw [List.length_append, hlens.1, hlens.2]
    omega
  · have hElen : (enc.2 ++ enc.1).length = ms.length := by
      rw [List.length_append, hlens.1, hlens.2]
      omega
    rw [decrypt_eq c (enc.2 ++ enc.1) passphrase e identifier extendable (by omega)]
    have hhalfE : (enc.2 ++ enc.1).length / 2 = half := by
      rw [hElen]
    have htkE : (enc.2 ++ enc.1).take ((enc.2 ++ enc.1).length / 2) = enc.2 := by
      rw [hhalfE]
      exact List.take_left' hlens.2
    have hdpE : (enc.2 ++ enc.1).drop ((enc.2 ++ enc.1).length / 2) = enc.1 := by
      rw [hhalfE]
      exact List.drop_left' hlens.2
    rw [htkE, hdpE, henc]
    rw [feistel_reverse c passphrase e salt hF (List.range ROUND_COUNT)
      (ms.take half) (ms.drop half) hlr]
    rw [List.take_append_drop]

/-! ## shamir.ts, part 1: the GF(256) tables

`_precomputeExpLog` iterates `poly := (poly << 1) ^ poly` reduced by
`x^8 + x^4 + x^3 + x + 1` (xor with 0x11B when bit 8 is set), recording
`exp[i] = poly` and `log[poly] = i`. -/

/-- The conditional reduction step of the table-generation loop. -/
def red (m : Nat) : Nat := if m &&& 0x100 ≠ 0 then m ^^^ 0x11B else m

/-- One multiplication by the generator `x + 1` with reduction, as in the
table-generation loop of shamir.ts. -/
def mulX3 (n : Nat) : Nat := red ((n <<< 1) ^^^ n)

/-- The generation loop of `_precomputeExpLog`, producing the exponent
table in a single pass. -/
def expFrom : Nat → Nat → List Nat
  | 0, _ => []
  | n + 1, poly => poly :: expFrom n (mulX3 poly)

/-- The exponent table: `EXP_TABLE = expFrom 255 1` is proved below. -/
def EXP_TABLE : List Nat :=
  [1, 3, 5, 15, 17, 51, 85, 255, 26, 46, 114, 150, 161, 248, 19, 53,
   95, 225, 56, 72, 216, 115, 149, 164, 247, 2, 6, 10, 30, 34, 102, 170,
   229, 52, 92, 228, 55, 89, 235, 38, 106, 190, 217, 112, 144, 171, 230, 49,
   83, 245, 4, 12, 20, 60, 68, 204, 79, 209, 104, 184, 211, 110, 178, 205,
   76, 212, 103, 169, 224, 59, 77, 215, 98, 166, 241, 8, 24, 40, 120, 136,
   131, 158, 185, 208, 107, 189, 220, 127, 129, 152, 179, 206, 73, 219, 118, 154,
   181, 196, 87, 249, 16, 48, 80, 240, 11, 29, 39, 105, 187, 214, 97, 163,
   254, 25, 43, 125, 135, 146, 173, 236, 47, 113, 147, 174, 233, 32, 96, 160,
   251, 22, 58, 78, 210, 109, 183, 194, 93, 231, 50, 86, 250, 21, 63, 65,
   195, 94, 226, 61, 71, 201, 64, 192, 91, 237, 44, 116, 156, 191, 218, 117,
   159, 186, 213, 100, 172, 239, 42, 126, 130, 157, 188, 223, 122, 142, 137, 128,
   155, 182, 193, 88, 232, 35, 101, 175, 234, 37, 111, 177, 200, 67, 197, 84,
   252, 31, 33, 99, 165, 244, 7, 9, 27, 45, 119, 153, 176, 203, 70, 202,
   69, 207, 74, 222, 121, 139, 134, 145, 168, 227, 62, 66, 198, 81, 243, 14,
   18, 54, 90, 238, 41, 123, 141, 140, 143, 138, 133, 148, 167, 242, 13, 23,
   57, 75, 221, 124, 132, 151, 162, 253, 28, 36, 108, 180, 199, 82, 246]

/-- The logarithm table filled by `_precomputeExpLog` (`log[exp[i]] = i`,
with the remaining entry `log[0]` left at its initial value 0).  The
defining relation is the theorem `logT_expT` below. -/
def LOG_TABLE : List Nat :=
  [0, 0, 25, 1, 50, 2, 26, 198, 75, 199, 27, 104, 51, 238, 223, 3,
   100, 4, 224, 14, 52, 141, 129, 239, 76, 113, 8, 200, 248, 105, 28, 193,
   125, 194, 29, 181, 249, 185, 39, 106, 77, 228, 166, 114, 154, 201, 9, 120,
   101, 47, 138, 5, 33, 15, 225, 36, 18, 240, 130, 69, 53, 147, 218, 142,
   150, 143, 219, 189, 54, 208, 206, 148, 19, 92, 210, 241, 64, 70, 131, 56,
   102, 221, 253, 48, 191, 6, 139, 98, 179, 37, 226, 152, 34, 136, 145, 16,
   126, 110, 72, 195, 163, 182, 30, 66, 58, 107, 40, 84, 250, 133, 61, 186,
   43, 121, 10, 21, 155, 159, 94, 202, 78, 212, 172, 229, 243, 115, 167, 87,
   175, 88, 168, 80, 244, 234, 214, 116, 79, 174, 233, 213, 231, 230, 173, 232,
   44, 215, 117, 122, 235, 22, 11, 245, 89, 203, 95, 176, 156, 169, 81, 160,
   127, 12, 246, 111, 23, 196, 73, 236, 216, 67, 31, 45, 164, 118, 123, 183,
   204, 187, 62, 90, 251, 96, 177, 134, 59, 82, 161, 108, 170, 85, 41, 157,
   151, 178, 135, 144, 97, 190, 220, 252, 188, 149, 207, 205, 55, 63, 91, 209,
   83, 57, 132, 60, 65, 162, 109, 71, 20, 42, 158, 93, 86, 242, 211, 171,
   68, 17, 146, 217, 35, 32, 46, 137, 180, 124, 184, 38, 119, 153, 227, 165,
   103, 74, 237, 222, 197, 49, 254, 24, 13, 99, 140, 128, 192, 247, 112, 7]

theorem EXP_TABLE_eq : EXP_TABLE = expFrom 255 1 := by decide

def expT (k : Nat) : Nat := EXP_TABLE.getD k 0

def logT (n : Nat) : Nat := LOG_TABLE.getD n 0

theorem logT_expT : ∀ k, k < 255 → logT (expT k) = k := by decide

theorem logT_zero : logT 0 = 0 := by decide

theorem expT_logT : ∀ n, n < 256 → n ≠ 0 → expT (logT n) = n := by decide

theorem logT_lt : ∀ n, n < 256 → logT n < 255 := by decide

theorem expT_pos_lt : ∀ k, k < 255 → 0 < expT k ∧ expT k < 256 := by decide

theorem expT_zero : expT 0 = 1 := by decide

theorem logT_one : logT 1 = 0 := by decide

theorem mulX3_expT_254 : mulX3 (expT 254) = 1 := by decide

theorem mulX3_zero : mulX3 0 = 0 := by decide

theorem expT_succ : ∀ k, k < 254 → expT (k + 1) = mulX3 (expT k) := by decide

theorem and256_cases (x : Nat) : x &&& 0x100 = 0 ∨ x &&& 0x100 = 0x100 := by
  have h := Nat.and_two_pow x 8
  norm_num at h
  rcases Bool.eq_false_or_eq_true (x.testBit 8) with hb | hb <;> rw [hb] at h <;>
    simp at h <;> omega

theorem red_linear (x y : Nat) : red (x ^^^ y) = red x ^^^ red y := by
  unfold red
  have hand : (x ^^^ y) &&& 0x100 = (x &&& 0x100) ^^^ (y &&& 0x100) :=
    Nat.and_xor_distrib_right
  rcases and256_cases x with hx | hx <;> rcases and256_cases y with hy | hy
  · have hc : (x ^^^ y) &&& 0x100 = 0 := by rw [hand, hx, hy]; decide
    rw [if_neg (by rw [hc]; simp), if_neg (by rw [hx]; simp), if_neg (by rw [hy]; simp)]
  · have hc : (x ^^^ y) &&& 0x100 ≠ 0 := by
      rw [hand, hx, Nat.zero_xor, hy]
      norm_num
    rw [if_pos hc, if_neg (by rw [hx]; simp), if_pos (by rw [hy]; norm_num)]
    rw [Nat.xor_assoc x y 0x11B]
  · have hc : (x ^^^ y) &&& 0x100 ≠ 0 := by
      rw [hand, hy, Nat.xor_zero, hx]
      norm_num
    rw [if_pos hc, if_pos (by rw [hx]; norm_num), if_neg (by rw [hy]; simp)]
    rw [Nat.xor_assoc x y 0x11B, Nat.xor_comm y 0x11B, ← Nat.xor_assoc x 0x11B y]
  · have hc : (x ^^^ y) &&& 0x100 = 0 := by rw [hand, hx, hy, Nat.xor_self]
    rw [if_neg (by rw [hc]; simp), if_pos (by rw [hx]; norm_num), if_pos (by rw [hy]; norm_num)]
    rw [Nat.xor_assoc x 0x11B (y ^^^ 0x11B), xor_left_comm 0x11B y 0x11B,
      Nat.xor_self 0x11B, Nat.xor_zero]

theorem mulX3_linear (a b : Nat) : mulX3 (a ^^^ b) = mulX3 a ^^^ mulX3 b := by
  unfold mulX3
  rw [shiftLeft_xor_distrib]
  have hm : ((a <<< 1) ^^^ (b <<< 1)) ^^^ (a ^^^ b)
      = ((a <<< 1) ^^^ a) ^^^ ((b <<< 1) ^^^ b) := by
    rw [Nat.xor_assoc (a <<< 1) (b <<< 1) (a ^^^ b), xor_left_comm (b <<< 1) a b,
      ← Nat.xor_assoc (a <<< 1) a ((b <<< 1) ^^^ b)]
  rw [hm]
  exact red_linear _ _

/-! GF(256) multiplication through the tables, and its field structure. -/

/-- Table-based GF(256) multiplication, as used by `_interpolate`. -/
def gfMul (a b : Nat) : Nat :=
  if a = 0 ∨ b = 0 then 0 else expT ((logT a + logT b) % 255)

/-- Iterated multiplication by the generator. -/
def powG : Nat → Nat → Nat
  | 0, x => x
  | k + 1, x => mulX3 (powG k x)

theorem powG_zero_right (k : Nat) : powG k 0 = 0 := by
  induction k with
  | zero => rfl
  | succ m ih => show mulX3 (powG m 0) = 0; rw [ih, mulX3_zero]

theorem powG_linear (k a b : Nat) : powG k (a ^^^ b) = powG k a ^^^ powG k b := by
  induction k with
  | zero => rfl
  | succ m ih => show mulX3 (powG m (a ^^^ b)) = _; rw [ih, mulX3_linear]; rfl

theorem mulX3_expT (m : Nat) (hm : m < 255) : mulX3 (expT m) = expT ((m + 1) % 255) := by
  rcases Decidable.em (m = 254) with h | h
  · subst h
    rw [mulX3_expT_254]
    decide
  · rw [← expT_succ m (by omega)]
    congr 1
    omega

theorem powG_expT (k j : Nat) (hj : j < 255) : powG k (expT j) = expT ((k + j) % 255) := by
  induction k with
  | zero =>
      show expT j = expT ((0 + j) % 255)
      congr 1
      omega
  | succ m ih =>
      show mulX3 (powG m (expT j)) = _
      rw [ih, mulX3_expT _ (Nat.mod_lt _ (by norm_num))]
      congr 1
      omega

theorem gfMul_powG (a x : Nat) (ha : a < 256) (ha0 : a ≠ 0) (hx : x < 256) :
    gfMul a x = powG (logT a) x := by
  rcases Decidable.em (x = 0) with h | h
  · subst h
    rw [powG_zero_right]
    simp [gfMul]
  · rw [gfMul, if_neg (by simp [ha0, h])]
    conv_rhs => rw [← expT_logT x hx h]
    rw [powG_expT _ _ (logT_lt x hx)]

theorem gfMul_lt (a b : Nat) : gfMul a b < 256 := by
  rw [gfMul]
  rcases Decidable.em (a = 0 ∨ b = 0) with h | h
  · rw [if_pos h]; norm_num
  · rw [if_neg h]
    exact (expT_pos_lt _ (Nat.mod_lt _ (by norm_num))).2

theorem gfMul_comm (a b : Nat) : gfMul a b = gfMul b a := by
  rw [gfMul, gfMul]
  rcases Decidable.em (a = 0 ∨ b = 0) with h | h
  · rw [if_pos h, if_pos (Or.symm h)]
  · rw [if_neg h, if_neg (fun hc => h (Or.symm hc)), Nat.add_comm]

theorem gfMul_ne_zero (a b : Nat) (ha : a ≠ 0) (hb : b ≠ 0) : gfMul a b ≠ 0 := by
  rw [gfMul, if_neg (by simp [ha, hb])]
  exact Nat.pos_iff_ne_zero.mp (expT_pos_lt _ (Nat.mod_lt _ (by norm_num))).1

theorem gfMul_eq_of_ne (a b : Nat) (ha : a ≠ 0) (hb : b ≠ 0) :
    gfMul a b = expT ((logT a + logT b) % 255) := by
  rw [gfMul, if_neg (by simp [ha, hb])]

theorem logT_gfMul (a b : Nat) (ha : a ≠ 0) (hb : b ≠ 0) :
    logT (gfMul a b) = (logT a + logT b) % 255 := by
  rw [gfMul, if_neg (by simp [ha, hb])]
  exact logT_expT _ (Nat.mod_lt _ (by norm_num))

theorem gfMul_assoc (a b c : Nat) : gfMul (gfMul a b) c = gfMul a (gfMul b c) := by
  rcases Decidable.em (a = 0) with h | ha
  · subst h; simp [gfMul]
  rcases Decidable.em (b = 0) with h | hb
  · subst h; simp [gfMul]
  rcases Decidable.em (c = 0) with h | hc
  · subst h; simp [gfMul]
  have hab := gfMul_ne_zero a b ha hb
  have hbc := gfMul_ne_zero b c hb hc
  rw [gfMul_eq_of_ne (gfMul a b) c hab hc, gfMul_eq_of_ne a (gfMul b c) ha hbc,
    logT_gfMul a b ha hb, logT_gfMul b c hb hc]
  congr 1
  omega

theorem gfMul_one (a : Nat) (ha : a < 256) : gfMul a 1 = a := by
  rcases Decidable.em (a = 0) with h | h
  · subst h; simp [gfMul]
  · rw [gfMul, if_neg (by simp [h]), logT_one, Nat.add_zero,
      Nat.mod_eq_of_lt (logT_lt a ha), expT_logT a ha h]

theorem gfMul_distrib (a b c : Nat) (ha : a < 256) (hb : b < 256) (hc : c < 256) :
    gfMul a (b ^^^ c) = gfMul a b ^^^ gfMul a c := by
  rcases Decidable.em (a = 0) with h | h
  · subst h; simp [gfMul]
  · rw [gfMul_powG a (b ^^^ c) ha h
      (Nat.xor_lt_two_pow (x := b) (y := c) (n := 8) (by norm_num; omega) (by norm_num; omega)),
      gfMul_powG a b ha h hb, gfMul_powG a c ha h hc, powG_linear]

def gfInv (a : Nat) : Nat := if a = 0 then 0 else expT ((255 - logT a) % 255)

theorem gfMul_inv_cancel (a : Nat) (ha : a < 256) (h : a ≠ 0) : gfMul a (gfInv a) = 1 := by
  rw [gfInv, if_neg h]
  have hinv_ne : expT ((255 - logT a) % 255) ≠ 0 :=
    Nat.pos_iff_ne_zero.mp (expT_pos_lt _ (Nat.mod_lt _ (by norm_num))).1
  rw [gfMul, if_neg (by simp [h, hinv_ne])]
  rw [logT_expT _ (Nat.mod_lt _ (by norm_num))]
  have hla := logT_lt a ha
  rcases Decidable.em (logT a = 0) with h0 | h0
  · rw [h0]
    decide
  · have : (logT a + (255 - logT a) % 255) % 255 = 0 := by omega
    rw [this]
    exact expT_zero

/-! The field GF(256) as 8-bit values with xor addition and table
multiplication. -/

def GF : Type := {n : Nat // n < 256}

instance : DecidableEq GF := fun a b =>
  if h : a.val = b.val then .isTrue (Subtype.ext h) else .isFalse (fun hc => h (by rw [hc]))

theorem byte_xor_lt (a b : Nat) (ha : a < 256) (hb : b < 256) : a ^^^ b < 256 := by
  have := Nat.xor_lt_two_pow (x := a) (y := b) (n := 8) (by norm_num; omega) (by norm_num; omega)
  norm_num at this
  omega

instance : Zero GF := ⟨⟨0, by norm_num⟩⟩

instance : One GF := ⟨⟨1, by norm_num⟩⟩

instance : Add GF := ⟨fun a b => ⟨a.val ^^^ b.val, byte_xor_lt _ _ a.2 b.2⟩⟩

instance : Mul GF := ⟨fun a b => ⟨gfMul a.val b.val, gfMul_lt _ _⟩⟩

instance : Neg GF := ⟨fun a => a⟩

instance : Inv GF := ⟨fun a => ⟨gfInv a.val, by
  rw [gfInv]
  rcases Decidable.em (a.val = 0) with h | h
  · rw [if_pos h]; norm_num
  · rw [if_neg h]; exact (expT_pos_lt _ (Nat.mod_lt _ (by norm_num))).2⟩⟩

theorem GF.val_add (a b : GF) : (a + b).val = a.val ^^^ b.val := rfl

theorem GF.val_mul (a b : GF) : (a * b).val = gfMul a.val b.val := rfl

theorem GF.val_zero : (0 : GF).val = 0 := rfl

theorem GF.val_one : (1 : GF).val = 1 := rfl

theorem GF.val_neg (a : GF) : (-a).val = a.val := rfl

theorem GF.val_inv (a : GF) : (a⁻¹).val = gfInv a.val := rfl

theorem GF.ext_val {a b : GF} (h : a.val = b.val) : a = b := Subtype.ext h

instance : AddCommGroup GF where
  add_assoc a b c := GF.ext_val (by rw [GF.val_add, GF.val_add, GF.val_add, GF.val_add, Nat.xor_assoc])
  zero_add a := GF.ext_val (by rw [GF.val_add, GF.val_zero, Nat.zero_xor])
  add_zero a := GF.ext_val (by rw [GF.val_add, GF.val_zero, Nat.xor_zero])
  add_comm a b := GF.ext_val (by rw [GF.val_add, GF.val_add, Nat.xor_comm])
  neg_add_cancel a := GF.ext_val (by
    rw [GF.val_add, GF.val_neg, Nat.xor_self, GF.val_zero])
  nsmul := nsmulRec
  zsmul := zsmulRec

instance : CommRing GF :=
  { (inferInstance : AddCommGroup GF) with
    mul_assoc := fun a b c => GF.ext_val (by
      rw [GF.val_mul, GF.val_mul, GF.val_mul, GF.val_mul, gfMul_assoc])
    one_mul := fun a => GF.ext_val (by
      rw [GF.val_mul, GF.val_one, gfMul_comm, gfMul_one a.val a.2])
    mul_one := fun a => GF.ext_val (by rw [GF.val_mul, GF.val_one, gfMul_one a.val a.2])
    mul_comm := fun a b => GF.ext_val (by rw [GF.val_mul, GF.val_mul, gfMul_comm])
    left_distrib := fun a b c => GF.ext_val (by
      rw [GF.val_mul, GF.val_add, GF.val_add, GF.val_mul, GF.val_mul]
      exact gfMul_distrib a.val b.val c.val a.2 b.2 c.2)
    right_distrib := fun a b c => GF.ext_val (by
      rw [GF.val_mul, GF.val_add, GF.val_add, GF.val_mul, GF.val_mul,
        gfMul_comm (a.val ^^^ b.val) c.val, gfMul_comm a.val c.val, gfMul_comm b.val c.val]
      exact gfMul_distrib c.val a.val b.val c.2 a.2 b.2)
    zero_mul := fun a => GF.ext_val (by rw [GF.val_mul, GF.val_zero]; simp [gfMul])
    mul_zero := fun a => GF.ext_val (by rw [GF.val_mul, GF.val_zero]; simp [gfMul]) }

instance : Field GF :=
  { (inferInstance : CommRing GF), (inferInstance : Inv GF) with
    exists_pair_ne := ⟨0, 1, fun hc => by
      have hv := congrArg Subtype.val hc
      rw [GF.val_zero, GF.val_one] at hv
      exact absurd hv (by norm_num)⟩
    mul_inv_cancel := fun a ha => GF.ext_val (by
      have hv : a.val ≠ 0 := fun h0 => ha (GF.ext_val (by rw [h0, GF.val_zero]))
      rw [GF.val_mul, GF.val_inv, GF.val_one]
      exact gfMul_inv_cancel a.val a.2 hv)
    inv_zero := GF.ext_val (by rw [GF.val_inv, GF.val_zero]; rfl)
    nnqsmul := _
    qsmul := _ }

/-! ## shamir.ts, part 2: Lagrange interpolation over the tables -/

structure RawShare where
  x : Nat
  data : List Nat
deriving DecidableEq, Repr

/-- The log of the Lagrange basis polynomial of `s` evaluated at `x`
(the `logBasisEval` computation inside `_interpolate`). -/
def logBasisEval (shares : List RawShare) (x : Nat) (s : RawShare) : Nat :=
  let logProd := shares.foldl (fun acc t => (acc + logT (t.x ^^^ x)) % 255) 0
  let sumOther := shares.foldl
    (fun so o => if o.x ≠ s.x then (so + logT (s.x ^^^ o.x)) % 255 else so) 0
  ((logProd + 255 - logT (s.x ^^^ x)) % 255 + 255 - sumOther) % 255

/-- The `_interpolate` function of shamir.ts.  JavaScript `Set` sizes are
modelled by `List.dedup` lengths; the nested result-accumulation loop
(`result[i] ^= EXP_TABLE[...]`) is expressed per byte position. -/
def interpolateRaw (shares : List RawShare) (x : Nat) : Except Err (List Nat) :=
  if (shares.map RawShare.x).dedup.length ≠ shares.length then
    .error (.mnemonic "Invalid set of shares. Share indices must be unique.")
  else if (shares.map (fun s => s.data.length)).dedup.length ≠ 1 then
    .error (.mnemonic "Invalid set of shares. All share values must have the same length.")
  else
    match shares.find? (fun s => s.x == x) with
    | some share => .ok share.data
    | none =>
        let resultLength := (shares.headD ⟨0, []⟩).data.length
        .ok ((List.range resultLength).map (fun j =>
          shares.foldl (fun acc s =>
            acc ^^^ (if s.data.getD j 0 = 0 then 0
              else expT ((logT (s.data.getD j 0) + logBasisEval shares x s) % 255))) 0))

/-! Bridge from the table computations to the field `GF`. -/

def ofByte (n : Nat) : GF := ⟨n % 256, Nat.mod_lt _ (by norm_num)⟩

theorem ofByte_val (n : Nat) (h : n < 256) : (ofByte n).val = n := Nat.mod_eq_of_lt h

theorem ofByte_inj (a b : Nat) (ha : a < 256) (hb : b < 256) (h : ofByte a = ofByte b) :
    a = b := by
  have := congrArg Subtype.val h
  rwa [ofByte_val a ha, ofByte_val b hb] at this

theorem GF.neg_eq (a : GF) : -a = a := GF.ext_val (GF.val_neg a)

theorem GF.sub_eq_add (a b : GF) : a - b = a + b := by
  rw [sub_eq_add_neg, GF.neg_eq]

def gexp (k : Nat) : GF := ⟨expT (k % 255), (expT_pos_lt _ (Nat.mod_lt _ (by norm_num))).2⟩

theorem gexp_val (k : Nat) : (gexp k).val = expT (k % 255) := rfl

theorem gexp_ne_zero (k : Nat) : gexp k ≠ 0 := by
  intro h
  have := congrArg Subtype.val h
  rw [gexp_val, GF.val_zero] at this
  exact Nat.pos_iff_ne_zero.mp (expT_pos_lt _ (Nat.mod_lt _ (by norm_num))).1 this

theorem gexp_mod (k : Nat) : gexp (k % 255) = gexp k := by
  apply GF.ext_val
  rw [gexp_val, gexp_val, Nat.mod_mod_of_dvd k (dvd_refl 255)]

theorem gexp_add (i j : Nat) : gexp (i + j) = gexp i * gexp j := by
  apply GF.ext_val
  rw [GF.val_mul, gexp_val, gexp_val, gexp_val]
  have hi : expT (i % 255) ≠ 0 :=
    Nat.pos_iff_ne_zero.mp (expT_pos_lt _ (Nat.mod_lt _ (by norm_num))).1
  have hj : expT (j % 255) ≠ 0 :=
    Nat.pos_iff_ne_zero.mp (expT_pos_lt _ (Nat.mod_lt _ (by norm_num))).1
  rw [gfMul_eq_of_ne _ _ hi hj, logT_expT _ (Nat.mod_lt _ (by norm_num)),
    logT_expT _ (Nat.mod_lt _ (by norm_num))]
  congr 1
  omega

theorem gexp_glog (a : GF) (h : a ≠ 0) : gexp (logT a.val) = a := by
  apply GF.ext_val
  have hv : a.val ≠ 0 := fun h0 => h (GF.ext_val (by rw [h0, GF.val_zero]))
  rw [gexp_val, Nat.mod_eq_of_lt (logT_lt a.val a.2)]
  exact expT_logT a.val a.2 hv

theorem mul_nonzero_gexp (a b : GF) (ha : a ≠ 0) (hb : b ≠ 0) :
    a * b = gexp (logT a.val + logT b.val) := by
  rw [gexp_add, gexp_glog a ha, gexp_glog b hb]

/-- Division in log space: subtracting a logarithm mod 255 divides. -/
theorem gexp_sub_div (k l : Nat) (hl : l < 255) :
    gexp (k + 255 - l) = gexp k * (gexp l)⁻¹ := by
  have hmul : gexp (k + 255 - l) * gexp l = gexp k := by
    rw [← gexp_add]
    have : k + 255 - l + l = k + 255 := by omega
    rw [this]
    rw [← gexp_mod]
    have h255 : (k + 255) % 255 = k % 255 := by omega
    rw [h255, gexp_mod]
  rw [← hmul, mul_assoc, mul_inv_cancel₀ (gexp_ne_zero l), mul_one]

/-- Folding log additions corresponds to a product of field elements. -/
theorem foldl_log_prod (f : RawShare → Nat) (l : List RawShare)
    (hf : ∀ t ∈ l, f t < 255) :
    gexp (l.foldl (fun acc t => (acc + f t) % 255) 0)
      = (l.map (fun t => gexp (f t))).prod := by
  suffices h : ∀ acc, gexp (l.foldl (fun acc t => (acc + f t) % 255) acc)
      = gexp acc * (l.map (fun t => gexp (f t))).prod by
    rw [h 0]
    have h0 : gexp 0 = 1 := by
      apply GF.ext_val
      rw [gexp_val]
      exact expT_zero
    rw [h0, one_mul]
  induction l with
  | nil =>
      intro acc
      simp
  | cons t l ih =>
      intro acc
      simp only [List.foldl_cons, List.map_cons, List.prod_cons]
      rw [ih (fun u hu => hf u (by simp [hu])) ((acc + f t) % 255), gexp_mod, gexp_add]
      ring

/-- The conditional fold for `sumOther` is the fold over the filtered list. -/
theorem foldl_if_filter (g : RawShare → Nat) (p : RawShare → Prop) [DecidablePred p]
    (l : List RawShare) :
    l.foldl (fun so o => if p o then (so + g o) % 255 else so) 0
      = (l.filter (fun o => decide (p o))).foldl (fun so o => (so + g o) % 255) 0 := by
  suffices h : ∀ acc, l.foldl (fun so o => if p o then (so + g o) % 255 else so) acc
      = (l.filter (fun o => decide (p o))).foldl (fun so o => (so + g o) % 255) acc by
    exact h 0
  induction l with
  | nil => intro acc; rfl
  | cons t l ih =>
      intro acc
      simp only [List.foldl_cons, List.filter_cons]
      rcases Decidable.em (p t) with h | h
      · simp only [h, if_pos, decide_eq_true_eq, decide_True]
        rw [List.foldl_cons]
        exact ih _
      · simp only [h, ite_false, decide_eq_true_eq, decide_False]
        exact ih _

theorem fold_mod_lt (g : RawShare → Nat) (l : List RawShare) :
    l.foldl (fun so o => (so + g o) % 255) 0 < 255 := by
  suffices h : ∀ acc, acc < 255 → l.foldl (fun so o => (so + g o) % 255) acc < 255 by
    exact h 0 (by norm_num)
  induction l with
  | nil => intro acc h; exact h
  | cons t l ih =>
      intro acc h
      simp only [List.foldl_cons]
      exact ih _ (Nat.mod_lt _ (by norm_num))

theorem gexp_logT_xor (a b : Nat) (ha : a < 256) (hb : b < 256) (hne : a ≠ b) :
    gexp (logT (a ^^^ b)) = ofByte a + ofByte b := by
  have hlt : a ^^^ b < 256 := byte_xor_lt a b ha hb
  have hne0 : a ^^^ b ≠ 0 := fun h => hne (Nat.xor_eq_zero.mp h)
  have hval : (ofByte (a ^^^ b)).val = a ^^^ b := ofByte_val _ hlt
  have hz : ofByte (a ^^^ b) ≠ 0 := fun h => by
    have := congrArg Subtype.val h
    rw [hval, GF.val_zero] at this
    exact hne0 this
  have h1 : gexp (logT (a ^^^ b)) = ofByte (a ^^^ b) := by
    have := gexp_glog (ofByte (a ^^^ b)) hz
    rwa [hval] at this
  rw [h1]
  apply GF.ext_val
  rw [GF.val_add, hval, ofByte_val a ha, ofByte_val b hb]

theorem foldl_xor_sum (l : List RawShare) (fN : RawShare → Nat) (f : RawShare → GF)
    (h : ∀ s ∈ l, fN s = (f s).val) :
    l.foldl (fun acc s => acc ^^^ fN s) 0 = ((l.map f).sum).val := by
  suffices hgen : ∀ (acc : GF), l.foldl (fun acc s => acc ^^^ fN s) acc.val
      = (acc + (l.map f).sum).val by
    have := hgen 0
    rw [GF.val_zero] at this
    rw [this, zero_add]
  induction l with
  | nil =>
      intro acc
      simp
  | cons t l ih =>
      intro acc
      simp only [List.foldl_cons, List.map_cons, List.sum_cons]
      rw [h t (by simp), show acc.val ^^^ (f t).val = (acc + f t).val from rfl]
      rw [ih (fun s hs => h s (by simp [hs])) (acc + f t)]
      rw [add_assoc]

theorem eval_basis_formula (sF : Finset GF) (gs t : GF) :
    Polynomial.eval t (Lagrange.basis sF id gs)
      = (∏ g ∈ sF.erase gs, (gs + g))⁻¹ * ∏ g ∈ sF.erase gs, (t + g) := by
  rw [Lagrange.basis, Polynomial.eval_prod]
  have hfact : ∀ g ∈ sF.erase gs,
      Polynomial.eval t (Lagrange.basisDivisor (id gs) (id g)) = (gs + g)⁻¹ * (t + g) := by
    intro g _
    rw [Lagrange.basisDivisor]
    simp only [Polynomial.eval_mul, Polynomial.eval_C, Polynomial.eval_sub, Polynomial.eval_X,
      id_eq]
    rw [GF.sub_eq_add, GF.sub_eq_add]
  rw [Finset.prod_congr rfl hfact, Finset.prod_mul_distrib, Finset.prod_inv_distrib]

theorem gexp_logBasisEval (shares : List RawShare) (x : Nat) (s : RawShare)
    (hx : x < 256) (hxs : ∀ t ∈ shares, t.x < 256)
    (hnd : (shares.map RawShare.x).Nodup)
    (hnx : ∀ t ∈ shares, t.x ≠ x)
    (hs : s ∈ shares) :
    gexp (logBasisEval shares x s)
      = Polynomial.eval (ofByte x)
          (Lagrange.basis ((shares.map (fun t => ofByte t.x)).toFinset) id (ofByte s.x)) := by
  classical
  set sG := shares.map (fun t => ofByte t.x) with hsG
  have hsgnd : sG.Nodup := by
    rw [hsG, show (fun t : RawShare => ofByte t.x) = ofByte ∘ RawShare.x from rfl,
      ← List.map_map]
    apply List.Nodup.map_on _ hnd
    intro a ha b hb hab
    have hax : a < 256 := by
      obtain ⟨t, ht, rfl⟩ := List.mem_map.mp ha
      exact hxs t ht
    have hbx : b < 256 := by
      obtain ⟨t, ht, rfl⟩ := List.mem_map.mp hb
      exact hxs t ht
    exact ofByte_inj a b hax hbx hab
  set sF := sG.toFinset with hsF
  have hgs_mem : ofByte s.x ∈ sF := by
    rw [hsF, List.mem_toFinset, hsG]
    exact List.mem_map.mpr ⟨s, hs, rfl⟩
  have hsx : s.x < 256 := hxs s hs
  -- the product of all (g + x)
  have h_logProd : gexp (shares.foldl (fun acc t => (acc + logT (t.x ^^^ x)) % 255) 0)
      = ∏ g ∈ sF, (g + ofByte x) := by
    rw [foldl_log_prod (fun t => logT (t.x ^^^ x)) shares
      (fun t ht => logT_lt _ (byte_xor_lt _ _ (hxs t ht) hx))]
    rw [List.map_congr_left (fun t ht =>
      gexp_logT_xor t.x x (hxs t ht) hx (hnx t ht))]
    rw [hsF, List.prod_toFinset _ hsgnd]
    congr 1
    rw [hsG, List.map_map]
    rfl
  -- the product of (gs + g) over the other shares
  have h_sumOther : gexp (shares.foldl
        (fun so o => if o.x ≠ s.x then (so + logT (s.x ^^^ o.x)) % 255 else so) 0)
      = ∏ g ∈ sF.erase (ofByte s.x), (ofByte s.x + g) := by
    rw [foldl_if_filter (fun o => logT (s.x ^^^ o.x)) (fun o => o.x ≠ s.x) shares]
    rw [foldl_log_prod (fun o => logT (s.x ^^^ o.x)) _
      (fun o ho => logT_lt _ (byte_xor_lt _ _ hsx (hxs o (List.mem_of_mem_filter ho))))]
    have hpt : ∀ o ∈ shares.filter (fun o => decide (o.x ≠ s.x)),
        gexp (logT (s.x ^^^ o.x)) = ofByte s.x + ofByte o.x := by
      intro o ho
      have hom := List.mem_of_mem_filter ho
      have hoo : o.x ≠ s.x := by
        have := List.of_mem_filter ho
        simpa using this
      exact gexp_logT_xor s.x o.x hsx (hxs o hom) (fun h => hoo h.symm)
    rw [List.map_congr_left hpt]
    have hfsub : ((shares.filter (fun o => decide (o.x ≠ s.x))).map (fun o => ofByte o.x)).Nodup := by
      apply List.Nodup.sublist _ hsgnd
      rw [hsG]
      exact List.Sublist.map _ (List.filter_sublist shares)
    have hcomp : (shares.filter (fun o => decide (o.x ≠ s.x))).map
        (fun o => ofByte s.x + ofByte o.x)
        = ((shares.filter (fun o => decide (o.x ≠ s.x))).map (fun o => ofByte o.x)).map
          (fun g => ofByte s.x + g) := by
      rw [List.map_map]
      rfl
    rw [hcomp, ← List.prod_toFinset _ hfsub]
    have hset : ((shares.filter (fun o => decide (o.x ≠ s.x))).map
        (fun o => ofByte o.x)).toFinset = sF.erase (ofByte s.x) := by
      apply Finset.ext
      intro g
      rw [List.mem_toFinset, Finset.mem_erase, hsF, List.mem_toFinset, List.mem_map]
      constructor
      · rintro ⟨o, ho, rfl⟩
        have hom := List.mem_of_mem_filter ho
        have hoo : o.x ≠ s.x := by
          have := List.of_mem_filter ho
          simpa using this
        refine ⟨fun hcontra => hoo (ofByte_inj _ _ (hxs o hom) hsx hcontra), ?_⟩
        rw [hsG]
        exact List.mem_map.mpr ⟨o, hom, rfl⟩
      · rintro ⟨hne, hmem⟩
        rw [hsG] at hmem
        obtain ⟨o, hom, rfl⟩ := List.mem_map.mp hmem
        refine ⟨o, List.mem_filter.mpr ⟨hom, by
          simp only [decide_eq_true_eq]
          exact fun hcontra => hne (by rw [hcontra])⟩, rfl⟩
    rw [hset]
  -- assemble
  have hB_lt : shares.foldl
      (fun so o => if o.x ≠ s.x then (so + logT (s.x ^^^ o.x)) % 255 else so) 0 < 255 := by
    rw [foldl_if_filter (fun o => logT (s.x ^^^ o.x)) (fun o => o.x ≠ s.x) shares]
    exact fold_mod_lt _ _
  rw [logBasisEval]
  rw [gexp_mod]
  rw [gexp_sub_div _ _ hB_lt]
  rw [gexp_mod]
  rw [gexp_sub_div _ _ (logT_lt _ (byte_xor_lt _ _ hsx hx))]
  rw [h_logProd, h_sumOther]
  rw [gexp_logT_xor s.x x hsx hx (hnx s hs)]
  rw [eval_basis_formula]
  have hsplit : ∏ g ∈ sF, (g + ofByte x)
      = (ofByte s.x + ofByte x) * ∏ g ∈ sF.erase (ofByte s.x), (g + ofByte x) :=
    (Finset.mul_prod_erase sF _ hgs_mem).symm
  rw [hsplit]
  have hnz : ofByte s.x + ofByte x ≠ 0 := by
    intro h
    have := congrArg Subtype.val h
    rw [GF.val_add, ofByte_val _ hsx, ofByte_val _ hx, GF.val_zero] at this
    exact (hnx s hs) (Nat.xor_eq_zero.mp this)
  have hcomm : ∏ g ∈ sF.erase (ofByte s.x), (ofByte x + g)
      = ∏ g ∈ sF.erase (ofByte s.x), (g + ofByte x) :=
    Finset.prod_congr rfl (fun g _ => add_comm _ _)
  rw [hcomm, mul_right_comm (ofByte s.x + ofByte x) _ ((ofByte s.x + ofByte x)⁻¹),
    mul_inv_cancel₀ hnz, one_mul, mul_comm]

theorem term_val (b lb : Nat) (hb : b < 256) :
    (if b = 0 then 0 else expT ((logT b + lb) % 255)) = (ofByte b * gexp lb).val := by
  by_cases h0 : b = 0
  · subst h0
    rw [if_pos rfl]
    have hz : ofByte 0 = 0 := GF.ext_val (by rw [ofByte_val 0 (by norm_num), GF.val_zero])
    rw [hz, zero_mul, GF.val_zero]
  · rw [if_neg h0, GF.val_mul, ofByte_val b hb, gexp_val, gfMul,
      if_neg (by
        push_neg
        exact ⟨h0, Nat.pos_iff_ne_zero.mp (expT_pos_lt _ (Nat.mod_lt _ (by norm_num))).1⟩),
      logT_expT _ (Nat.mod_lt _ (by norm_num)), Nat.add_mod_mod]

theorem interpolate_column (shares : List RawShare) (x j : Nat) (P : Polynomial GF)
    (hx : x < 256) (hxs : ∀ t ∈ shares, t.x < 256)
    (hnd : (shares.map RawShare.x).Nodup)
    (hnx : ∀ t ∈ shares, t.x ≠ x)
    (hdeg : P.degree < shares.length)
    (heval : ∀ t ∈ shares, Polynomial.eval (ofByte t.x) P = ofByte (t.data.getD j 0))
    (hbytes : ∀ t ∈ shares, t.data.getD j 0 < 256) :
    shares.foldl (fun acc s =>
      acc ^^^ (if s.data.getD j 0 = 0 then 0
        else expT ((logT (s.data.getD j 0) + logBasisEval shares x s) % 255))) 0
      = (Polynomial.eval (ofByte x) P).val := by
  classical
  have hsgnd : (shares.map (fun t => ofByte t.x)).Nodup := by
    rw [show (fun t : RawShare => ofByte t.x) = ofByte ∘ RawShare.x from rfl, ← List.map_map]
    apply List.Nodup.map_on _ hnd
    intro a ha b hb hab
    have hax : a < 256 := by
      obtain ⟨t, ht, rfl⟩ := List.mem_map.mp ha
      exact hxs t ht
    have hbx : b < 256 := by
      obtain ⟨t, ht, rfl⟩ := List.mem_map.mp hb
      exact hxs t ht
    exact ofByte_inj a b hax hbx hab
  set sF := (shares.map (fun t => ofByte t.x)).toFinset with hsF
  have hterm : ∀ s ∈ shares,
      (if s.data.getD j 0 = 0 then 0
        else expT ((logT (s.data.getD j 0) + logBasisEval shares x s) % 255))
      = (Polynomial.eval (ofByte x)
          (Polynomial.C (Polynomial.eval (ofByte s.x) P)
            * Lagrange.basis sF id (ofByte s.x))).val := by
    intro s hs
    rw [Polynomial.eval_mul, Polynomial.eval_C]
    rw [term_val _ (logBasisEval shares x s) (hbytes s hs)]
    rw [← heval s hs]
    rw [gexp_logBasisEval shares x s hx hxs hnd hnx hs]
  rw [foldl_xor_sum shares _ _ hterm]
  congr 1
  rw [show (fun s : RawShare => Polynomial.eval (ofByte x)
        (Polynomial.C (Polynomial.eval (ofByte s.x) P) * Lagrange.basis sF id (ofByte s.x)))
      = (fun g : GF => Polynomial.eval (ofByte x)
        (Polynomial.C (Polynomial.eval g P) * Lagrange.basis sF id g))
        ∘ (fun t : RawShare => ofByte t.x) from rfl, ← List.map_map]
  rw [← List.sum_toFinset _ hsgnd, ← hsF]
  rw [← Polynomial.eval_finset_sum]
  have hinj : Set.InjOn (id : GF → GF) sF := fun a _ b _ h => h
  have hcard : P.degree < sF.card := by
    rw [hsF, List.toFinset_card_of_nodup hsgnd, List.length_map]
    exact hdeg
  have hP : P = Lagrange.interpolate sF id (fun i => Polynomial.eval (id i) P) :=
    Lagrange.eq_interpolate hinj hcard
  conv_rhs => rw [hP]
  rw [Lagrange.interpolate_apply]
  simp only [id_eq]

theorem dedup_const {l : List Nat} {c : Nat} (hne : l ≠ []) (h : ∀ a ∈ l, a = c) :
    l.dedup = [c] := by
  induction l with
  | nil => exact absurd rfl hne
  | cons a t ih =>
      have hac : a = c := h a (List.mem_cons_self a t)
      cases t with
      | nil => simp [List.dedup, hac]
      | cons b u =>
          have hbt : b = c := h b (List.mem_cons_of_mem a (List.mem_cons_self b u))
          have hdt : (b :: u).dedup = [c] :=
            ih (List.cons_ne_nil b u) (fun a ha => h a (List.mem_cons_of_mem _ ha))
          have hmem : a ∈ b :: u := by
            rw [hac, ← hbt]
            exact List.mem_cons_self b u
          rw [List.dedup_cons_of_mem hmem, hdt]

theorem getD_mem_of_lt {l : List Nat} {j : Nat} (h : j < l.length) : l.getD j 0 ∈ l := by
  rw [List.getD_eq_getElem?_getD, List.getElem?_eq_getElem h]
  simpa using List.getElem_mem h

theorem interpolateRaw_ok (shares : List RawShare) (x L : Nat) (Ps : Nat → Polynomial GF)
    (hne : shares ≠ [])
    (hx : x < 256) (hxs : ∀ t ∈ shares, t.x < 256)
    (hnd : (shares.map RawShare.x).Nodup)
    (hnx : ∀ t ∈ shares, t.x ≠ x)
    (hlen : ∀ t ∈ shares, t.data.length = L)
    (hdeg : ∀ j < L, (Ps j).degree < shares.length)
    (heval : ∀ j < L, ∀ t ∈ shares,
      Polynomial.eval (ofByte t.x) (Ps j) = ofByte (t.data.getD j 0))
    (hbytes : ∀ t ∈ shares, ∀ b ∈ t.data, b < 256) :
    interpolateRaw shares x
      = .ok ((List.range L).map (fun j => (Polynomial.eval (ofByte x) (Ps j)).val)) := by
  rw [interpolateRaw]
  rw [if_neg (by
    rw [List.dedup_eq_self.mpr hnd, List.length_map]
    exact fun h => h rfl)]
  rw [if_neg (by
    rw [dedup_const (by
        intro hmap
        exact hne (List.map_eq_nil.mp hmap))
      (fun a ha => by
        obtain ⟨t, ht, rfl⟩ := List.mem_map.mp ha
        exact hlen t ht)]
    exact fun h => h rfl)]
  rw [List.find?_eq_none.mpr (fun s hs => by
    simp only [beq_iff_eq]
    exact hnx s hs)]
  have hhead : (shares.headD ⟨0, []⟩).data.length = L := by
    cases shares with
    | nil => exact absurd rfl hne
    | cons s t => exact hlen s (List.mem_cons_self s t)
  rw [hhead]
  show Except.ok ((List.range L).map (fun j => shares.foldl (fun acc s =>
      acc ^^^ (if s.data.getD j 0 = 0 then 0
        else expT ((logT (s.data.getD j 0) + logBasisEval shares x s) % 255))) 0))
    = Except.ok ((List.range L).map (fun j => (Polynomial.eval (ofByte x) (Ps j)).val))
  congr 1
  apply List.map_congr_left
  intro j hj
  have hjL : j < L := List.mem_range.mp hj
  exact interpolate_column shares x j (Ps j) hx hxs hnd hnx (hdeg j hjL)
    (heval j hjL)
    (fun t ht => hbytes t ht _ (getD_mem_of_lt (by rw [hlen t ht]; exact hjL)))

/-! ## shamir.ts, part 3: sharing pipeline

`ShareGroup` wraps a JavaScript `Set<Share>`.  Set membership is by object
reference; every call site of `add` inserts a freshly constructed `Share`
object, so the set behaves as an append-only list, which is how it is
modelled here.  `Array.from(set)[0]` is the first inserted element, i.e.
the list head.  Randomness (`RANDOM_BYTES`) is modelled as a stream
`rng : Nat → Nat → List Nat` mapping the index of the call and the
requested length to the returned bytes; the call counter is threaded
explicitly. -/

abbrev ShareGroup := List Share

def dummyShare : Share := ⟨0, false, 0, 0, 0, 0, 0, 0, []⟩

/-- `ShareGroup.add`: group-parameter check against the first member, then
`Set.add` of a fresh object (an append). -/
def ShareGroup.add (g : ShareGroup) (s : Share) : Except Err ShareGroup :=
  if 0 < g.length ∧ (g.headD s).groupParameters ≠ s.groupParameters then
    .error (.mnemonic "Invalid set of mnemonics. The group parameters don't match.")
  else
    .ok (g ++ [s])

def ShareGroup.toRawShares (g : ShareGroup) : List RawShare :=
  g.map (fun s => ⟨s.index, s.value⟩)

def ShareGroup.memberThreshold (g : ShareGroup) : Nat :=
  (g.headD dummyShare).memberThreshold

structure EncryptedMasterSecret where
  identifier : Nat
  extendable : Bool
  iterationExponent : Nat
  ciphertext : List Nat
deriving DecidableEq, Repr

def EncryptedMasterSecret.fromMasterSecret (c : CryptoPrims) (masterSecret passphrase : List Nat)
    (identifier : Nat) (extendable : Bool) (iterationExponent : Nat) :
    Except Err EncryptedMasterSecret :=
  (encrypt c masterSecret passphrase iterationExponent identifier extendable).map
    (fun ct => ⟨identifier, extendable, iterationExponent, ct⟩)

def EncryptedMasterSecret.decryptEms (c : CryptoPrims) (ems : EncryptedMasterSecret)
    (passphrase : List Nat) : Except Err (List Nat) :=
  decrypt c ems.ciphertext passphrase ems.iterationExponent ems.identifier ems.extendable

/-- `_createDigest`: the first `DIGEST_LENGTH_BYTES` bytes of
HMAC-SHA256 keyed by `randomData` over `sharedSecret`. -/
def _createDigest (c : CryptoPrims) (randomData sharedSecret : List Nat) : List Nat :=
  (c.hmacSha256 randomData sharedSecret).take DIGEST_LENGTH_BYTES

/-- `_splitSecret`.  The interpolation loop for the derived shares is the
`mapM` over the missing x-coordinates; its `MnemonicError`s propagate. -/
def _splitSecret (c : CryptoPrims) (rng : Nat → Nat → List Nat) (ctr : Nat)
    (threshold shareCount : Nat) (sharedSecret : List Nat) :
    Except Err (List RawShare × Nat) :=
  if threshold < 1 then
    .error (.generic "The requested threshold must be a positive integer.")
  else if threshold > shareCount then
    .error (.generic "The requested threshold must not exceed the number of shares.")
  else if shareCount > MAX_SHARE_COUNT then
    .error (.generic "The requested number of shares must not exceed 16.")
  else if threshold = 1 then
    .ok ((List.range shareCount).map (fun i => ⟨i, sharedSecret⟩), ctr)
  else
    let randomShareCount := threshold - 2
    let shares : List RawShare := (List.range randomShareCount).map
      (fun i => ⟨i, rng (ctr + i) sharedSecret.length⟩)
    let randomPart := rng (ctr + randomShareCount) (sharedSecret.length - DIGEST_LENGTH_BYTES)
    let digest := _createDigest c randomPart sharedSecret
    let baseShares : List RawShare := shares
      ++ [⟨DIGEST_INDEX, digest ++ randomPart⟩, ⟨SECRET_INDEX, sharedSecret⟩]
    ((List.range (shareCount - randomShareCount)).mapM (fun k =>
        (interpolateRaw baseShares (randomShareCount + k)).map
          (fun d => (⟨randomShareCount + k, d⟩ : RawShare)))).map
      (fun more => (shares ++ more, ctr + randomShareCount + 1))

/-- `_recoverSecret`. -/
def _recoverSecret (c : CryptoPrims) (threshold : Nat) (shares : List RawShare) :
    Except Err (List Nat) :=
  if threshold = 1 then
    .ok (shares.headD ⟨0, []⟩).data
  else do
    let sharedSecret ← interpolateRaw shares SECRET_INDEX
    let digestShare ← interpolateRaw shares DIGEST_INDEX
    let digest := digestShare.take DIGEST_LENGTH_BYTES
    let randomPart := digestShare.drop DIGEST_LENGTH_BYTES
    if digest ≠ _createDigest c randomPart sharedSecret then
      .error (.mnemonic "Invalid digest of the shared secret.")
    else
      .ok sharedSecret

/-- The `groups` map of `decodeMnemonics`: a JavaScript `Map` in insertion
order, modelled as an association list (new keys appended). -/
def groupsAdd : List (Nat × ShareGroup) → Nat → Share → Except Err (List (Nat × ShareGroup))
  | [], gi, s => (ShareGroup.add [] s).map (fun g => [(gi, g)])
  | (k, g) :: rest, gi, s =>
      if k = gi then (ShareGroup.add g s).map (fun g2 => (k, g2) :: rest)
      else (groupsAdd rest gi s).map (fun r => (k, g) :: r)

/-- `decodeMnemonics` at the word-index level. -/
def decodeMnemonics (mnemonics : List (List Nat)) :
    Except Err (List (Nat × ShareGroup)) := do
  let res ← mnemonics.foldlM (fun (acc : List Share × List (Nat × ShareGroup)) mn => do
      let share ← Share.fromMnemonic mn
      let groups ← groupsAdd acc.2 share.groupIndex share
      pure (acc.1 ++ [share], groups)) (([], []) : List Share × List (Nat × ShareGroup))
  if res.1.length = 0 then
    .error (.mnemonic "The list of mnemonics is empty.")
  else if res.1.all (fun s => s.commonParameters = (res.1.headD dummyShare).commonParameters) then
    .ok res.2
  else
    .error (.mnemonic "Invalid set of mnemonics. All mnemonics must begin with the same words, must have the same group threshold and the same group count.")

/-- `splitEms`. -/
def splitEms (c : CryptoPrims) (rng : Nat → Nat → List Nat) (ctr : Nat)
    (groupThreshold : Nat) (groups : List (Nat × Nat)) (ems : EncryptedMasterSecret) :
    Except Err (List (List Share) × Nat) :=
  if ems.ciphertext.length * 8 < MIN_STRENGTH_BITS then
    .error (.generic "The length of the master secret must be at least 16 bytes.")
  else if groupThreshold > groups.length then
    .error (.generic "The requested group threshold must not exceed the number of groups.")
  else if groups.any (fun mn => mn.1 = 1 ∧ 1 < mn.2) then
    .error (.generic "Creating multiple member shares with member threshold 1 is not allowed. Use 1-of-1 member sharing instead.")
  else do
    let (groupShares, ctr1) ←
      _splitSecret c rng ctr groupThreshold groups.length ems.ciphertext
    groups.enum.foldlM (fun (acc : List (List Share) × Nat) gpair => do
        let groupIndex := gpair.1
        let memberThreshold := gpair.2.1
        let memberCount := gpair.2.2
        let groupSecret := (groupShares.getD groupIndex ⟨0, []⟩).data
        let (memberShares, ctr2) ←
          _splitSecret c rng acc.2 memberThreshold memberCount groupSecret
        pure (acc.1 ++ [memberShares.map (fun r =>
          (⟨ems.identifier, ems.extendable, ems.iterationExponent, groupIndex,
            groupThreshold, groups.length, r.x, memberThreshold, r.data⟩ : Share))], ctr2))
      (([], ctr1) : List (List Share) × Nat)

/-- `_randomIdentifier`: big-endian assembly of `bitsToBytes 15` random
bytes masked to 15 bits. -/
def _randomIdentifier (rng : Nat → Nat → List Nat) (ctr : Nat) : Nat × Nat :=
  let identifierBytes := rng ctr (bitsToBytes ID_LENGTH_BITS)
  (identifierBytes.foldl (fun id b => (id <<< 8) ||| b) 0 &&& (2 ^ ID_LENGTH_BITS - 1), ctr + 1)

/-- `generateMnemonics`, producing word-index mnemonics. -/
def generateMnemonics (c : CryptoPrims) (rng : Nat → Nat → List Nat) (ctr : Nat)
    (groupThreshold : Nat) (groups : List (Nat × Nat)) (masterSecret passphrase : List Nat)
    (extendable : Bool) (iterationExponent : Nat) :
    Except Err (List (List (List Nat))) :=
  if ¬ passphrase.all (fun b => 32 ≤ b ∧ b ≤ 126) then
    .error (.generic "The passphrase must contain only printable ASCII characters (code points 32-126).")
  else do
    let (identifier, ctr1) := _randomIdentifier rng ctr
    let ems ← EncryptedMasterSecret.fromMasterSecret c masterSecret passphrase
      identifier extendable iterationExponent
    let (groupedShares, _) ← splitEms c rng ctr1 groupThreshold groups ems
    pure (groupedShares.map (fun g => g.map Share.words))

/-- `recoverEms`. -/
def recoverEms (c : CryptoPrims) (groups : List (Nat × ShareGroup)) :
    Except Err EncryptedMasterSecret :=
  if groups.length = 0 then
    .error (.mnemonic "The set of shares is empty.")
  else
    let firstShare := ((groups.headD (0, [])).2.headD dummyShare)
    if groups.length < firstShare.groupThreshold then
      .error (.mnemonic "Insufficient number of mnemonic groups.")
    else if groups.length ≠ firstShare.groupThreshold then
      .error (.mnemonic "Wrong number of mnemonic groups.")
    else if groups.any (fun gp => gp.2.length ≠ gp.2.memberThreshold) then
      .error (.mnemonic "Wrong number of mnemonics.")
    else do
      let groupShares ← groups.mapM (fun gp =>
        (_recoverSecret c gp.2.memberThreshold gp.2.toRawShares).map
          (fun d => (⟨gp.1, d⟩ : RawShare)))
      let ciphertext ← _recoverSecret c firstShare.groupThreshold groupShares
      pure ⟨firstShare.identifier, firstShare.extendable,
        firstShare.iterationExponent, ciphertext⟩

/-- `combineMnemonics` at the word-index level. -/
def combineMnemonics (c : CryptoPrims) (mnemonics : List (List Nat))
    (passphrase : List Nat) : Except Err (List Nat) :=
  if mnemonics.length = 0 then
    .error (.mnemonic "The list of mnemonics is empty.")
  else do
    let groups ← decodeMnemonics mnemonics
    let ems ← recoverEms c groups
    EncryptedMasterSecret.decryptEms c ems passphrase

/-- Contract of the random-byte stream: call `i` for `n` bytes returns
`n` bytes. -/
def rngGood (rng : Nat → Nat → List Nat) : Prop :=
  ∀ i n, (rng i n).length = n ∧ ∀ b ∈ rng i n, b < 256

theorem ofByte_val_self (g : GF) : ofByte g.val = g := GF.ext_val (ofByte_val _ g.2)

theorem list_eq_map_range (l : List Nat) (n : Nat) (f : Nat → Nat)
    (hlen : l.length = n) (h : ∀ j, j < n → l.getD j 0 = f j) :
    l = (List.range n).map f := by
  apply List.ext_getElem
  · simp [hlen]
  · intro j h1 h2
    have hj : j < n := by
      rw [hlen] at h1
      exact h1
    have h3 := h j hj
    rw [List.getD_eq_getElem?_getD, List.getElem?_eq_getElem h1, Option.getD_some] at h3
    rw [h3]
    simp

theorem map_range_getD (n j : Nat) (f : Nat → Nat) (hj : j < n) :
    ((List.range n).map f).getD j 0 = f j := by
  rw [List.getD_eq_getElem?_getD]
  simp [List.getElem?_map, List.getElem?_range hj]

theorem mapM_ok {α β : Type} (f : α → Except Err β) (g : α → β) (l : List α)
    (h : ∀ a ∈ l, f a = .ok (g a)) :
    l.mapM f = .ok (l.map g) := by
  induction l with
  | nil => rfl
  | cons a t ih =>
      rw [List.mapM_cons, h a (List.mem_cons_self a t),
        ih (fun b hb => h b (List.mem_cons_of_mem a hb))]
      rfl

theorem createDigest_length (c : CryptoPrims) (hc : c.Good) (rd ss : List Nat) :
    (_createDigest c rd ss).length = 4 := by
  rw [_createDigest, List.length_take, (hc.1 rd ss).1]
  rfl

theorem createDigest_bytes (c : CryptoPrims) (hc : c.Good) (rd ss : List Nat) :
    ∀ b ∈ _createDigest c rd ss, b < 256 := by
  intro b hb
  exact (hc.1 rd ss).2 b (List.take_subset _ _ hb)

/-- A quorum of `T` shares lying on byte-column polynomials of degree
below `T` whose rows at `SECRET_INDEX` and `DIGEST_INDEX` carry the
secret and a valid digest row recovers the secret. -/
theorem recoverSecret_quorum (c : CryptoPrims) (T n : Nat) (hT : 2 ≤ T)
    (quorum : List RawShare) (Ps : Nat → Polynomial GF)
    (secret digestRow : List Nat)
    (hqlen : quorum.length = T)
    (hnd : (quorum.map RawShare.x).Nodup)
    (hxlt : ∀ s ∈ quorum, s.x < 254)
    (hdata : ∀ s ∈ quorum,
      s.data = (List.range n).map (fun j => (Polynomial.eval (ofByte s.x) (Ps j)).val))
    (hdeg : ∀ j < n, (Ps j).degree < (T : ℕ))
    (hslen : secret.length = n)
    (hsecret : ∀ j < n, (Polynomial.eval (ofByte SECRET_INDEX) (Ps j)).val = secret.getD j 0)
    (hdlen : digestRow.length = n)
    (hdigest : ∀ j < n, (Polynomial.eval (ofByte DIGEST_INDEX) (Ps j)).val = digestRow.getD j 0)
    (hdg : digestRow.take DIGEST_LENGTH_BYTES
      = _createDigest c (digestRow.drop DIGEST_LENGTH_BYTES) secret) :
    _recoverSecret c T quorum = .ok secret := by
  have hne : quorum ≠ [] := by
    intro h
    rw [h] at hqlen
    simp at hqlen
    omega
  have hxs : ∀ s ∈ quorum, s.x < 256 := fun s hs => by
    have := hxlt s hs
    omega
  have hlen : ∀ s ∈ quorum, s.data.length = n := fun s hs => by
    rw [hdata s hs]
    simp
  have hdegq : ∀ j < n, (Ps j).degree < quorum.length := by
    intro j hj
    rw [hqlen]
    exact_mod_cast hdeg j hj
  have hevalq : ∀ (x : Nat), ∀ j < n, ∀ t ∈ quorum,
      Polynomial.eval (ofByte t.x) (Ps j) = ofByte (t.data.getD j 0) := by
    intro x j hj t ht
    rw [hdata t ht, map_range_getD n j _ hj, ofByte_val_self]
  have hbytesq : ∀ t ∈ quorum, ∀ b ∈ t.data, b < 256 := by
    intro t ht b hb
    rw [hdata t ht] at hb
    obtain ⟨j, hj, rfl⟩ := List.mem_map.mp hb
    exact (Polynomial.eval (ofByte t.x) (Ps j)).2
  have hI255 : interpolateRaw quorum SECRET_INDEX = .ok secret := by
    rw [interpolateRaw_ok quorum SECRET_INDEX n Ps hne (by norm_num [SECRET_INDEX]) hxs hnd
      (fun t ht => by
        have := hxlt t ht
        norm_num [SECRET_INDEX]
        omega)
      hlen hdegq (hevalq SECRET_INDEX) hbytesq]
    rw [← list_eq_map_range secret n _ hslen (fun j hj => (hsecret j hj).symm)]
  have hI254 : interpolateRaw quorum DIGEST_INDEX = .ok digestRow := by
    rw [interpolateRaw_ok quorum DIGEST_INDEX n Ps hne (by norm_num [DIGEST_INDEX]) hxs hnd
      (fun t ht => by
        have := hxlt t ht
        norm_num [DIGEST_INDEX]
        omega)
      hlen hdegq (hevalq DIGEST_INDEX) hbytesq]
    rw [← list_eq_map_range digestRow n _ hdlen (fun j hj => (hdigest j hj).symm)]
  rw [_recoverSecret, if_neg (by omega)]
  rw [hI255, hI254]
  show (if digestRow.take DIGEST_LENGTH_BYTES
      ≠ _createDigest c (digestRow.drop DIGEST_LENGTH_BYTES) secret then
        (Except.error (Err.mnemonic "Invalid digest of the shared secret.") : Except Err (List Nat))
      else .ok secret) = .ok secret
  rw [if_neg (by
    rw [hdg]
    exact fun h => h rfl)]

/-- `_splitSecret` succeeds on valid parameters and produces shares with
x-coordinates `0 .. N-1` such that any `T` of them with distinct
x-coordinates recover the secret through `_recoverSecret`. -/
theorem splitSecret_spec (c : CryptoPrims) (hc : c.Good) (rng : Nat → Nat → List Nat)
    (hrng : rngGood rng) (ctr T N : Nat) (secret : List Nat)
    (hT1 : 1 ≤ T) (hTN : T ≤ N) (hN : N ≤ MAX_SHARE_COUNT)
    (hsec4 : 4 ≤ secret.length)
    (hsecb : ∀ b ∈ secret, b < 256) :
    ∃ shares ctr2, _splitSecret c rng ctr T N secret = .ok (shares, ctr2)
      ∧ shares.map RawShare.x = List.range N
      ∧ (∀ s ∈ shares, s.data.length = secret.length ∧ ∀ b ∈ s.data, b < 256)
      ∧ ∀ quorum : List RawShare, quorum.length = T → (∀ s ∈ quorum, s ∈ shares) →
          (quorum.map RawShare.x).Nodup →
          _recoverSecret c T quorum = .ok secret := by
  have hN16 : N ≤ 16 := hN
  by_cases hTone : T = 1
  · subst hTone
    refine ⟨(List.range N).map (fun i => ⟨i, secret⟩), ctr, ?_, ?_, ?_, ?_⟩
    · rw [_splitSecret, if_neg (by omega), if_neg (by omega),
        if_neg (Nat.not_lt.mpr hN), if_pos rfl]
    · rw [List.map_map]
      rw [show (RawShare.x ∘ fun i => (⟨i, secret⟩ : RawShare)) = id from rfl, List.map_id]
    · intro s hs
      obtain ⟨i, _, rfl⟩ := List.mem_map.mp hs
      exact ⟨rfl, hsecb⟩
    · intro quorum hqlen hqsub _
      match quorum, hqlen with
      | [s], _ =>
          rw [_recoverSecret, if_pos rfl]
          have hm := hqsub s (List.mem_cons_self s [])
          obtain ⟨i, _, hi⟩ := List.mem_map.mp hm
          rw [List.headD_cons, ← hi]
  · have hT2 : 2 ≤ T := by omega
    set n := secret.length with hn
    set rsc := T - 2 with hrsc
    have hrsc14 : rsc ≤ 14 := by omega
    set shares0 : List RawShare :=
      (List.range rsc).map (fun i => ⟨i, rng (ctr + i) n⟩) with hs0
    set randomPart := rng (ctr + rsc) (n - DIGEST_LENGTH_BYTES) with hrp
    set digest := _createDigest c randomPart secret with hdig
    set digestRow := digest ++ randomPart with hdr
    set baseShares : List RawShare :=
      shares0 ++ [⟨DIGEST_INDEX, digestRow⟩, ⟨SECRET_INDEX, secret⟩] with hbs
    have hdiglen : digest.length = 4 := createDigest_length c hc randomPart secret
    have hrplen : randomPart.length = n - DIGEST_LENGTH_BYTES := (hrng _ _).1
    have hdrlen : digestRow.length = n := by
      rw [hdr, List.length_append, hdiglen, hrplen]
      have h4 : DIGEST_LENGTH_BYTES = 4 := rfl
      omega
    have hdrbytes : ∀ b ∈ digestRow, b < 256 := by
      intro b hb
      rcases List.mem_append.mp hb with h | h
      · exact createDigest_bytes c hc randomPart secret b h
      · exact (hrng _ _).2 b h
    have hbx : baseShares.map RawShare.x
        = List.range rsc ++ [DIGEST_INDEX, SECRET_INDEX] := by
      rw [hbs, List.map_append, List.map_map]
      rw [show (RawShare.x ∘ fun i => (⟨i, rng (ctr + i) n⟩ : RawShare)) = id from rfl,
        List.map_id]
      rfl
    have hbmem : ∀ t ∈ baseShares, t.x < rsc ∨ t.x = DIGEST_INDEX ∨ t.x = SECRET_INDEX := by
      intro t ht
      have hx : t.x ∈ List.range rsc ++ [DIGEST_INDEX, SECRET_INDEX] := by
        rw [← hbx]
        exact List.mem_map_of_mem _ ht
      rcases List.mem_append.mp hx with h | h
      · exact Or.inl (List.mem_range.mp h)
      · right
        simpa using h
    have hbxlt : ∀ t ∈ baseShares, t.x < 256 := by
      intro t ht
      rcases hbmem t ht with h | h | h
      · omega
      · rw [h]; norm_num [DIGEST_INDEX]
      · rw [h]; norm_num [SECRET_INDEX]
    have hbnd : (baseShares.map RawShare.x).Nodup := by
      rw [hbx]
      refine List.Nodup.append (List.nodup_range _) (by decide) ?_
      intro a ha hb
      have h1 : a < rsc := List.mem_range.mp ha
      have h2 : a = DIGEST_INDEX ∨ a = SECRET_INDEX := by simpa using hb
      rcases h2 with h2 | h2 <;> rw [h2] at h1 <;> revert h1 <;> norm_num [DIGEST_INDEX, SECRET_INDEX] <;> omega
    have hblen : ∀ t ∈ baseShares, t.data.length = n := by
      intro t ht
      rcases List.mem_append.mp ht with h | h
      · obtain ⟨i, _, rfl⟩ := List.mem_map.mp h
        exact (hrng _ _).1
      · simp only [List.mem_cons, List.not_mem_nil, or_false] at h
        rcases h with h | h
        · rw [h]
          exact hdrlen
        · rw [h]
    have hbbytes : ∀ t ∈ baseShares, ∀ b ∈ t.data, b < 256 := by
      intro t ht
      rcases List.mem_append.mp ht with h | h
      · obtain ⟨i, _, rfl⟩ := List.mem_map.mp h
        exact (hrng _ _).2
      · simp only [List.mem_cons, List.not_mem_nil, or_false] at h
        rcases h with h | h
        · rw [h]
          exact hdrbytes
        · rw [h]
          exact hsecb
    have hblength : baseShares.length = T := by
      rw [hbs, List.length_append, hs0, List.length_map, List.length_range]
      simp
      omega
    have hb254 : (⟨DIGEST_INDEX, digestRow⟩ : RawShare) ∈ baseShares := by
      rw [hbs]
      exact List.mem_append_right _ (List.mem_cons_self _ _)
    have hb255 : (⟨SECRET_INDEX, secret⟩ : RawShare) ∈ baseShares := by
      rw [hbs]
      exact List.mem_append_right _ (List.mem_cons_of_mem _ (List.mem_cons_self _ _))
    have hBnodup : baseShares.Nodup := List.Nodup.of_map _ hbnd
    set sB := baseShares.toFinset with hsB
    have hcard : sB.card = T := by
      rw [hsB, List.toFinset_card_of_nodup hBnodup, hblength]
    have hvs : Set.InjOn (fun t : RawShare => ofByte t.x) ↑sB := by
      intro a ha b hb hab
      have ha' : a ∈ baseShares := List.mem_toFinset.mp (Finset.mem_coe.mp ha)
      have hb' : b ∈ baseShares := List.mem_toFinset.mp (Finset.mem_coe.mp hb)
      exact List.inj_on_of_nodup_map hbnd ha' hb'
        (ofByte_inj _ _ (hbxlt a ha') (hbxlt b hb') hab)
    set Ps : Nat → Polynomial GF := fun j =>
      Lagrange.interpolate sB (fun t => ofByte t.x) (fun t => ofByte (t.data.getD j 0))
      with hPs
    have hdeg : ∀ j, (Ps j).degree < (T : ℕ) := by
      intro j
      have h := Lagrange.degree_interpolate_lt
        (r := fun t => ofByte (t.data.getD j 0)) hvs
      rwa [hcard] at h
    have heval_node : ∀ (j : Nat), ∀ t ∈ baseShares,
        Polynomial.eval (ofByte t.x) (Ps j) = ofByte (t.data.getD j 0) := by
      intro j t ht
      exact Lagrange.eval_interpolate_at_node
        (r := fun t => ofByte (t.data.getD j 0)) hvs (List.mem_toFinset.mpr ht)
    have hinterp : ∀ k, k < N - rsc → interpolateRaw baseShares (rsc + k)
        = .ok ((List.range n).map
            (fun j => (Polynomial.eval (ofByte (rsc + k)) (Ps j)).val)) := by
      intro k hk
      apply interpolateRaw_ok baseShares (rsc + k) n Ps
      · rw [hbs]
        simp
      · omega
      · exact hbxlt
      · exact hbnd
      · intro t ht
        rcases hbmem t ht with h | h | h
        · omega
        · rw [h]; norm_num [DIGEST_INDEX]; omega
        · rw [h]; norm_num [SECRET_INDEX]; omega
      · exact hblen
      · intro j _
        rw [hblength]
        exact_mod_cast hdeg j
      · intro j _ t ht
        exact heval_node j t ht
      · exact hbbytes
    set more : List RawShare := (List.range (N - rsc)).map
      (fun k => ⟨rsc + k, (List.range n).map
        (fun j => (Polynomial.eval (ofByte (rsc + k)) (Ps j)).val)⟩) with hmore
    have hmapM : (List.range (N - rsc)).mapM (fun k =>
        (interpolateRaw baseShares (rsc + k)).map
          (fun d => (⟨rsc + k, d⟩ : RawShare))) = .ok more := by
      rw [hmore]
      apply mapM_ok
      intro k hk
      rw [hinterp k (List.mem_range.mp hk)]
      rfl
    have heq : _splitSecret c rng ctr T N secret
        = .ok (shares0 ++ more, ctr + rsc + 1) := by
      rw [_splitSecret, if_neg (by omega), if_neg (by omega),
        if_neg (Nat.not_lt.mpr hN), if_neg hTone]
      show ((List.range (N - rsc)).mapM (fun k =>
          (interpolateRaw baseShares (rsc + k)).map
            (fun d => (⟨rsc + k, d⟩ : RawShare)))).map
        (fun more => (shares0 ++ more, ctr + rsc + 1)) = _
      rw [hmapM]
      rfl
    refine ⟨shares0 ++ more, ctr + rsc + 1, heq, ?_, ?_, ?_⟩
    · rw [List.map_append, hmore, hs0, List.map_map, List.map_map]
      rw [show (RawShare.x ∘ fun i => (⟨i, rng (ctr + i) n⟩ : RawShare)) = id from rfl,
        List.map_id]
      rw [show (RawShare.x ∘ fun k => (⟨rsc + k, (List.range n).map
          (fun j => (Polynomial.eval (ofByte (rsc + k)) (Ps j)).val)⟩ : RawShare))
        = (fun k => rsc + k) from rfl]
      conv_rhs => rw [show N = rsc + (N - rsc) from by omega, List.range_add]
    · intro s hs
      rcases List.mem_append.mp hs with h | h
      · obtain ⟨i, _, rfl⟩ := List.mem_map.mp h
        exact ⟨(hrng _ _).1, (hrng _ _).2⟩
      · obtain ⟨k, _, rfl⟩ := List.mem_map.mp h
        constructor
        · simp
        · intro b hb
          obtain ⟨j, _, rfl⟩ := List.mem_map.mp hb
          exact (Polynomial.eval (ofByte (rsc + k)) (Ps j)).2
    · intro quorum hqlen hqsub hqnd
      have hxmem : ∀ s ∈ quorum, s.x < N := by
        intro s hs
        rcases List.mem_append.mp (hqsub s hs) with h | h
        · obtain ⟨i, hi, rfl⟩ := List.mem_map.mp h
          have := List.mem_range.mp hi
          show i < N
          omega
        · obtain ⟨k, hk, rfl⟩ := List.mem_map.mp h
          have := List.mem_range.mp hk
          show rsc + k < N
          omega
      apply recoverSecret_quorum c T n hT2 quorum Ps secret digestRow hqlen hqnd
      · intro s hs
        have := hxmem s hs
        omega
      · intro s hs
        rcases List.mem_append.mp (hqsub s hs) with h | h
        · obtain ⟨i, hi, rfl⟩ := List.mem_map.mp h
          have hbase : (⟨i, rng (ctr + i) n⟩ : RawShare) ∈ baseShares := by
            rw [hbs]
            exact List.mem_append_left _ h
          apply list_eq_map_range _ _ _ (hrng _ _).1
          intro j hj
          have he := heval_node j _ hbase
          have hblt : (rng (ctr + i) n).getD j 0 < 256 :=
            (hrng _ _).2 _ (getD_mem_of_lt (by rw [(hrng _ _).1]; exact hj))
          rw [he, ofByte_val _ hblt]
        · obtain ⟨k, hk, rfl⟩ := List.mem_map.mp h
          rfl
      · intro j _
        exact hdeg j
      · rfl
      · intro j hj
        have he := heval_node j _ hb255
        have hblt : secret.getD j 0 < 256 :=
          hsecb _ (getD_mem_of_lt (by rw [← hn]; exact hj))
        rw [he, ofByte_val _ hblt]
      · exact hdrlen
      · intro j hj
        have he := heval_node j _ hb254
        have hblt : digestRow.getD j 0 < 256 :=
          hdrbytes _ (getD_mem_of_lt (by rw [hdrlen]; exact hj))
        rw [he, ofByte_val _ hblt]
      · rw [hdr, List.take_left' (by rw [hdiglen]; rfl), List.drop_left' (by rw [hdiglen]; rfl)]

theorem except_bind_ok {ε α β : Type} (a : α) (f : α → Except ε β) :
    (Except.ok a >>= f : Except ε β) = f a := rfl

theorem splitEms_fold (c : CryptoPrims) (hc : c.Good) (rng : Nat → Nat → List Nat)
    (hrng : rngGood rng) (ems : EncryptedMasterSecret) (G gcount : Nat)
    (groupShares : List RawShare)
    (l : List (Nat × (Nat × Nat)))
    (hcond : ∀ p ∈ l, 1 ≤ p.2.1 ∧ p.2.1 ≤ p.2.2 ∧ p.2.2 ≤ MAX_SHARE_COUNT
      ∧ 4 ≤ (groupShares.getD p.1 ⟨0, []⟩).data.length
      ∧ ∀ b ∈ (groupShares.getD p.1 ⟨0, []⟩).data, b < 256) :
    ∀ (acc0 : List (List Share)) (ctr0 : Nat), ∃ out ctrF,
      l.foldlM (fun (acc : List (List Share) × Nat) (gpair : Nat × (Nat × Nat)) => do
          let groupIndex := gpair.1
          let memberThreshold := gpair.2.1
          let memberCount := gpair.2.2
          let groupSecret := (groupShares.getD groupIndex ⟨0, []⟩).data
          let (memberShares, ctr2) ←
            _splitSecret c rng acc.2 memberThreshold memberCount groupSecret
          pure (acc.1 ++ [memberShares.map (fun r : RawShare =>
            (⟨ems.identifier, ems.extendable, ems.iterationExponent, groupIndex,
              G, gcount, r.x, memberThreshold, r.data⟩ : Share))], ctr2)) (acc0, ctr0)
        = .ok (acc0 ++ out, ctrF)
      ∧ List.Forall₂ (fun (p : Nat × (Nat × Nat)) (block : List Share) =>
          (∀ sh ∈ block, sh.identifier = ems.identifier ∧ sh.extendable = ems.extendable
            ∧ sh.iterationExponent = ems.iterationExponent ∧ sh.groupIndex = p.1
            ∧ sh.groupThreshold = G ∧ sh.groupCount = gcount ∧ sh.memberThreshold = p.2.1
            ∧ sh.value.length = (groupShares.getD p.1 ⟨0, []⟩).data.length
            ∧ ∀ b ∈ sh.value, b < 256)
          ∧ block.map Share.index = List.range p.2.2
          ∧ ∀ mq : List RawShare, mq.length = p.2.1 →
              (∀ s ∈ mq, ∃ sh ∈ block, s = ⟨sh.index, sh.value⟩) →
              (mq.map RawShare.x).Nodup →
              _recoverSecret c p.2.1 mq = .ok (groupShares.getD p.1 ⟨0, []⟩).data) l out := by
  induction l with
  | nil =>
      intro acc0 ctr0
      exact ⟨[], ctr0, by rw [List.append_nil]; rfl, List.Forall₂.nil⟩
  | cons p l ih =>
      intro acc0 ctr0
      obtain ⟨hp1, hp2, hp3, hp4, hp5⟩ := hcond p (List.mem_cons_self p l)
      obtain ⟨mshares, ctr2, hsp, hmapx, hdata, hquorum⟩ :=
        splitSecret_spec c hc rng hrng ctr0 p.2.1 p.2.2
          (groupShares.getD p.1 ⟨0, []⟩).data hp1 hp2 hp3 hp4 hp5
      obtain ⟨out', ctrF, hfold, hpred⟩ :=
        ih (fun q hq => hcond q (List.mem_cons_of_mem p hq))
          (acc0 ++ [mshares.map (fun r : RawShare =>
            (⟨ems.identifier, ems.extendable, ems.iterationExponent, p.1,
              G, gcount, r.x, p.2.1, r.data⟩ : Share))]) ctr2
      refine ⟨mshares.map (fun r : RawShare =>
          (⟨ems.identifier, ems.extendable, ems.iterationExponent, p.1,
            G, gcount, r.x, p.2.1, r.data⟩ : Share)) :: out', ctrF, ?_, ?_⟩
      · rw [show acc0 ++ (mshares.map (fun r : RawShare =>
            (⟨ems.identifier, ems.extendable, ems.iterationExponent, p.1,
              G, gcount, r.x, p.2.1, r.data⟩ : Share)) :: out')
          = (acc0 ++ [mshares.map (fun r : RawShare =>
            (⟨ems.identifier, ems.extendable, ems.iterationExponent, p.1,
              G, gcount, r.x, p.2.1, r.data⟩ : Share))]) ++ out' from
            (List.append_assoc acc0 [mshares.map (fun r : RawShare =>
            (⟨ems.identifier, ems.extendable, ems.iterationExponent, p.1,
              G, gcount, r.x, p.2.1, r.data⟩ : Share))] out').symm]
        rw [List.foldlM_cons]
        show (_splitSecret c rng ctr0 p.2.1 p.2.2
          (groupShares.getD p.1 ⟨0, []⟩).data >>= _) >>= _ = _
        rw [hsp]
        exact hfold
      · refine List.Forall₂.cons ⟨?_, ?_, ?_⟩ hpred
        · intro sh hsh
          obtain ⟨r, hr, rfl⟩ := List.mem_map.mp hsh
          exact ⟨rfl, rfl, rfl, rfl, rfl, rfl, rfl, (hdata r hr).1, (hdata r hr).2⟩
        · rw [List.map_map]
          rw [show (Share.index ∘ fun r : RawShare =>
            (⟨ems.identifier, ems.extendable, ems.iterationExponent, p.1,
              G, gcount, r.x, p.2.1, r.data⟩ : Share)) = RawShare.x from rfl]
          exact hmapx
        · intro mq hmqlen hmqsub hmqnd
          apply hquorum mq hmqlen _ hmqnd
          intro s hs
          obtain ⟨sh, hsh, rfl⟩ := hmqsub s hs
          obtain ⟨r, hr, rfl⟩ := List.mem_map.mp hsh
          exact hr

theorem getD_mem {α : Type} (l : List α) (j : Nat) (d : α) (h : j < l.length) :
    l.getD j d ∈ l := by
  rw [List.getD_eq_getElem?_getD, List.getElem?_eq_getElem h]
  simpa using List.getElem_mem h

theorem map_getD {α β : Type} (f : α → β) (l : List α) (j : Nat) (d : α)
    (h : j < l.length) :
    (l.map f).getD j (f d) = f (l.getD j d) := by
  rw [List.getD_eq_getElem?_getD, List.getD_eq_getElem?_getD, List.getElem?_map,
    List.getElem?_eq_getElem h]
  rfl

theorem range_getD (N gi : Nat) (h : gi < N) : (List.range N).getD gi 0 = gi := by
  rw [List.getD_eq_getElem?_getD, List.getElem?_range h]
  rfl

theorem getD_eq_get {α : Type} (l : List α) (d : α) (j : Nat) (h : j < l.length) :
    l.getD j d = l.get ⟨j, h⟩ := by
  rw [List.getD_eq_getElem?_getD, List.getElem?_eq_getElem h, Option.getD_some,
    List.get_eq_getElem]

theorem getD_x_of_map_range (l : List RawShare) (N gi : Nat)
    (h : l.map RawShare.x = List.range N) (hgi : gi < N) :
    (l.getD gi ⟨0, []⟩).x = gi ∧ l.getD gi ⟨0, []⟩ ∈ l := by
  have hlen : l.length = N := by
    have h2 := congrArg List.length h
    simpa using h2
  have hgl : gi < l.length := by omega
  refine ⟨?_, getD_mem l gi _ hgl⟩
  have h3 := map_getD RawShare.x l gi ⟨0, []⟩ hgl
  rw [h, show RawShare.x ⟨0, []⟩ = 0 from rfl, range_getD N gi hgi] at h3
  exact h3.symm

/-- `splitEms` on a valid configuration: every group of member shares is a
`_splitSecret` sharing of a group secret, and the group secrets themselves
recover the ciphertext. -/
theorem splitEms_spec (c : CryptoPrims) (hc : c.Good) (rng : Nat → Nat → List Nat)
    (hrng : rngGood rng) (ctr : Nat) (G : Nat) (groups : List (Nat × Nat))
    (ems : EncryptedMasterSecret)
    (hemsl : 16 ≤ ems.ciphertext.length)
    (hemsb : ∀ b ∈ ems.ciphertext, b < 256)
    (hG1 : 1 ≤ G) (hGle : G ≤ groups.length) (hglen : groups.length ≤ 16)
    (hvalid : ∀ p ∈ groups, 1 ≤ p.1 ∧ p.1 ≤ p.2 ∧ p.2 ≤ 16)
    (hno11 : ∀ p ∈ groups, ¬(p.1 = 1 ∧ 1 < p.2)) :
    ∃ (groupedShares : List (List Share)) (ctrF : Nat) (groupSecrets : Nat → List Nat),
      splitEms c rng ctr G groups ems = .ok (groupedShares, ctrF)
      ∧ groupedShares.length = groups.length
      ∧ (∀ gq : List RawShare, gq.length = G →
          (∀ s ∈ gq, ∃ gi, gi < groups.length ∧ s = ⟨gi, groupSecrets gi⟩) →
          (gq.map RawShare.x).Nodup →
          _recoverSecret c G gq = .ok ems.ciphertext)
      ∧ ∀ gi, gi < groups.length →
          ((groupedShares.getD gi []).map Share.index = List.range (groups.getD gi (0, 0)).2
          ∧ (∀ sh ∈ groupedShares.getD gi [],
              sh.identifier = ems.identifier ∧ sh.extendable = ems.extendable
              ∧ sh.iterationExponent = ems.iterationExponent ∧ sh.groupIndex = gi
              ∧ sh.groupThreshold = G ∧ sh.groupCount = groups.length
              ∧ sh.memberThreshold = (groups.getD gi (0, 0)).1
              ∧ sh.value.length = ems.ciphertext.length ∧ ∀ b ∈ sh.value, b < 256)
          ∧ ∀ mq : List RawShare, mq.length = (groups.getD gi (0, 0)).1 →
              (∀ s ∈ mq, ∃ sh ∈ groupedShares.getD gi [], s = ⟨sh.index, sh.value⟩) →
              (mq.map RawShare.x).Nodup →
              _recoverSecret c (groups.getD gi (0, 0)).1 mq = .ok (groupSecrets gi)) := by
  obtain ⟨gShares, ctr1, hspG, hmapxG, hdataG, hquorumG⟩ :=
    splitSecret_spec c hc rng hrng ctr G groups.length ems.ciphertext hG1 hGle hglen
      (by omega) hemsb
  have hglen2 : gShares.length = groups.length := by
    have h2 := congrArg List.length hmapxG
    simpa using h2
  have hcond : ∀ p ∈ groups.enum, 1 ≤ p.2.1 ∧ p.2.1 ≤ p.2.2 ∧ p.2.2 ≤ MAX_SHARE_COUNT
      ∧ 4 ≤ (gShares.getD p.1 ⟨0, []⟩).data.length
      ∧ ∀ b ∈ (gShares.getD p.1 ⟨0, []⟩).data, b < 256 := by
    intro p hp
    have hsome := List.mem_enum_iff_getElem?.mp hp
    have hlt : p.1 < groups.length := by
      by_contra hcon
      rw [List.getElem?_eq_none (by omega)] at hsome
      exact Option.noConfusion hsome
    have hmem : p.2 ∈ groups := by
      obtain ⟨hh, he⟩ := List.getElem?_eq_some.mp hsome
      rw [← he]
      exact List.getElem_mem hh
    obtain ⟨h1, h2, h3⟩ := hvalid p.2 hmem
    have hgimem : gShares.getD p.1 ⟨0, []⟩ ∈ gShares :=
      (getD_x_of_map_range gShares groups.length p.1 hmapxG hlt).2
    obtain ⟨hdl, hdb⟩ := hdataG _ hgimem
    exact ⟨h1, h2, h3, by omega, hdb⟩
  obtain ⟨out, ctrF, hfold, hpred⟩ :=
    splitEms_fold c hc rng hrng ems G groups.length gShares groups.enum hcond [] ctr1
  refine ⟨out, ctrF, fun gi => (gShares.getD gi ⟨0, []⟩).data, ?_, ?_, ?_, ?_⟩
  · rw [splitEms, if_neg (show ¬(ems.ciphertext.length * 8 < MIN_STRENGTH_BITS) from by
        show ¬(ems.ciphertext.length * 8 < 128)
        omega),
      if_neg (Nat.not_lt.mpr hGle),
      if_neg (show ¬(groups.any (fun mn => decide (mn.1 = 1 ∧ 1 < mn.2)) = true) from by
        intro hany
        obtain ⟨p, hp, hdec⟩ := List.any_eq_true.mp hany
        exact hno11 p hp (by simpa using hdec))]
    show (_splitSecret c rng ctr G groups.length ems.ciphertext >>= _) = _
    rw [hspG]
    exact hfold
  · have := List.Forall₂.length_eq hpred
    simpa using this.symm
  · intro gq hlen hmem hnd
    apply hquorumG gq hlen _ hnd
    intro s hs
    obtain ⟨gi, hgi, rfl⟩ := hmem s hs
    obtain ⟨hx, hm⟩ := getD_x_of_map_range gShares groups.length gi hmapxG hgi
    show (⟨gi, (gShares.getD gi ⟨0, []⟩).data⟩ : RawShare) ∈ gShares
    have he : (⟨gi, (gShares.getD gi ⟨0, []⟩).data⟩ : RawShare) = gShares.getD gi ⟨0, []⟩ :=
      congrArg (fun t => (⟨t, (gShares.getD gi ⟨0, []⟩).data⟩ : RawShare)) hx.symm
    rw [he]
    exact hm
  · intro gi hgi
    have h1 : gi < groups.enum.length := by
      rw [List.enum_length]
      exact hgi
    have h2 : gi < out.length := by
      have := List.Forall₂.length_eq hpred
      rw [List.enum_length] at this
      omega
    have hP := (List.forall₂_iff_get.mp hpred).2 gi h1 h2
    rw [List.get_eq_getElem, List.get_eq_getElem, List.getElem_enum] at hP
    have hout : out.getD gi [] = out[gi] := by
      rw [getD_eq_get out [] gi h2, List.get_eq_getElem]
    have hgrp : groups.getD gi (0, 0) = groups[gi] := by
      rw [getD_eq_get groups (0, 0) gi hgi, List.get_eq_getElem]
    rw [hout, hgrp]
    obtain ⟨hfields, hidx, hquo⟩ := hP
    refine ⟨hidx, ?_, ?_⟩
    · intro sh hsh
      obtain ⟨f1, f2, f3, f4, f5, f6, f7, f8, f9⟩ := hfields sh hsh
      have hgimem : gShares.getD gi ⟨0, []⟩ ∈ gShares :=
        (getD_x_of_map_range gShares groups.length gi hmapxG hgi).2
      exact ⟨f1, f2, f3, f4, f5, f6, f7, by rw [f8, (hdataG _ hgimem).1], f9⟩
    · exact hquo

theorem headD_mem {α : Type} (l : List α) (d : α) (h : l ≠ []) : l.headD d ∈ l := by
  cases l with
  | nil => exact absurd rfl h
  | cons a t => exact List.mem_cons_self a t

/-- A selection of exactly `groupThreshold` complete groups drawn from the
output of `splitEms` makes `recoverEms` return the original
`EncryptedMasterSecret`. -/
theorem recoverEms_sel (c : CryptoPrims) (ems : EncryptedMasterSecret)
    (G glen : Nat) (groupedShares : List (List Share)) (groupSecrets : Nat → List Nat)
    (tn : Nat → Nat × Nat)
    (hG1 : 1 ≤ G)
    (hquorumG : ∀ gq : List RawShare, gq.length = G →
        (∀ s ∈ gq, ∃ gi, gi < glen ∧ s = ⟨gi, groupSecrets gi⟩) →
        (gq.map RawShare.x).Nodup →
        _recoverSecret c G gq = .ok ems.ciphertext)
    (hgrp : ∀ gi, gi < glen →
        ((∀ sh ∈ groupedShares.getD gi [],
            sh.identifier = ems.identifier ∧ sh.extendable = ems.extendable
            ∧ sh.iterationExponent = ems.iterationExponent ∧ sh.groupIndex = gi
            ∧ sh.groupThreshold = G ∧ sh.groupCount = glen
            ∧ sh.memberThreshold = (tn gi).1)
        ∧ ∀ mq : List RawShare, mq.length = (tn gi).1 →
            (∀ s ∈ mq, ∃ sh ∈ groupedShares.getD gi [], s = ⟨sh.index, sh.value⟩) →
            (mq.map RawShare.x).Nodup →
            _recoverSecret c (tn gi).1 mq = .ok (groupSecrets gi)))
    (gsel : List (Nat × ShareGroup))
    (hsellen : gsel.length = G)
    (hselnd : (gsel.map Prod.fst).Nodup)
    (hsel : ∀ p ∈ gsel, p.1 < glen ∧ p.2.length = (tn p.1).1
        ∧ (∀ sh ∈ p.2, sh ∈ groupedShares.getD p.1 [])
        ∧ (p.2.map Share.index).Nodup ∧ p.2 ≠ []) :
    recoverEms c gsel = .ok ems := by
  have hfieldsOf : ∀ p ∈ gsel, ∀ sh ∈ p.2,
      sh.identifier = ems.identifier ∧ sh.extendable = ems.extendable
      ∧ sh.iterationExponent = ems.iterationExponent ∧ sh.groupIndex = p.1
      ∧ sh.groupThreshold = G ∧ sh.groupCount = glen
      ∧ sh.memberThreshold = (tn p.1).1 := by
    intro p hp sh hsh
    exact (hgrp p.1 (hsel p hp).1).1 sh ((hsel p hp).2.2.1 sh hsh)
  have hmtOf : ∀ p ∈ gsel, p.2.memberThreshold = (tn p.1).1 := by
    intro p hp
    have hne := (hsel p hp).2.2.2.2
    exact (hfieldsOf p hp _ (headD_mem p.2 dummyShare hne)).2.2.2.2.2.2
  have hrec : ∀ p ∈ gsel,
      (_recoverSecret c p.2.memberThreshold p.2.toRawShares).map
          (fun d => (⟨p.1, d⟩ : RawShare))
        = .ok ⟨p.1, groupSecrets p.1⟩ := by
    intro p hp
    obtain ⟨hlt, hlen, hsub, hndi, hne⟩ := hsel p hp
    rw [hmtOf p hp]
    rw [(hgrp p.1 hlt).2 p.2.toRawShares ?hl ?hs ?hn]
    · rfl
    case hl =>
      rw [ShareGroup.toRawShares, List.length_map]
      exact hlen
    case hs =>
      intro s hs
      obtain ⟨sh, hsh, rfl⟩ := List.mem_map.mp hs
      exact ⟨sh, hsub sh hsh, rfl⟩
    case hn =>
      rw [ShareGroup.toRawShares, List.map_map]
      rw [show (RawShare.x ∘ fun s : Share => (⟨s.index, s.value⟩ : RawShare))
        = Share.index from rfl]
      exact hndi
  have hmapM : gsel.mapM (fun gp =>
      (_recoverSecret c gp.2.memberThreshold gp.2.toRawShares).map
        (fun d => (⟨gp.1, d⟩ : RawShare)))
      = .ok (gsel.map (fun gp => (⟨gp.1, groupSecrets gp.1⟩ : RawShare))) :=
    mapM_ok _ _ gsel hrec
  have hcipher : _recoverSecret c G
      (gsel.map (fun gp => (⟨gp.1, groupSecrets gp.1⟩ : RawShare))) = .ok ems.ciphertext := by
    apply hquorumG
    · rw [List.length_map]
      exact hsellen
    · intro s hs
      obtain ⟨gp, hgp, rfl⟩ := List.mem_map.mp hs
      exact ⟨gp.1, (hsel gp hgp).1, rfl⟩
    · rw [List.map_map]
      rw [show (RawShare.x ∘ fun gp : Nat × ShareGroup =>
        (⟨gp.1, groupSecrets gp.1⟩ : RawShare)) = Prod.fst from rfl]
      exact hselnd
  cases gsel with
  | nil =>
      rw [List.length_nil] at hsellen
      omega
  | cons p0 rest =>
      have hp0 := hsel p0 (List.mem_cons_self p0 rest)
      have hF : p0.2.headD dummyShare ∈ p0.2 := headD_mem p0.2 dummyShare hp0.2.2.2.2
      have hFf := hfieldsOf p0 (List.mem_cons_self p0 rest) _ hF
      have hGT : (p0.2.headD dummyShare).groupThreshold = G := hFf.2.2.2.2.1
      rw [recoverEms, if_neg (by simp)]
      show (if (p0 :: rest).length < (((p0 :: rest).headD (0, [])).2.headD dummyShare).groupThreshold
          then _ else _) = _
      rw [List.headD_cons, hGT, if_neg (by omega), if_neg (by omega),
        if_neg (show ¬((p0 :: rest).any
            (fun gp => decide (gp.2.length ≠ gp.2.memberThreshold)) = true) from by
          intro hany
          obtain ⟨gp, hgp, hdec⟩ := List.any_eq_true.mp hany
          have hne2 : gp.2.length ≠ gp.2.memberThreshold := by simpa using hdec
          exact hne2 ((hsel gp hgp).2.1.trans (hmtOf gp hgp).symm))]
      show ((p0 :: rest).mapM _ >>= _) = _
      rw [hmapM, except_bind_ok]
      show (_recoverSecret c G
        ((p0 :: rest).map (fun gp => (⟨gp.1, groupSecrets gp.1⟩ : RawShare))) >>= _) = _
      rw [hcipher, except_bind_ok]
      show Except.ok (⟨(p0.2.headD dummyShare).identifier, (p0.2.headD dummyShare).extendable,
        (p0.2.headD dummyShare).iterationExponent, ems.ciphertext⟩ : EncryptedMasterSecret) = _
      rw [hFf.1, hFf.2.1, hFf.2.2.1]

theorem groupsAdd_fresh (groups0 : List (Nat × ShareGroup)) (gi : Nat) (s : Share)
    (hfresh : gi ∉ groups0.map Prod.fst) :
    groupsAdd groups0 gi s = .ok (groups0 ++ [(gi, [s])]) := by
  induction groups0 with
  | nil => rfl
  | cons kg rest ih =>
      have hne : kg.1 ≠ gi := by
        intro h
        exact hfresh (by rw [← h]; exact List.mem_map_of_mem _ (List.mem_cons_self kg rest))
      rw [show (kg :: rest : List (Nat × ShareGroup)) = (kg.1, kg.2) :: rest from rfl,
        groupsAdd, if_neg hne,
        ih (fun hmem => hfresh (List.mem_cons_of_mem _ hmem))]
      rfl

theorem groupsAdd_last (groups0 : List (Nat × ShareGroup)) (gi : Nat) (g : ShareGroup)
    (s : Share) (hfresh : gi ∉ groups0.map Prod.fst) (hne : g ≠ [])
    (hgp : (g.headD dummyShare).groupParameters = s.groupParameters) :
    groupsAdd (groups0 ++ [(gi, g)]) gi s = .ok (groups0 ++ [(gi, g ++ [s])]) := by
  induction groups0 with
  | nil =>
      show groupsAdd ((gi, g) :: []) gi s = _
      rw [groupsAdd, if_pos rfl]
      rw [show ShareGroup.add g s = .ok (g ++ [s]) from by
        rw [ShareGroup.add, if_neg ?hcond]
        case hcond =>
          intro hcon
          cases g with
          | nil => exact hne rfl
          | cons a t =>
              rw [List.headD_cons] at hcon hgp
              exact hcon.2 hgp]
      rfl
  | cons kg rest ih =>
      have hkg : kg.1 ≠ gi := by
        intro h
        exact hfresh (by rw [← h]; exact List.mem_map_of_mem _ (List.mem_cons_self kg rest))
      rw [show ((kg :: rest : List (Nat × ShareGroup)) ++ [(gi, g)])
          = (kg.1, kg.2) :: (rest ++ [(gi, g)]) from rfl,
        groupsAdd, if_neg hkg,
        ih (fun hmem => hfresh (List.mem_cons_of_mem _ hmem))]
      rfl

theorem stepD_ok (acc : List Share × List (Nat × ShareGroup))
    (mn : List Nat) (share : Share) (groups1 : List (Nat × ShareGroup))
    (hparse : Share.fromMnemonic mn = .ok share)
    (hadd : groupsAdd acc.2 share.groupIndex share = .ok groups1) :
    (do
        let share ← Share.fromMnemonic mn
        let groups ← groupsAdd acc.2 share.groupIndex share
        pure (acc.1 ++ [share], groups)
      : Except Err (List Share × List (Nat × ShareGroup)))
      = .ok (acc.1 ++ [share], groups1) := by
  show Share.fromMnemonic mn >>= _ = _
  rw [hparse, except_bind_ok]
  show groupsAdd acc.2 share.groupIndex share >>= _ = _
  rw [hadd, except_bind_ok]
  rfl

theorem foldD_partial (gi : Nat) (b0 : Share) :
    ∀ (r : List Share) (groups0 : List (Nat × ShareGroup))
      (partW accS : List Share),
      gi ∉ groups0.map Prod.fst →
      partW.headD dummyShare = b0 → partW ≠ [] →
      (∀ sh ∈ r, Share.fromMnemonic sh.words = .ok sh) →
      (∀ sh ∈ r, sh.groupIndex = gi) →
      (∀ sh ∈ r, sh.groupParameters = b0.groupParameters) →
      (r.map Share.words).foldlM (fun (acc : List Share × List (Nat × ShareGroup)) mn => do
          let share ← Share.fromMnemonic mn
          let groups ← groupsAdd acc.2 share.groupIndex share
          pure (acc.1 ++ [share], groups)) (accS, groups0 ++ [(gi, partW)])
        = .ok (accS ++ r, groups0 ++ [(gi, partW ++ r)]) := by
  intro r
  induction r with
  | nil =>
      intro groups0 partW accS _ _ _ _ _ _
      rw [List.map_nil, List.foldlM_nil, List.append_nil, List.append_nil]
      rfl
  | cons s rest ih =>
      intro groups0 partW accS hfresh hhead hpne hparse hgi hgp
      rw [List.map_cons, List.foldlM_cons]
      have hadd : groupsAdd (groups0 ++ [(gi, partW)]) s.groupIndex s
          = .ok (groups0 ++ [(gi, partW ++ [s])]) := by
        rw [hgi s (List.mem_cons_self s rest)]
        exact groupsAdd_last groups0 gi partW s hfresh hpne
          (by rw [hhead, hgp s (List.mem_cons_self s rest)])
      rw [stepD_ok (accS, groups0 ++ [(gi, partW)]) s.words s
        (groups0 ++ [(gi, partW ++ [s])])
        (hparse s (List.mem_cons_self s rest)) hadd, except_bind_ok]
      have hih := ih groups0 (partW ++ [s]) (accS ++ [s]) hfresh
        (by
          cases partW with
          | nil => exact absurd rfl hpne
          | cons a t =>
              rw [List.headD_cons] at hhead
              rw [List.cons_append, List.headD_cons]
              exact hhead)
        (by simp)
        (fun sh hsh => hparse sh (List.mem_cons_of_mem s hsh))
        (fun sh hsh => hgi sh (List.mem_cons_of_mem s hsh))
        (fun sh hsh => hgp sh (List.mem_cons_of_mem s hsh))
      rw [hih, List.append_assoc, List.append_assoc]
      rfl

theorem foldD_blocks :
    ∀ (sel : List (Nat × List Share)) (groups0 : List (Nat × ShareGroup))
      (accS : List Share),
      (∀ p ∈ sel, p.1 ∉ groups0.map Prod.fst) →
      (sel.map Prod.fst).Nodup →
      (∀ p ∈ sel, p.2 ≠ []) →
      (∀ p ∈ sel, ∀ sh ∈ p.2, Share.fromMnemonic sh.words = .ok sh
        ∧ sh.groupIndex = p.1
        ∧ sh.groupParameters = (p.2.headD dummyShare).groupParameters) →
      ((sel.map (fun p => p.2.map Share.words)).flatten).foldlM
          (fun (acc : List Share × List (Nat × ShareGroup)) mn => do
            let share ← Share.fromMnemonic mn
            let groups ← groupsAdd acc.2 share.groupIndex share
            pure (acc.1 ++ [share], groups)) (accS, groups0)
        = .ok (accS ++ (sel.map Prod.snd).flatten, groups0 ++ sel) := by
  intro sel
  induction sel with
  | nil =>
      intro groups0 accS _ _ _ _
      rw [List.map_nil, List.flatten_nil, List.foldlM_nil, List.map_nil,
        List.flatten_nil, List.append_nil, List.append_nil]
      rfl
  | cons p rest ih =>
      intro groups0 accS hfresh hnd hne hcond
      rw [List.map_cons, List.flatten_cons, List.foldlM_append]
      obtain ⟨b0, btail, hblk⟩ : ∃ b0 btail, p.2 = b0 :: btail := by
        cases hp : p.2 with
        | nil => exact absurd hp (hne p (List.mem_cons_self p rest))
        | cons a t => exact ⟨a, t, rfl⟩
      have hcondp := hcond p (List.mem_cons_self p rest)
      have hb0 : b0 ∈ p.2 := by rw [hblk]; exact List.mem_cons_self b0 btail
      have hhead : p.2.headD dummyShare = b0 := by rw [hblk, List.headD_cons]
      have hstep1 : groupsAdd groups0 b0.groupIndex b0 = .ok (groups0 ++ [(p.1, [b0])]) := by
        rw [(hcondp b0 hb0).2.1]
        exact groupsAdd_fresh groups0 p.1 b0 (hfresh p (List.mem_cons_self p rest))
      have hblock : (p.2.map Share.words).foldlM
          (fun (acc : List Share × List (Nat × ShareGroup)) mn => do
            let share ← Share.fromMnemonic mn
            let groups ← groupsAdd acc.2 share.groupIndex share
            pure (acc.1 ++ [share], groups)) (accS, groups0)
          = .ok (accS ++ p.2, groups0 ++ [(p.1, p.2)]) := by
        rw [hblk, List.map_cons, List.foldlM_cons]
        rw [stepD_ok (accS, groups0) b0.words b0 (groups0 ++ [(p.1, [b0])])
          (hcondp b0 hb0).1 hstep1, except_bind_ok]
        have hpart := foldD_partial p.1 b0 btail groups0 [b0] (accS ++ [b0])
          (hfresh p (List.mem_cons_self p rest)) rfl (by simp)
          (fun sh hsh => (hcondp sh (by rw [hblk]; exact List.mem_cons_of_mem b0 hsh)).1)
          (fun sh hsh => (hcondp sh (by rw [hblk]; exact List.mem_cons_of_mem b0 hsh)).2.1)
          (fun sh hsh => by
            have := (hcondp sh (by rw [hblk]; exact List.mem_cons_of_mem b0 hsh)).2.2
            rw [this, hhead])
        rw [hpart, List.append_assoc]
        rfl
      rw [hblock, except_bind_ok]
      have hih := ih (groups0 ++ [(p.1, p.2)]) (accS ++ p.2)
        (by
          intro q hq hmem
          rw [List.map_append, List.mem_append] at hmem
          rcases hmem with hmem | hmem
          · exact hfresh q (List.mem_cons_of_mem p hq) hmem
          · have hq1 : q.1 = p.1 := by simpa using hmem
            have : p.1 ∈ (rest.map Prod.fst) := by
              rw [← hq1]
              exact List.mem_map_of_mem _ hq
            exact (List.nodup_cons.mp (by simpa using hnd)).1 this)
        (List.nodup_cons.mp (by simpa using hnd)).2
        (fun q hq => hne q (List.mem_cons_of_mem p hq))
        (fun q hq => hcond q (List.mem_cons_of_mem p hq))
      rw [hih, List.append_assoc, List.append_assoc]
      rfl

/-- `decodeMnemonics` on a group-by-group listing of share mnemonics
reconstructs exactly that grouping. -/
theorem decodeMnemonics_grouped (sel : List (Nat × List Share))
    (hselne : sel ≠ [])
    (hnd : (sel.map Prod.fst).Nodup)
    (hne : ∀ p ∈ sel, p.2 ≠ [])
    (hcond : ∀ p ∈ sel, ∀ sh ∈ p.2, Share.fromMnemonic sh.words = .ok sh
      ∧ sh.groupIndex = p.1
      ∧ sh.groupParameters = (p.2.headD dummyShare).groupParameters)
    (hcommon : ∀ p ∈ sel, ∀ sh ∈ p.2, ∀ q ∈ sel, ∀ sh2 ∈ q.2,
      sh.commonParameters = sh2.commonParameters) :
    decodeMnemonics ((sel.map (fun p => p.2.map Share.words)).flatten)
      = .ok sel := by
  have hfold := foldD_blocks sel [] [] (by simp) hnd hne hcond
  rw [List.nil_append, List.nil_append] at hfold
  have hallne : (sel.map Prod.snd).flatten ≠ [] := by
    cases sel with
    | nil => exact absurd rfl hselne
    | cons p rest =>
        rw [List.map_cons, List.flatten_cons]
        have hp2 := hne p (List.mem_cons_self p rest)
        intro hcon
        rw [List.append_eq_nil] at hcon
        exact hp2 hcon.1
  have hmemflat : ∀ s ∈ (sel.map Prod.snd).flatten, ∃ p ∈ sel, s ∈ p.2 := by
    intro s hs
    obtain ⟨l, hl, hsl⟩ := List.mem_flatten.mp hs
    obtain ⟨p, hp, rfl⟩ := List.mem_map.mp hl
    exact ⟨p, hp, hsl⟩
  rw [decodeMnemonics]
  show ((sel.map (fun p => p.2.map Share.words)).flatten).foldlM _
    (([], []) : List Share × List (Nat × ShareGroup)) >>= _ = _
  rw [hfold, except_bind_ok]
  show (if ((sel.map Prod.snd).flatten).length = 0 then _
    else if ((sel.map Prod.snd).flatten).all
        (fun s => s.commonParameters
          = (((sel.map Prod.snd).flatten).headD dummyShare).commonParameters)
      then _ else _) = _
  rw [if_neg (fun h => hallne (List.length_eq_zero.mp h)),
    if_pos (List.all_eq_true.mpr ?hall)]
  case hall =>
    intro s hs
    rw [decide_eq_true_eq]
    obtain ⟨p, hp, hsp⟩ := hmemflat s hs
    obtain ⟨q, hq, hsq⟩ := hmemflat _ (headD_mem _ dummyShare hallne)
    exact hcommon p hp s hsp q hq _ hsq

theorem map_getD_of_lt {α β : Type} (f : α → β) (l : List α) (j : Nat) (d : α) (d2 : β)
    (h : j < l.length) :
    (l.map f).getD j d2 = f (l.getD j d) := by
  rw [List.getD_eq_getElem?_getD, List.getD_eq_getElem?_getD, List.getElem?_map,
    List.getElem?_eq_getElem h]
  rfl

theorem _xor_bytes : ∀ (a cc : List Nat), (∀ b ∈ a, b < 256) → (∀ b ∈ cc, b < 256) →
    ∀ b ∈ _xor a cc, b < 256 := by
  intro a
  induction a with
  | nil =>
      intro cc _ _ b hb
      simp [_xor] at hb
  | cons x a ih =>
      intro cc ha hcc b hb
      cases cc with
      | nil => simp [_xor] at hb
      | cons y cc2 =>
          rw [_xor, List.zipWith_cons_cons] at hb
          rcases List.mem_cons.mp hb with h | h
          · rw [h]
            exact byte_xor_lt x y (ha x (List.mem_cons_self x a))
              (hcc y (List.mem_cons_self y cc2))
          · exact ih cc2 (fun b2 hb2 => ha b2 (List.mem_cons_of_mem x hb2))
              (fun b2 hb2 => hcc b2 (List.mem_cons_of_mem y hb2)) b h

theorem feistel_fold_bytes (c : CryptoPrims) (passphrase : List Nat) (e : Nat)
    (salt : List Nat) (hF : ∀ pw s iter dk, ∀ b ∈ c.pbkdf2Sha256 pw s iter dk, b < 256) :
    ∀ (rounds : List Nat) (l r : List Nat),
      (∀ b ∈ l, b < 256) → (∀ b ∈ r, b < 256) →
      (∀ b ∈ (rounds.foldl (feistelStep c passphrase e salt) (l, r)).1, b < 256)
      ∧ (∀ b ∈ (rounds.foldl (feistelStep c passphrase e salt) (l, r)).2, b < 256) := by
  intro rounds
  induction rounds with
  | nil => exact fun l r hl hr => ⟨hl, hr⟩
  | cons i rest ih =>
      intro l r hl hr
      rw [List.foldl_cons]
      exact ih r (_xor l (_roundFunction c i passphrase e salt r)) hr
        (_xor_bytes l _ hl (hF _ _ _ _))


theorem encrypt_bytes (c : CryptoPrims) (ms passphrase : List Nat)
    (e identifier : Nat) (extendable : Bool) (E : List Nat)
    (hF : ∀ pw s iter dk, ∀ b ∈ c.pbkdf2Sha256 pw s iter dk, b < 256)
    (hmsb : ∀ b ∈ ms, b < 256)
    (hlen : ms.length % 2 = 0)
    (hE : encrypt c ms passphrase e identifier extendable = .ok E) :
    ∀ b ∈ E, b < 256 := by
  rw [encrypt_eq c ms passphrase e identifier extendable hlen] at hE
  have hEeq := Except.ok.inj hE
  have hfold := feistel_fold_bytes c passphrase e (_getSalt identifier extendable) hF
    (List.range ROUND_COUNT) (ms.take (ms.length / 2)) (ms.drop (ms.length / 2))
    (fun b hb => hmsb b (List.take_subset _ _ hb))
    (fun b hb => hmsb b (List.drop_subset _ _ hb))
  intro b hb
  rw [← hEeq] at hb
  rcases List.mem_append.mp hb with h | h
  · exact hfold.2 b h
  · exact hfold.1 b h

/-- Full pipeline round trip: `combineMnemonics` applied to any quorum of
the mnemonics produced by `generateMnemonics` returns the master secret.
The quorum is given as `sel`: for each of `G` distinct groups, a list of
distinct member indices of the prescribed member-threshold size. -/
theorem generate_combine (c : CryptoPrims) (hc : c.Good) (rng : Nat → Nat → List Nat)
    (hrng : rngGood rng) (ctr : Nat)
    (G : Nat) (groups : List (Nat × Nat)) (masterSecret passphrase : List Nat)
    (extendable : Bool) (e : Nat)
    (hmslen : 16 ≤ masterSecret.length) (hmseven : masterSecret.length % 2 = 0)
    (hmsb : ∀ b ∈ masterSecret, b < 256)
    (hpass : ∀ b ∈ passphrase, 32 ≤ b ∧ b ≤ 126)
    (he : e < 16)
    (hG1 : 1 ≤ G) (hGle : G ≤ groups.length) (hglen : groups.length ≤ 16)
    (hvalid : ∀ p ∈ groups, 1 ≤ p.1 ∧ p.1 ≤ p.2 ∧ p.2 ≤ 16)
    (hno11 : ∀ p ∈ groups, ¬(p.1 = 1 ∧ 1 < p.2))
    (sel : List (Nat × List Nat))
    (hsellen : sel.length = G)
    (hselnd : (sel.map Prod.fst).Nodup)
    (hsel : ∀ p ∈ sel, p.1 < groups.length
      ∧ p.2.length = (groups.getD p.1 (0, 0)).1
      ∧ p.2.Nodup ∧ ∀ mi ∈ p.2, mi < (groups.getD p.1 (0, 0)).2) :
    ∃ mnems : List (List (List Nat)),
      generateMnemonics c rng ctr G groups masterSecret passphrase extendable e = .ok mnems
      ∧ combineMnemonics c
          ((sel.map (fun p => p.2.map (fun mi => (mnems.getD p.1 []).getD mi []))).flatten)
          passphrase
        = .ok masterSecret := by
  set idrng := _randomIdentifier rng ctr with hidrng
  have hidlt : idrng.1 < 2 ^ 15 := by
    rw [hidrng]
    show _ &&& (2 ^ ID_LENGTH_BITS - 1) < 2 ^ 15
    rw [show (ID_LENGTH_BITS : Nat) = 15 from rfl, and_mask_eq_mod]
    exact Nat.mod_lt _ (by norm_num)
  have hFlen : ∀ pw s iter dk, (c.pbkdf2Sha256 pw s iter dk).length = dk :=
    fun pw s iter dk => (hc.2 pw s iter dk).1
  have hFbytes : ∀ pw s iter dk, ∀ b ∈ c.pbkdf2Sha256 pw s iter dk, b < 256 :=
    fun pw s iter dk => (hc.2 pw s iter dk).2
  obtain ⟨E, hE, hElen, hEdec⟩ := decrypt_encrypt c masterSecret passphrase e idrng.1
    extendable hFlen hmseven
  have hEbytes : ∀ b ∈ E, b < 256 :=
    encrypt_bytes c masterSecret passphrase e idrng.1 extendable E hFbytes hmsb hmseven hE
  set ems : EncryptedMasterSecret := ⟨idrng.1, extendable, e, E⟩ with hems
  have hfm : EncryptedMasterSecret.fromMasterSecret c masterSecret passphrase idrng.1
      extendable e = .ok ems := by
    rw [EncryptedMasterSecret.fromMasterSecret, hE]
    rfl
  obtain ⟨groupedShares, ctrF, groupSecrets, hsplit, hgslen, hquorumG, hgrp⟩ :=
    splitEms_spec c hc rng hrng (ctr + 1) G groups ems
      (by show 16 ≤ E.length; omega)
      (by show ∀ b ∈ E, b < 256; exact hEbytes)
      hG1 hGle hglen hvalid hno11
  set mnems := groupedShares.map (fun g => g.map Share.words) with hmnems
  have hgen : generateMnemonics c rng ctr G groups masterSecret passphrase extendable e
      = .ok mnems := by
    rw [generateMnemonics,
      if_neg (not_not_intro (List.all_eq_true.mpr
        (fun b hb => by simpa using hpass b hb)))]
    show (EncryptedMasterSecret.fromMasterSecret c masterSecret passphrase idrng.1
      extendable e >>= _) = _
    rw [hfm, except_bind_ok]
    show (splitEms c rng (ctr + 1) G groups ems >>= _) = _
    rw [hsplit, except_bind_ok]
    rfl
  have hblk : ∀ gi, gi < groups.length →
      (groupedShares.getD gi []).length = (groups.getD gi (0, 0)).2 := by
    intro gi hgi
    have h2 := congrArg List.length (hgrp gi hgi).1
    simpa using h2
  have hchosen : ∀ gi, gi < groups.length → ∀ mi, mi < (groups.getD gi (0, 0)).2 →
      (groupedShares.getD gi []).getD mi dummyShare ∈ groupedShares.getD gi []
      ∧ ((groupedShares.getD gi []).getD mi dummyShare).index = mi := by
    intro gi hgi mi hmi
    have hlen2 : mi < (groupedShares.getD gi []).length := by
      rw [hblk gi hgi]
      exact hmi
    refine ⟨getD_mem _ mi dummyShare hlen2, ?_⟩
    have h3 := map_getD_of_lt Share.index (groupedShares.getD gi []) mi dummyShare 0 hlen2
    rw [(hgrp gi hgi).1, range_getD _ mi hmi] at h3
    exact h3.symm
  have hparseAll : ∀ gi, gi < groups.length → ∀ sh ∈ groupedShares.getD gi [],
      Share.fromMnemonic sh.words = .ok sh := by
    intro gi hgi sh hsh
    obtain ⟨f1, f2, f3, f4, f5, f6, f7, f8, f9⟩ := (hgrp gi hgi).2.1 sh hsh
    have hgmem : groups.getD gi (0, 0) ∈ groups := getD_mem groups gi (0, 0) hgi
    obtain ⟨v1, v2, v3⟩ := hvalid _ hgmem
    have hidxlt : sh.index < 16 := by
      have h4 : sh.index ∈ (groupedShares.getD gi []).map Share.index :=
        List.mem_map_of_mem _ hsh
      rw [(hgrp gi hgi).1] at h4
      have := List.mem_range.mp h4
      omega
    apply fromMnemonic_words sh
    · rw [f1]
      exact hidlt
    · rw [f3]
      exact he
    · rw [f4]
      omega
    · rw [f5]
      omega
    · rw [f5]
      omega
    · rw [f6]
      omega
    · rw [f6]
      exact hglen
    · rw [f5, f6]
      exact hGle
    · exact hidxlt
    · rw [f7]
      omega
    · rw [f7]
      omega
    · exact f9
    · rw [f8]
      show 16 ≤ E.length
      omega
    · rw [f8]
      show E.length % 2 = 0
      omega
  have hgpar : ∀ gi, gi < groups.length → ∀ sh ∈ groupedShares.getD gi [],
      sh.groupParameters
        = (idrng.1, extendable, e, gi, G, groups.length, (groups.getD gi (0, 0)).1) := by
    intro gi hgi sh hsh
    obtain ⟨f1, f2, f3, f4, f5, f6, f7, _, _⟩ := (hgrp gi hgi).2.1 sh hsh
    rw [Share.groupParameters, f1, f2, f3, f4, f5, f6, f7]
  have hcpar : ∀ gi, gi < groups.length → ∀ sh ∈ groupedShares.getD gi [],
      sh.commonParameters = (idrng.1, extendable, e, G, groups.length) := by
    intro gi hgi sh hsh
    obtain ⟨f1, f2, f3, _, f5, f6, _, _, _⟩ := (hgrp gi hgi).2.1 sh hsh
    rw [Share.commonParameters, f1, f2, f3, f5, f6]
  set selShares : List (Nat × List Share) := sel.map
    (fun p => (p.1, p.2.map (fun mi => (groupedShares.getD p.1 []).getD mi dummyShare)))
    with hselS
  have hmn_eq : (sel.map (fun p => p.2.map
        (fun mi => (mnems.getD p.1 []).getD mi []))).flatten
      = (selShares.map (fun q => q.2.map Share.words)).flatten := by
    rw [hselS, List.map_map]
    congr 1
    apply List.map_congr_left
    intro p hp
    show p.2.map (fun mi => (mnems.getD p.1 []).getD mi [])
      = (p.2.map (fun mi => (groupedShares.getD p.1 []).getD mi dummyShare)).map Share.words
    rw [List.map_map]
    apply List.map_congr_left
    intro mi hmi
    have hp1 : p.1 < groupedShares.length := by
      rw [hgslen]
      exact (hsel p hp).1
    have hmiN := (hsel p hp).2.2.2 mi hmi
    show (mnems.getD p.1 []).getD mi [] = _
    rw [hmnems, map_getD_of_lt (fun g : List Share => g.map Share.words)
        groupedShares p.1 [] [] hp1,
      map_getD_of_lt Share.words _ mi dummyShare []
        (by rw [hblk p.1 (hsel p hp).1]; exact hmiN)]
    rfl
  have hselSne : selShares ≠ [] := by
    rw [hselS]
    intro hcon
    rw [List.map_eq_nil] at hcon
    rw [hcon] at hsellen
    rw [List.length_nil] at hsellen
    omega
  have hblkne : ∀ q ∈ selShares, q.2 ≠ [] := by
    intro q hq
    rw [hselS] at hq
    obtain ⟨p, hp, rfl⟩ := List.mem_map.mp hq
    show p.2.map _ ≠ []
    intro hcon
    rw [List.map_eq_nil] at hcon
    have h5 := (hsel p hp).2.1
    rw [hcon, List.length_nil] at h5
    have hgmem : groups.getD p.1 (0, 0) ∈ groups := getD_mem groups p.1 (0, 0) (hsel p hp).1
    have := (hvalid _ hgmem).1
    omega
  have hchmem : ∀ p ∈ sel, ∀ sh ∈ p.2.map
      (fun mi => (groupedShares.getD p.1 []).getD mi dummyShare),
      sh ∈ groupedShares.getD p.1 [] ∧ ∃ mi ∈ p.2, sh.index = mi
        ∧ sh = (groupedShares.getD p.1 []).getD mi dummyShare := by
    intro p hp sh hsh
    obtain ⟨mi, hmi, rfl⟩ := List.mem_map.mp hsh
    have h6 := hchosen p.1 (hsel p hp).1 mi ((hsel p hp).2.2.2 mi hmi)
    exact ⟨h6.1, mi, hmi, h6.2, rfl⟩
  have hdecode : decodeMnemonics ((selShares.map (fun q => q.2.map Share.words)).flatten)
      = .ok selShares := by
    apply decodeMnemonics_grouped selShares hselSne
    · rw [hselS, List.map_map]
      rw [show (Prod.fst ∘ fun p : Nat × List Nat =>
        (p.1, p.2.map (fun mi => (groupedShares.getD p.1 []).getD mi dummyShare)))
        = Prod.fst from rfl]
      exact hselnd
    · exact hblkne
    · intro q hq sh hsh
      have hq2 := hq
      rw [hselS] at hq2
      obtain ⟨p, hp, rfl⟩ := List.mem_map.mp hq2
      obtain ⟨hmem, mi, hmi, hidx, rfl⟩ := hchmem p hp sh hsh
      have hlt := (hsel p hp).1
      refine ⟨hparseAll p.1 hlt _ hmem, ?_, ?_⟩
      · exact ((hgrp p.1 hlt).2.1 _ hmem).2.2.2.1
      · have hhd : (p.2.map (fun mi =>
            (groupedShares.getD p.1 []).getD mi dummyShare)).headD dummyShare
            ∈ groupedShares.getD p.1 [] := by
          have hne2 : p.2.map (fun mi =>
              (groupedShares.getD p.1 []).getD mi dummyShare) ≠ [] :=
            hblkne _ hq
          exact (hchmem p hp _ (headD_mem _ dummyShare hne2)).1
        rw [hgpar p.1 hlt _ hmem, hgpar p.1 hlt _ hhd]
    · intro q hq sh hsh q2 hq2 sh2 hsh2
      have hqa := hq
      have hqb := hq2
      rw [hselS] at hqa hqb
      obtain ⟨p, hp, rfl⟩ := List.mem_map.mp hqa
      obtain ⟨p2, hp2, rfl⟩ := List.mem_map.mp hqb
      obtain ⟨hmem, _, _, _, rfl⟩ := hchmem p hp sh hsh
      obtain ⟨hmem2, _, _, _, rfl⟩ := hchmem p2 hp2 sh2 hsh2
      rw [hcpar p.1 (hsel p hp).1 _ hmem, hcpar p2.1 (hsel p2 hp2).1 _ hmem2]
  have hrecover : recoverEms c selShares = .ok ems := by
    apply recoverEms_sel c ems G groups.length groupedShares groupSecrets
      (fun gi => groups.getD gi (0, 0)) hG1 hquorumG
      (fun gi hgi => ⟨fun sh hsh => by
          obtain ⟨f1, f2, f3, f4, f5, f6, f7, _, _⟩ := (hgrp gi hgi).2.1 sh hsh
          exact ⟨f1, f2, f3, f4, f5, f6, f7⟩,
        (hgrp gi hgi).2.2⟩)
      selShares
      (by rw [hselS, List.length_map]; exact hsellen)
      (by
        rw [hselS, List.map_map]
        rw [show (Prod.fst ∘ fun p : Nat × List Nat =>
          (p.1, p.2.map (fun mi => (groupedShares.getD p.1 []).getD mi dummyShare)))
          = Prod.fst from rfl]
        exact hselnd)
      ?hselc
    case hselc =>
      intro q hq
      have hqa := hq
      rw [hselS] at hqa
      obtain ⟨p, hp, rfl⟩ := List.mem_map.mp hqa
      refine ⟨(hsel p hp).1, ?_, ?_, ?_, ?_⟩
      · rw [List.length_map]
        exact (hsel p hp).2.1
      · intro sh hsh
        exact (hchmem p hp sh hsh).1
      · rw [List.map_map]
        have hpt : ∀ mi ∈ p.2, (Share.index ∘ fun mi =>
            (groupedShares.getD p.1 []).getD mi dummyShare) mi = mi := by
          intro mi hmi
          exact (hchosen p.1 (hsel p hp).1 mi ((hsel p hp).2.2.2 mi hmi)).2
        rw [List.map_congr_left hpt]
        simpa using (hsel p hp).2.2.1
      · exact hblkne _ hq
  refine ⟨mnems, hgen, ?_⟩
  rw [hmn_eq]
  have hqmne : ((selShares.map (fun q => q.2.map Share.words)).flatten) ≠ [] := by
    cases hselsv : selShares with
    | nil => exact absurd hselsv hselSne
    | cons q rest =>
        rw [List.map_cons, List.flatten_cons]
        intro hcon
        rw [List.append_eq_nil, List.map_eq_nil] at hcon
        exact hblkne q (by rw [hselsv]; exact List.mem_cons_self q rest) hcon.1
  rw [combineMnemonics, if_neg (fun h => hqmne (List.length_eq_zero.mp h))]
  show (decodeMnemonics _ >>= _) = _
  rw [hdecode, except_bind_ok]
  show (recoverEms c selShares >>= _) = _
  rw [hrecover, except_bind_ok]
  show decrypt c E passphrase e idrng.1 extendable = _
  exact hEdec

/-! ## Concrete instances for witnesses -/

/-- A concrete well-behaved stand-in for the external crypto primitives. -/
def cW : CryptoPrims :=
  ⟨fun key msg => (List.range 32).map (fun i => (i + key.length + msg.length) % 256),
   fun pw salt iter dk => (List.range dk).map (fun i => (i + pw.length + salt.length + iter) % 256)⟩

theorem cW_good : cW.Good := by
  constructor
  · intro key msg
    refine ⟨by simp [cW], ?_⟩
    intro b hb
    obtain ⟨i, _, rfl⟩ := List.mem_map.mp hb
    exact Nat.mod_lt _ (by norm_num)
  · intro pw salt iter dk
    refine ⟨by simp [cW], ?_⟩
    intro b hb
    obtain ⟨i, _, rfl⟩ := List.mem_map.mp hb
    exact Nat.mod_lt _ (by norm_num)

/-- A concrete deterministic random-byte stream. -/
def rngW : Nat → Nat → List Nat := fun i n => (List.range n).map (fun k => (k + i) % 256)

theorem rngW_good : rngGood rngW := by
  intro i n
  refine ⟨by simp [rngW], ?_⟩
  intro b hb
  obtain ⟨k, _, rfl⟩ := List.mem_map.mp hb
  exact Nat.mod_lt _ (by norm_num)

/-! ## The claims -/

/-- C2: for every master secret of even length, every passphrase, iteration
exponent, identifier and extendable flag, decrypting the encryption returns
the master secret, and the output length equals the input length (for
well-behaved PBKDF2). -/
theorem claim_C2 (c : CryptoPrims) (hc : c.Good) (ms passphrase : List Nat)
    (e identifier : Nat) (extendable : Bool) (hlen : ms.length % 2 = 0) :
    ∃ E, encrypt c ms passphrase e identifier extendable = .ok E
      ∧ E.length = ms.length
      ∧ decrypt c E passphrase e identifier extendable = .ok ms :=
  decrypt_encrypt c ms passphrase e identifier extendable
    (fun pw s iter dk => (hc.2 pw s iter dk).1) hlen

theorem claim_C2_witness : cW.Good ∧ ([0, 1] : List Nat).length % 2 = 0
    ∧ ∃ E, encrypt cW [0, 1] [] 0 0 true = .ok E
      ∧ E.length = ([0, 1] : List Nat).length
      ∧ decrypt cW E [] 0 0 true = .ok [0, 1] :=
  ⟨cW_good, by decide, claim_C2 cW cW_good [0, 1] [] 0 0 true (by decide)⟩

/-- C3: every share with in-range fields, `groupThreshold ≤ groupCount` and
an even value of at least 16 bytes round-trips through the mnemonic codec:
`Share.fromMnemonic (share.words) = ok share`. -/
theorem claim_C3 (s : Share)
    (hid : s.identifier < 2 ^ 15) (he : s.iterationExponent < 16)
    (hgi : s.groupIndex < 16)
    (hgt1 : 1 ≤ s.groupThreshold) (hgt16 : s.groupThreshold ≤ 16)
    (hgc1 : 1 ≤ s.groupCount) (hgc16 : s.groupCount ≤ 16)
    (hgtc : s.groupThreshold ≤ s.groupCount)
    (hidx : s.index < 16)
    (hmt1 : 1 ≤ s.memberThreshold) (hmt16 : s.memberThreshold ≤ 16)
    (hbytes : ∀ b ∈ s.value, b < 256)
    (hlen16 : 16 ≤ s.value.length) (hleven : s.value.length % 2 = 0) :
    Share.fromMnemonic s.words = .ok s :=
  fromMnemonic_words s hid he hgi hgt1 hgt16 hgc1 hgc16 hgtc hidx hmt1 hmt16
    hbytes hlen16 hleven

def sW : Share :=
  ⟨4660, true, 1, 2, 2, 3, 5, 2,
   [10, 20, 30, 40, 50, 60, 70, 80, 90, 100, 110, 120, 130, 140, 150, 255]⟩

theorem claim_C3_witness : sW.identifier < 2 ^ 15 ∧ 16 ≤ sW.value.length
    ∧ Share.fromMnemonic sW.words = .ok sW :=
  ⟨by decide, by decide,
    claim_C3 sW (by decide) (by decide) (by decide) (by decide) (by decide)
      (by decide) (by decide) (by decide) (by decide) (by decide) (by decide)
      (by decide) (by decide) (by decide)⟩

/-- C5: the library's `ShareGroup` stores `Share` objects in a JavaScript
`Set`, which deduplicates by object reference, not value.  Adding a share
value-equal to one already present (every caller constructs a fresh
object) grows the group: the documented idempotence does not hold. -/
theorem claim_C5 : ∃ (g : ShareGroup) (s : Share), s ∈ g
    ∧ ShareGroup.add g s = .ok (g ++ [s])
    ∧ (g ++ [s]).length = g.length + 1 := by
  refine ⟨[dummyShare], dummyShare, ?_, ?_, ?_⟩
  · decide
  · rfl
  · decide

/-- C8: with threshold 1 and `1 ≤ N ≤ 16`, `_splitSecret` emits `N` shares
with x-coordinates `0..N-1`, each a copy of the secret, and
`_recoverSecret 1` returns the first share's data, so any single emitted
share recovers the secret. -/
theorem claim_C8 (c : CryptoPrims) (rng : Nat → Nat → List Nat) (ctr N : Nat)
    (S : List Nat) (hN1 : 1 ≤ N) (hN : N ≤ 16) :
    _splitSecret c rng ctr 1 N S
      = .ok ((List.range N).map (fun i => ⟨i, S⟩), ctr)
    ∧ (∀ shares : List RawShare,
        _recoverSecret c 1 shares = .ok (shares.headD ⟨0, []⟩).data)
    ∧ ∀ s ∈ (List.range N).map (fun i => (⟨i, S⟩ : RawShare)),
        _recoverSecret c 1 [s] = .ok S := by
  refine ⟨?_, ?_, ?_⟩
  · rw [_splitSecret, if_neg (by omega), if_neg (by omega),
      if_neg (Nat.not_lt.mpr (show N ≤ MAX_SHARE_COUNT from hN)), if_pos rfl]
  · intro shares
    rw [_recoverSecret, if_pos rfl]
  · intro s hs
    obtain ⟨i, _, rfl⟩ := List.mem_map.mp hs
    rw [_recoverSecret, if_pos rfl]
    rfl

theorem claim_C8_witness : (1 : Nat) ≤ 3 ∧ (3 : Nat) ≤ 16
    ∧ (_splitSecret cW rngW 0 1 3 [7, 8]
        = .ok ((List.range 3).map (fun i => ⟨i, [7, 8]⟩), 0)
      ∧ (∀ shares : List RawShare,
          _recoverSecret cW 1 shares = .ok (shares.headD ⟨0, []⟩).data)
      ∧ ∀ s ∈ (List.range 3).map (fun i => (⟨i, [7, 8]⟩ : RawShare)),
          _recoverSecret cW 1 [s] = .ok [7, 8]) :=
  ⟨by decide, by decide, claim_C8 cW rngW 0 3 [7, 8] (by decide) (by decide)⟩

/-- C9: a word sequence passing the RS1024 check loses validity when any
single word is changed to any different 10-bit value. -/
theorem claim_C9 (data cs : List Nat) (i w : Nat)
    (hd : ∀ v ∈ data, v < 1024)
    (hver : verifyChecksum data cs = true)
    (hi : i < data.length) (hw : w < 1024) (hne : w ≠ data.getD i 0) :
    verifyChecksum (data.set i w) cs = false := by
  have hdlt : data.getD i 0 < 1024 := hd _ (getD_mem_of_lt hi)
  have hsplit : data = data.take i ++ data.getD i 0 :: data.drop (i + 1) := by
    rw [getD_eq_get data 0 i hi]
    conv_lhs => rw [← List.take_append_drop i data]
    congr 1
    rw [List.get_eq_getElem]
    exact (List.getElem_cons_drop data i hi).symm
  have hset : data.set i w = data.take i ++ w :: data.drop (i + 1) := by
    rw [List.set_eq_take_append_cons_drop, if_pos hi]
  have hpm := polymod_set_ne (cs ++ data.take i) (data.drop (i + 1))
    (data.getD i 0) w hdlt hw hne
  rw [verifyChecksum] at hver ⊢
  have hver1 : _polymod (cs ++ data) = 1 := by simpa using hver
  rw [beq_eq_false_iff_ne]
  intro hcontra
  have h2 : _polymod ((cs ++ data.take i) ++ data.getD i 0 :: data.drop (i + 1)) = 1 := by
    rw [List.append_assoc, ← hsplit]
    exact hver1
  have h3 : _polymod ((cs ++ data.take i) ++ w :: data.drop (i + 1)) = 1 := by
    rw [List.append_assoc, ← hset]
    exact hcontra
  exact hpm (h3.trans h2.symm)

theorem claim_C9_witness :
    (∀ v ∈ ([5, 6, 7] ++ createChecksum [5, 6, 7] CUSTOMIZATION_STRING_ORIG), v < 1024)
    ∧ verifyChecksum ([5, 6, 7] ++ createChecksum [5, 6, 7] CUSTOMIZATION_STRING_ORIG)
        CUSTOMIZATION_STRING_ORIG = true
    ∧ verifyChecksum
        (([5, 6, 7] ++ createChecksum [5, 6, 7] CUSTOMIZATION_STRING_ORIG).set 1 9)
        CUSTOMIZATION_STRING_ORIG = false :=
  ⟨by decide, by decide,
    claim_C9 ([5, 6, 7] ++ createChecksum [5, 6, 7] CUSTOMIZATION_STRING_ORIG)
      CUSTOMIZATION_STRING_ORIG 1 9 (by decide) (by decide) (by decide) (by decide)
      (by decide)⟩

/-- C7: for threshold at least 2, secret recovery interpolates the rows at
`SECRET_INDEX` (255) and `DIGEST_INDEX` (254), splits the digest row into
a 4-byte digest and a random part, errors exactly when the digest differs
from the first 4 bytes of HMAC-SHA256 keyed by the random part over the
interpolated secret, and returns the interpolated secret on a match. -/
theorem claim_C7 (c : CryptoPrims) (T : Nat) (shares : List RawShare)
    (secret digestShare : List Nat) (hT : 2 ≤ T)
    (h255 : interpolateRaw shares SECRET_INDEX = .ok secret)
    (h254 : interpolateRaw shares DIGEST_INDEX = .ok digestShare) :
    _recoverSecret c T shares
      = if digestShare.take DIGEST_LENGTH_BYTES
          = _createDigest c (digestShare.drop DIGEST_LENGTH_BYTES) secret
        then .ok secret
        else .error (.mnemonic "Invalid digest of the shared secret.") := by
  rw [_recoverSecret, if_neg (by omega)]
  show (interpolateRaw shares SECRET_INDEX >>= _) = _
  rw [h255, except_bind_ok]
  show (interpolateRaw shares DIGEST_INDEX >>= _) = _
  rw [h254, except_bind_ok]
  by_cases h : digestShare.take DIGEST_LENGTH_BYTES
      = _createDigest c (digestShare.drop DIGEST_LENGTH_BYTES) secret
  · rw [if_pos h]
    show (if digestShare.take DIGEST_LENGTH_BYTES
        ≠ _createDigest c (digestShare.drop DIGEST_LENGTH_BYTES) secret
      then (.error (.mnemonic "Invalid digest of the shared secret.") : Except Err (List Nat))
      else .ok secret) = .ok secret
    rw [if_neg (not_not_intro h)]
  · rw [if_neg h]
    show (if digestShare.take DIGEST_LENGTH_BYTES
        ≠ _createDigest c (digestShare.drop DIGEST_LENGTH_BYTES) secret
      then (.error (.mnemonic "Invalid digest of the shared secret.") : Except Err (List Nat))
      else .ok secret) = .error (.mnemonic "Invalid digest of the shared secret.")
    rw [if_pos h]

theorem claim_C7_witness :
    interpolateRaw [⟨0, [9, 9, 9, 9, 9]⟩, ⟨1, [9, 9, 9, 9, 9]⟩] SECRET_INDEX
      = .ok [9, 9, 9, 9, 9]
    ∧ interpolateRaw [⟨0, [9, 9, 9, 9, 9]⟩, ⟨1, [9, 9, 9, 9, 9]⟩] DIGEST_INDEX
      = .ok [9, 9, 9, 9, 9]
    ∧ _recoverSecret cW 2 [⟨0, [9, 9, 9, 9, 9]⟩, ⟨1, [9, 9, 9, 9, 9]⟩]
      = if ([9, 9, 9, 9, 9] : List Nat).take DIGEST_LENGTH_BYTES
          = _createDigest cW (([9, 9, 9, 9, 9] : List Nat).drop DIGEST_LENGTH_BYTES)
            [9, 9, 9, 9, 9]
        then .ok [9, 9, 9, 9, 9]
        else .error (.mnemonic "Invalid digest of the shared secret.") :=
  ⟨by decide, by decide,
    claim_C7 cW 2 [⟨0, [9, 9, 9, 9, 9]⟩, ⟨1, [9, 9, 9, 9, 9]⟩] [9, 9, 9, 9, 9]
      [9, 9, 9, 9, 9] (by decide) (by decide) (by decide)⟩

/-- C6 (amended): `recoverEms` raises a `MnemonicError` whenever the number
of provided groups differs from the first share's group threshold, and
whenever some group's member count differs from its member threshold; but
correct counts alone do not guarantee success — recovery can still raise a
`MnemonicError` (for example on duplicate member indices). -/
theorem claim_C6 :
    (∀ (c : CryptoPrims) (groups : List (Nat × ShareGroup)),
      groups.length ≠ 0 →
      groups.length ≠ (((groups.headD (0, [])).2).headD dummyShare).groupThreshold →
      ∃ msg, recoverEms c groups = .error (.mnemonic msg))
    ∧ (∀ (c : CryptoPrims) (groups : List (Nat × ShareGroup)),
      groups.length ≠ 0 →
      groups.length = (((groups.headD (0, [])).2).headD dummyShare).groupThreshold →
      (∃ gp ∈ groups, gp.2.length ≠ gp.2.memberThreshold) →
      ∃ msg, recoverEms c groups = .error (.mnemonic msg))
    ∧ ∃ (c : CryptoPrims) (groups : List (Nat × ShareGroup)),
      groups.length
          = (((groups.headD (0, [])).2).headD dummyShare).groupThreshold
      ∧ (∀ gp ∈ groups, gp.2.length = gp.2.memberThreshold)
      ∧ ∃ msg, recoverEms c groups = .error (.mnemonic msg) := by
  refine ⟨?_, ?_, ?_⟩
  · intro c groups hne0 hneT
    by_cases hlt : groups.length
        < (((groups.headD (0, [])).2).headD dummyShare).groupThreshold
    · refine ⟨"Insufficient number of mnemonic groups.", ?_⟩
      rw [recoverEms, if_neg hne0]
      show (if groups.length
          < (((groups.headD (0, [])).2).headD dummyShare).groupThreshold
        then (.error (.mnemonic "Insufficient number of mnemonic groups.")
          : Except Err EncryptedMasterSecret)
        else _) = _
      rw [if_pos hlt]
    · refine ⟨"Wrong number of mnemonic groups.", ?_⟩
      rw [recoverEms, if_neg hne0]
      show (if groups.length
          < (((groups.headD (0, [])).2).headD dummyShare).groupThreshold
        then (.error (.mnemonic "Insufficient number of mnemonic groups.")
          : Except Err EncryptedMasterSecret)
        else if groups.length
            ≠ (((groups.headD (0, [])).2).headD dummyShare).groupThreshold
          then .error (.mnemonic "Wrong number of mnemonic groups.")
          else _) = _
      rw [if_neg hlt, if_pos hneT]
  · intro c groups hne0 hTeq hbad
    obtain ⟨gp, hgp, hgpne⟩ := hbad
    refine ⟨"Wrong number of mnemonics.", ?_⟩
    rw [recoverEms, if_neg hne0]
    show (if groups.length
        < (((groups.headD (0, [])).2).headD dummyShare).groupThreshold
      then (.error (.mnemonic "Insufficient number of mnemonic groups.")
        : Except Err EncryptedMasterSecret)
      else if groups.length
          ≠ (((groups.headD (0, [])).2).headD dummyShare).groupThreshold
        then .error (.mnemonic "Wrong number of mnemonic groups.")
        else if groups.any (fun gp => gp.2.length ≠ gp.2.memberThreshold)
          then .error (.mnemonic "Wrong number of mnemonics.")
          else _) = _
    rw [if_neg (by omega), if_neg (not_not_intro hTeq),
      if_pos (List.any_eq_true.mpr ⟨gp, hgp, by simpa using hgpne⟩)]
  · exact ⟨cW, [(0, [⟨1, true, 0, 0, 1, 1, 0, 2, [1]⟩, ⟨1, true, 0, 0, 1, 1, 0, 2, [2]⟩])],
      by decide, by decide,
      "Invalid set of shares. Share indices must be unique.", by decide⟩

/-- C6 counterexample: a single group matching its group threshold whose
two member shares both carry member index 0 — every count is correct, yet
`recoverEms` raises a `MnemonicError`, contradicting the claim that no
error is raised in that case. -/
theorem claim_C6_counterexample :
    ([(0, [⟨1, true, 0, 0, 1, 1, 0, 2, [1]⟩, ⟨1, true, 0, 0, 1, 1, 0, 2, [2]⟩])]
        : List (Nat × ShareGroup)).length
      = ((([(0, [⟨1, true, 0, 0, 1, 1, 0, 2, [1]⟩,
          ⟨1, true, 0, 0, 1, 1, 0, 2, [2]⟩])] : List (Nat × ShareGroup)).headD
            (0, [])).2.headD dummyShare).groupThreshold
    ∧ (∀ gp ∈ ([(0, [⟨1, true, 0, 0, 1, 1, 0, 2, [1]⟩,
          ⟨1, true, 0, 0, 1, 1, 0, 2, [2]⟩])] : List (Nat × ShareGroup)),
        gp.2.length = gp.2.memberThreshold)
    ∧ recoverEms cW [(0, [⟨1, true, 0, 0, 1, 1, 0, 2, [1]⟩,
          ⟨1, true, 0, 0, 1, 1, 0, 2, [2]⟩])]
      = .error (.mnemonic "Invalid set of shares. Share indices must be unique.") := by
  refine ⟨by decide, by decide, by decide⟩

/-- C10: every share returned by `Share.fromMnemonic` (word indices are
below 1024, as the word list guarantees) has all fields within the wire
ranges: identifier below `2^15`, iteration exponent, group index and
member index below 16, thresholds and count in `[1, 16]`, and group
threshold at most group count. -/
theorem claim_C10 (m : List Nat) (s : Share)
    (hw : ∀ w ∈ m, w < 1024)
    (h : Share.fromMnemonic m = .ok s) :
    s.identifier < 2 ^ 15 ∧ s.iterationExponent < 16
    ∧ s.groupIndex < 16 ∧ s.index < 16
    ∧ 1 ≤ s.groupThreshold ∧ s.groupThreshold ≤ 16
    ∧ 1 ≤ s.groupCount ∧ s.groupCount ≤ 16
    ∧ 1 ≤ s.memberThreshold ∧ s.memberThreshold ≤ 16
    ∧ s.groupThreshold ≤ s.groupCount := by
  simp only [Share.fromMnemonic] at h
  split_ifs at h with h1 h2 h3 h4 h5
  rw [Except.ok.injEq] at h
  subst h
  have hidE : _intFromWordIndices (List.take ID_EXP_LENGTH_WORDS m) < 2 ^ 20 := by
    rw [_intFromWordIndices_eq_acc]
    have hlt := accDigits_lt RADIX_BITS (List.take ID_EXP_LENGTH_WORDS m)
      (fun w hw2 => hw w (List.take_subset _ _ hw2))
    have hlen2 : (List.take ID_EXP_LENGTH_WORDS m).length ≤ 2 := by
      rw [List.length_take]
      exact min_le_left _ _
    calc accDigits RADIX_BITS (List.take ID_EXP_LENGTH_WORDS m)
        < 2 ^ (RADIX_BITS * (List.take ID_EXP_LENGTH_WORDS m).length) := hlt
      _ ≤ 2 ^ 20 := by
          apply Nat.pow_le_pow_right (by norm_num)
          show 10 * _ ≤ 20
          omega
  have hsp : ∀ k, k < 5 →
      (intToIndices (_intFromWordIndices
        (List.take 2 (List.drop ID_EXP_LENGTH_WORDS m))) 5 4).getD k 0 < 16 := by
    intro k hk
    have hmem := getD_mem_of_lt (l := intToIndices (_intFromWordIndices
        (List.take 2 (List.drop ID_EXP_LENGTH_WORDS m))) 5 4) (j := k)
      (by rw [intToIndices_length]; exact hk)
    exact intToIndices_lt _ 5 4 _ hmem
  refine ⟨?_, ?_, ?_, ?_, ?_, ?_, ?_, ?_, ?_, ?_, ?_⟩
  · show _intFromWordIndices (List.take ID_EXP_LENGTH_WORDS m)
      >>> (EXTENDABLE_FLAG_LENGTH_BITS + ITERATION_EXP_LENGTH_BITS) < 2 ^ 15
    rw [Nat.shiftRight_eq_div_pow]
    rw [Nat.div_lt_iff_lt_mul (by norm_num : (0 : Nat)
      < 2 ^ (EXTENDABLE_FLAG_LENGTH_BITS + ITERATION_EXP_LENGTH_BITS))]
    calc _intFromWordIndices (List.take ID_EXP_LENGTH_WORDS m) < 2 ^ 20 := hidE
      _ ≤ 2 ^ 15 * 2 ^ (EXTENDABLE_FLAG_LENGTH_BITS + ITERATION_EXP_LENGTH_BITS) := by
          norm_num [EXTENDABLE_FLAG_LENGTH_BITS, ITERATION_EXP_LENGTH_BITS]
  · show _intFromWordIndices (List.take ID_EXP_LENGTH_WORDS m)
      &&& ((1 <<< ITERATION_EXP_LENGTH_BITS) - 1) < 16
    rw [show ((1 : Nat) <<< ITERATION_EXP_LENGTH_BITS) - 1 = 15 from rfl,
      and15_eq_mod]
    exact Nat.mod_lt _ (by norm_num)
  · exact hsp 0 (by norm_num)
  · exact hsp 3 (by norm_num)
  · show 1 ≤ _ + 1
    omega
  · have := hsp 1 (by norm_num)
    show _ + 1 ≤ 16
    omega
  · show 1 ≤ _ + 1
    omega
  · have := hsp 2 (by norm_num)
    show _ + 1 ≤ 16
    omega
  · show 1 ≤ _ + 1
    omega
  · have := hsp 4 (by norm_num)
    show _ + 1 ≤ 16
    omega
  · have hle := Nat.not_lt.mp h4
    show _ + 1 ≤ _ + 1
    omega

theorem claim_C10_witness :
    (∀ w ∈ sW.words, w < 1024)
    ∧ Share.fromMnemonic sW.words = .ok sW
    ∧ (sW.identifier < 2 ^ 15 ∧ sW.iterationExponent < 16
      ∧ sW.groupIndex < 16 ∧ sW.index < 16
      ∧ 1 ≤ sW.groupThreshold ∧ sW.groupThreshold ≤ 16
      ∧ 1 ≤ sW.groupCount ∧ sW.groupCount ≤ 16
      ∧ 1 ≤ sW.memberThreshold ∧ sW.memberThreshold ≤ 16
      ∧ sW.groupThreshold ≤ sW.groupCount) :=
  ⟨by decide, by decide, claim_C10 sW.words sW (by decide) (by decide)⟩

/-! ## The value-decoding stage of `Share.fromMnemonic` (claim C4) -/

/-- The slice of value words the parser decodes
(`mnemonicData.slice(ID_EXP_LENGTH_WORDS + 2, length - CHECKSUM_LENGTH_WORDS)`). -/
def valueWords (m : List Nat) : List Nat :=
  (m.drop (ID_EXP_LENGTH_WORDS + 2)).take
    (m.length - CHECKSUM_LENGTH_WORDS - (ID_EXP_LENGTH_WORDS + 2))

/-- `paddingLen` of the parser. -/
def paddingLenOf (m : List Nat) : Nat :=
  (RADIX_BITS * (m.length - METADATA_LENGTH_WORDS)) % 16

/-- The big-endian base-1024 reassembly of the value words. -/
def valueIntOf (m : List Nat) : Nat :=
  (valueWords m).foldl (fun acc index => acc * 1024 + index) 0

/-- `valueByteCount` of the parser. -/
def valueByteCountOf (m : List Nat) : Nat :=
  bitsToBytes (RADIX_BITS * (valueWords m).length - paddingLenOf m)

/-- C4 (amended): when the earlier mnemonic checks pass, the parser
serializes the reassembled value integer to
`L = (10·value_words − p) / 8` bytes big-endian (the division is exact),
and raises the "invalid padding" error exactly when the `p` HIGH bits of
the integer — the bits beyond the `8·L` serialized ones — are nonzero,
not the low bits. -/
theorem claim_C4 (m : List Nat)
    (h1 : ¬(m.length < MIN_MNEMONIC_LENGTH_WORDS))
    (h2 : ¬(8 < (RADIX_BITS * (m.length - METADATA_LENGTH_WORDS)) % 16))
    (h3 : ¬(verifyChecksum m (_customizationString
      ((_intFromWordIndices (m.take ID_EXP_LENGTH_WORDS)
        >>> ITERATION_EXP_LENGTH_BITS) &&& 1 == 1)) = false))
    (h4 : ¬((intToIndices (_intFromWordIndices ((m.drop ID_EXP_LENGTH_WORDS).take 2)) 5 4).getD 2 0
      < (intToIndices (_intFromWordIndices ((m.drop ID_EXP_LENGTH_WORDS).take 2)) 5 4).getD 1 0)) :
    8 * valueByteCountOf m = RADIX_BITS * (valueWords m).length - paddingLenOf m
    ∧ (Share.fromMnemonic m = .error (.mnemonic "Invalid mnemonic padding.")
      ↔ valueIntOf m >>> (8 * valueByteCountOf m) ≠ 0)
    ∧ ∀ s, Share.fromMnemonic m = .ok s →
        s.value = (List.range (valueByteCountOf m)).map
          (fun i => (valueIntOf m >>> (8 * (valueByteCountOf m - 1 - i))) &&& 255) := by
  have hvwlen : (valueWords m).length = m.length - 7 := by
    rw [valueWords, List.length_take, List.length_drop]
    have hl : ¬(m.length < 20) := h1
    show min (m.length - CHECKSUM_LENGTH_WORDS - (ID_EXP_LENGTH_WORDS + 2)) (m.length - 4)
      = m.length - 7
    show min (m.length - 3 - 4) (m.length - 4) = m.length - 7
    omega
  have hexact : 8 * valueByteCountOf m
      = RADIX_BITS * (valueWords m).length - paddingLenOf m := by
    rw [valueByteCountOf, paddingLenOf, bitsToBytes, _roundBits, hvwlen]
    show 8 * ((10 * (m.length - 7) - 10 * (m.length - METADATA_LENGTH_WORDS) % 16 + 8 - 1) / 8)
      = 10 * (m.length - 7) - 10 * (m.length - METADATA_LENGTH_WORDS) % 16
    show 8 * ((10 * (m.length - 7) - 10 * (m.length - 7) % 16 + 8 - 1) / 8)
      = 10 * (m.length - 7) - 10 * (m.length - 7) % 16
    omega
  have hunf : Share.fromMnemonic m
      = if valueIntOf m >>> (8 * valueByteCountOf m) ≠ 0
        then .error (.mnemonic "Invalid mnemonic padding.")
        else .ok ⟨_intFromWordIndices (m.take ID_EXP_LENGTH_WORDS)
            >>> (EXTENDABLE_FLAG_LENGTH_BITS + ITERATION_EXP_LENGTH_BITS),
          (_intFromWordIndices (m.take ID_EXP_LENGTH_WORDS)
            >>> ITERATION_EXP_LENGTH_BITS) &&& 1 == 1,
          _intFromWordIndices (m.take ID_EXP_LENGTH_WORDS)
            &&& ((1 <<< ITERATION_EXP_LENGTH_BITS) - 1),
          (intToIndices (_intFromWordIndices ((m.drop ID_EXP_LENGTH_WORDS).take 2)) 5 4).getD 0 0,
          (intToIndices (_intFromWordIndices ((m.drop ID_EXP_LENGTH_WORDS).take 2)) 5 4).getD 1 0 + 1,
          (intToIndices (_intFromWordIndices ((m.drop ID_EXP_LENGTH_WORDS).take 2)) 5 4).getD 2 0 + 1,
          (intToIndices (_intFromWordIndices ((m.drop ID_EXP_LENGTH_WORDS).take 2)) 5 4).getD 3 0,
          (intToIndices (_intFromWordIndices ((m.drop ID_EXP_LENGTH_WORDS).take 2)) 5 4).getD 4 0 + 1,
          (List.range (valueByteCountOf m)).map
            (fun i => (valueIntOf m >>> (8 * (valueByteCountOf m - 1 - i))) &&& 255)⟩ := by
    simp only [Share.fromMnemonic]
    rw [if_neg h1, if_neg h2, if_neg h3, if_neg h4]
    rfl
  refine ⟨hexact, ?_, ?_⟩
  · by_cases hcond : valueIntOf m >>> (8 * valueByteCountOf m) ≠ 0
    · rw [hunf, if_pos hcond]
      exact ⟨fun _ => hcond, fun _ => rfl⟩
    · rw [hunf, if_neg hcond]
      exact ⟨fun hcontra => absurd hcontra (by simp), fun hcontra => absurd hcontra hcond⟩
  · intro s hs
    by_cases hcond : valueIntOf m >>> (8 * valueByteCountOf m) ≠ 0
    · rw [hunf, if_pos hcond] at hs
      exact Except.noConfusion hs
    · rw [hunf, if_neg hcond] at hs
      rw [← Except.ok.inj hs]

/-- An input for claim C4's analysis: a mnemonic whose checksum is valid
but whose first value word carries nonzero top (padding) bits while the
LOW padding bits of the value integer are zero. -/
def mdC4 : List Nat :=
  sW._encodeIdExp ++ sW._encodeShareParams
    ++ ([512] ++ List.replicate 12 0)
    ++ createChecksum
        (sW._encodeIdExp ++ sW._encodeShareParams ++ ([512] ++ List.replicate 12 0))
        (_customizationString true)

theorem claim_C4_witness :
    ¬(mdC4.length < MIN_MNEMONIC_LENGTH_WORDS)
    ∧ (8 * valueByteCountOf mdC4
        = RADIX_BITS * (valueWords mdC4).length - paddingLenOf mdC4
      ∧ (Share.fromMnemonic mdC4 = .error (.mnemonic "Invalid mnemonic padding.")
        ↔ valueIntOf mdC4 >>> (8 * valueByteCountOf mdC4) ≠ 0)
      ∧ ∀ s, Share.fromMnemonic mdC4 = .ok s →
          s.value = (List.range (valueByteCountOf mdC4)).map
            (fun i => (valueIntOf mdC4 >>> (8 * (valueByteCountOf mdC4 - 1 - i))) &&& 255)) :=
  ⟨by decide, claim_C4 mdC4 (by decide) (by decide) (by decide) (by decide)⟩

/-- C4 counterexample: on `mdC4` the LOW padding bits of the reassembled
value integer are zero, yet the parser raises the "invalid padding" error
— the check is on the high bits, not the low bits as claimed. -/
theorem claim_C4_counterexample :
    valueIntOf mdC4 % 2 ^ paddingLenOf mdC4 = 0
    ∧ 0 < paddingLenOf mdC4
    ∧ Share.fromMnemonic mdC4 = .error (.mnemonic "Invalid mnemonic padding.") := by
  refine ⟨by decide, by decide, by decide⟩

/-- C1: for every master secret of even length at least 16 bytes, every
valid group configuration, every printable-ASCII passphrase, extendable
flag and iteration exponent below 16, and every quorum of the mnemonics
produced by `generateMnemonics` (any `groupThreshold` distinct groups,
each contributing its member threshold of distinct member indices),
`combineMnemonics` applied to that quorum with the same passphrase
returns the original master secret (for well-behaved HMAC/PBKDF2
primitives and random-byte stream). -/
theorem claim_C1 (c : CryptoPrims) (hc : c.Good) (rng : Nat → Nat → List Nat)
    (hrng : rngGood rng) (ctr : Nat)
    (G : Nat) (groups : List (Nat × Nat)) (masterSecret passphrase : List Nat)
    (extendable : Bool) (e : Nat)
    (hmslen : 16 ≤ masterSecret.length) (hmseven : masterSecret.length % 2 = 0)
    (hmsb : ∀ b ∈ masterSecret, b < 256)
    (hpass : ∀ b ∈ passphrase, 32 ≤ b ∧ b ≤ 126)
    (he : e < 16)
    (hG1 : 1 ≤ G) (hGle : G ≤ groups.length) (hglen : groups.length ≤ 16)
    (hvalid : ∀ p ∈ groups, 1 ≤ p.1 ∧ p.1 ≤ p.2 ∧ p.2 ≤ 16)
    (hno11 : ∀ p ∈ groups, ¬(p.1 = 1 ∧ 1 < p.2))
    (sel : List (Nat × List Nat))
    (hsellen : sel.length = G)
    (hselnd : (sel.map Prod.fst).Nodup)
    (hsel : ∀ p ∈ sel, p.1 < groups.length
      ∧ p.2.length = (groups.getD p.1 (0, 0)).1
      ∧ p.2.Nodup ∧ ∀ mi ∈ p.2, mi < (groups.getD p.1 (0, 0)).2) :
    ∃ mnems : List (List (List Nat)),
      generateMnemonics c rng ctr G groups masterSecret passphrase extendable e = .ok mnems
      ∧ combineMnemonics c
          ((sel.map (fun p => p.2.map (fun mi => (mnems.getD p.1 []).getD mi []))).flatten)
          passphrase
        = .ok masterSecret :=
  generate_combine c hc rng hrng ctr G groups masterSecret passphrase extendable e
    hmslen hmseven hmsb hpass he hG1 hGle hglen hvalid hno11 sel hsellen hselnd hsel

def msW : List Nat := [1, 2, 3, 4, 5, 6, 7, 8, 9, 10, 11, 12, 13, 14, 15, 16]

theorem claim_C1_witness :
    16 ≤ msW.length ∧ msW.length % 2 = 0
    ∧ ∃ mnems : List (List (List Nat)),
      generateMnemonics cW rngW 0 1 [(1, 1)] msW [] true 0 = .ok mnems
      ∧ combineMnemonics cW
          ((([(0, [0])] : List (Nat × List Nat)).map
            (fun p => p.2.map (fun mi => (mnems.getD p.1 []).getD mi []))).flatten)
          []
        = .ok msW :=
  ⟨by decide, by decide,
    claim_C1 cW cW_good rngW rngW_good 0 1 [(1, 1)] msW [] true 0
      (by decide) (by decide) (by decide) (by decide) (by decide) (by decide)
      (by decide) (by decide) (by decide) (by decide) [(0, [0])]
      (by decide) (by decide) (by decide)⟩

end Slip39
